import Mathlib

/-!
# Verification of the obsidian-kanban parse/model/mutate/serialize/aggregate core

Shallow embedding of the board pipeline of the `erduoya77/obsidian-kanban`
repository.  Text is modelled as `List Char` (`Str`).  Functions present under
`src/` are translated from the source; functions that belong to the repository
but are not included under `src/` (the `helpers/parser` string transforms, the
task-list / tag micromark extensions, `dnd/util/data`, `parsers/common`
constants) are modelled from the specification and carry a doc comment saying
so.  External library functions (the markdown tokenizer, YAML/JSON codecs) are
abstracted: YAML and JSON payloads are carried as opaque strings.
-/

namespace Kanban

abbrev Str := List Char

/-- Whitespace predicate used by the JS-style `trim` model. -/
def isWs (c : Char) : Bool :=
  c = ' ' || c = '\n' || c = '\t' || c = '\r'

/-- JS `String.prototype.trim` model: drop whitespace from both ends. -/
def jsTrim (s : Str) : Str :=
  ((s.dropWhile isWs).reverse.dropWhile isWs).reverse

/-- Split a string into its lines at `'\n'` (JS `split('\n')` semantics:
the empty string yields one empty line). -/
def linesOf : Str → List Str
  | [] => [[]]
  | c :: rest =>
    if c = '\n' then [] :: linesOf rest
    else
      match linesOf rest with
      | [] => [[c]]
      | l :: ls => (c :: l) :: ls

/-- Join a list of strings with `'\n'` (JS `Array.prototype.flatten('\n')`). -/
def joinNl : List Str → Str
  | [] => []
  | [l] => l
  | l :: ls => l ++ '\n' :: joinNl ls

/-- `linesOf` never returns the empty list. -/
theorem linesOf_ne_nil (s : Str) : linesOf s ≠ [] := by
  induction s with
  | nil => simp [linesOf]
  | cons c cs ih =>
    by_cases hc : c = '\n'
    · subst hc; simp [linesOf]
    · simp only [linesOf, hc, if_false]
      cases h : linesOf cs with
      | nil => exact absurd h ih
      | cons l ls => simp

theorem linesOf_append_nl (x y : Str) :
    linesOf (x ++ '\n' :: y) = linesOf x ++ linesOf y := by
  induction x with
  | nil => simp [linesOf]
  | cons c cs ih =>
    by_cases hc : c = '\n'
    · subst hc; simp [linesOf, ih]
    · simp only [List.cons_append, linesOf, hc, if_false]
      have ih' : linesOf (cs.append ('\n' :: y)) = linesOf cs ++ linesOf y := ih
      rw [ih']
      cases hl : linesOf cs with
      | nil => exact absurd hl (linesOf_ne_nil cs)
      | cons l ls => simp

theorem joinNl_linesOf (s : Str) : joinNl (linesOf s) = s := by
  induction s with
  | nil => simp [linesOf, joinNl]
  | cons c cs ih =>
    by_cases hc : c = '\n'
    · subst hc
      simp only [linesOf]
      cases h : linesOf cs with
      | nil => exact absurd h (linesOf_ne_nil cs)
      | cons l ls => rw [h] at ih; simp [joinNl, ih]
    · simp only [linesOf, hc, if_false]
      cases h : linesOf cs with
      | nil => exact absurd h (linesOf_ne_nil cs)
      | cons l ls =>
        rw [h] at ih
        cases ls with
        | nil => simp_all [joinNl]
        | cons m ms => simp_all [joinNl]

/-- Find the first occurrence of `sep` in a string: returns the part before the
occurrence and the part after it (JS `indexOf` + slicing semantics). -/
def splitFirst (sep : Str) : Str → Option (Str × Str)
  | [] => none
  | c :: rest =>
    if sep.isPrefixOf (c :: rest) then some ([], (c :: rest).drop sep.length)
    else
      match splitFirst sep rest with
      | none => none
      | some (pre, post) => some (c :: pre, post)

/-- Substring occurrence test. -/
def occursSub (pat s : Str) : Bool := (splitFirst pat s).isSome

theorem splitFirst_reconstruct (sep : Str) :
    ∀ s pre post, splitFirst sep s = some (pre, post) → s = pre ++ sep ++ post := by
  intro s
  induction s with
  | nil => intro pre post h; simp [splitFirst] at h
  | cons c rest ih =>
    intro pre post h
    by_cases hp : sep.isPrefixOf (c :: rest)
    · simp only [splitFirst, hp, if_true] at h
      have h' : ([] : Str) = pre ∧ (c :: rest).drop sep.length = post := by
        constructor
        · exact (Prod.mk.injEq _ _ _ _ ▸ Option.some.inj h).1
        · exact (Prod.mk.injEq _ _ _ _ ▸ Option.some.inj h).2
      obtain ⟨h1, h2⟩ := h'
      subst h1
      obtain ⟨t, ht⟩ := (List.isPrefixOf_iff_prefix.mp hp)
      subst h2
      rw [List.nil_append, ← ht, List.drop_left]
    · simp only [splitFirst, hp, if_false] at h
      cases hs : splitFirst sep rest with
      | none => rw [hs] at h; simp at h
      | some pr =>
        rw [hs] at h
        have h' : c :: pr.1 = pre ∧ pr.2 = post := by
          constructor
          · exact (Prod.mk.injEq _ _ _ _ ▸ Option.some.inj h).1
          · exact (Prod.mk.injEq _ _ _ _ ▸ Option.some.inj h).2
        rw [← h'.1, ← h'.2]
        have hrec := ih pr.1 pr.2 (by rw [hs])
        simp [hrec]

theorem splitFirst_post_lt (sep : Str) (hsep : sep ≠ []) (s pre post : Str)
    (h : splitFirst sep s = some (pre, post)) : post.length < s.length := by
  have hr := splitFirst_reconstruct sep s pre post h
  subst hr
  simp only [List.length_append]
  have : 1 ≤ sep.length := by
    cases sep with
    | nil => exact absurd rfl hsep
    | cons a b => simp
  omega

/-- Fuel-driven worker for `splitSepNE` (structural, so that the kernel can
evaluate it). -/
def splitSepAux (a : Char) (sep2 : Str) : Nat → Str → List Str
  | 0, s => [s]
  | fuel + 1, s =>
    match splitFirst (a :: sep2) s with
    | none => [s]
    | some (pre, post) => pre :: splitSepAux a sep2 fuel post

/-- JS `String.prototype.split(sep)` for a non-empty separator `a :: sep2`. -/
def splitSepNE (a : Char) (sep2 : Str) (s : Str) : List Str :=
  splitSepAux a sep2 (s.length + 1) s

theorem splitSepAux_fuel (a : Char) (sep2 : Str) :
    ∀ fuel s, s.length < fuel →
      splitSepAux a sep2 fuel s = splitSepNE a sep2 s := by
  intro fuel
  induction fuel using Nat.strong_induction_on with
  | _ fuel ih =>
    intro s hs
    cases fuel with
    | zero => omega
    | succ f =>
      rw [splitSepNE]
      rw [splitSepAux]
      rw [splitSepAux]
      cases h : splitFirst (a :: sep2) s with
      | none => rfl
      | some pr =>
        obtain ⟨pre, post⟩ := pr
        have hlt := splitFirst_post_lt (a :: sep2) (by simp) s pre post h
        change pre :: splitSepAux a sep2 f post = pre :: splitSepAux a sep2 s.length post
        rw [ih f (by omega) post (by omega)]
        rw [ih s.length (by omega) post (by omega)]

/-- JS `String.prototype.split`.  An empty separator never occurs in this
development; it falls back to the whole string. -/
def jsSplit (sep : Str) (s : Str) : List Str :=
  match sep with
  | [] => [s]
  | a :: sep2 => splitSepNE a sep2 s

/-- JS `Array.prototype.flatten(sep)`. -/
def joinSep (sep : Str) : List Str → Str
  | [] => []
  | [x] => x
  | x :: xs => x ++ sep ++ joinSep sep xs

theorem splitSepNE_none (a : Char) (sep2 : Str) (s : Str)
    (h : splitFirst (a :: sep2) s = none) : splitSepNE a sep2 s = [s] := by
  rw [splitSepNE, splitSepAux, h]

theorem splitSepNE_some (a : Char) (sep2 : Str) (s pre post : Str)
    (h : splitFirst (a :: sep2) s = some (pre, post)) :
    splitSepNE a sep2 s = pre :: splitSepNE a sep2 post := by
  rw [splitSepNE, splitSepAux, h]
  have hlt := splitFirst_post_lt (a :: sep2) (by simp) s pre post h
  change pre :: splitSepAux a sep2 s.length post = _
  rw [splitSepAux_fuel a sep2 s.length post (by omega)]

theorem splitSepNE_ne_nil (a : Char) (sep2 : Str) (s : Str) :
    splitSepNE a sep2 s ≠ [] := by
  cases h : splitFirst (a :: sep2) s with
  | none => rw [splitSepNE_none a sep2 s h]; simp
  | some pr => rw [splitSepNE_some a sep2 s pr.1 pr.2 h]; simp

theorem joinSep_splitSepNE (a : Char) (sep2 : Str) (s : Str) :
    joinSep (a :: sep2) (splitSepNE a sep2 s) = s := by
  cases h : splitFirst (a :: sep2) s with
  | none => rw [splitSepNE_none a sep2 s h]; simp [joinSep]
  | some pr =>
    obtain ⟨pre, post⟩ := pr
    have hrec := splitFirst_reconstruct (a :: sep2) s pre post h
    have ih := joinSep_splitSepNE a sep2 post
    rw [splitSepNE_some a sep2 s pre post h]
    cases hs : splitSepNE a sep2 post with
    | nil => exact absurd hs (splitSepNE_ne_nil a sep2 post)
    | cons m ms =>
      rw [hs] at ih
      simp only [joinSep]
      rw [ih, ← hrec]
termination_by s.length
decreasing_by
  exact splitFirst_post_lt (a :: sep2) (by simp) s pre post h

/-- Fuel-driven worker for `replaceAll` (structural, kernel-evaluable). -/
def replaceAllF (pat rep : Str) : Nat → Str → Str
  | 0, s => s
  | _ + 1, [] => []
  | fuel + 1, c :: rest =>
    if pat ≠ [] ∧ pat.isPrefixOf (c :: rest) then
      rep ++ replaceAllF pat rep fuel ((c :: rest).drop pat.length)
    else
      c :: replaceAllF pat rep fuel rest

/-- Replace every occurrence of `pat` by `rep`, scanning left to right and
continuing after each replacement (JS global-regex `replace` on a literal
pattern). -/
def replaceAll (pat rep : Str) (s : Str) : Str :=
  replaceAllF pat rep s.length s

theorem replaceAllF_fuel (pat rep : Str) :
    ∀ fuel s, s.length ≤ fuel → replaceAllF pat rep fuel s = replaceAll pat rep s := by
  intro fuel
  induction fuel using Nat.strong_induction_on with
  | _ fuel ih =>
    intro s hs
    cases s with
    | nil =>
      cases fuel with
      | zero => rfl
      | succ f => rfl
    | cons c rest =>
      cases fuel with
      | zero => simp at hs
      | succ f =>
        rw [replaceAll]
        simp only [List.length_cons] at hs ⊢
        rw [replaceAllF, replaceAllF]
        by_cases h : pat ≠ [] ∧ pat.isPrefixOf (c :: rest)
        · rw [if_pos h, if_pos h]
          have hpl : 1 ≤ pat.length := by
            cases hpat : pat with
            | nil => exact absurd hpat h.1
            | cons x y => simp
          have hdl : ((c :: rest).drop pat.length).length ≤ f := by
            simp only [List.length_drop, List.length_cons]
            omega
          have hdl2 : ((c :: rest).drop pat.length).length ≤ rest.length := by
            simp only [List.length_drop, List.length_cons]
            omega
          rw [ih f (by omega) _ hdl]
          rw [ih rest.length (by omega) _ hdl2]
        · rw [if_neg h, if_neg h]
          rw [ih f (by omega) rest (by omega)]
          rw [ih rest.length (by omega) rest (by omega)]

theorem replaceAll_nil (pat rep : Str) : replaceAll pat rep [] = [] := rfl

theorem replaceAll_not_pref (pat rep : Str) (c : Char) (rest : Str)
    (h : ¬pat.isPrefixOf (c :: rest)) :
    replaceAll pat rep (c :: rest) = c :: replaceAll pat rep rest := by
  rw [replaceAll]
  simp only [List.length_cons]
  rw [replaceAllF, if_neg (by simp [h])]
  rw [replaceAllF_fuel pat rep rest.length rest (by omega)]

theorem replaceAll_pref (pat rep : Str) (c : Char) (rest : Str)
    (hne : pat ≠ []) (h : pat.isPrefixOf (c :: rest)) :
    replaceAll pat rep (c :: rest) =
      rep ++ replaceAll pat rep ((c :: rest).drop pat.length) := by
  rw [replaceAll]
  simp only [List.length_cons]
  rw [replaceAllF, if_pos ⟨hne, h⟩]
  have hpl : 1 ≤ pat.length := by
    cases hpat : pat with
    | nil => exact absurd hpat hne
    | cons x y => simp
  rw [replaceAllF_fuel pat rep rest.length _
    (by simp only [List.length_drop, List.length_cons]; omega)]

/-- If the pattern occurs nowhere in `s`, replacement is the identity. -/
theorem replaceAll_noop (pat rep : Str) (s : Str)
    (h : occursSub pat s = false) : replaceAll pat rep s = s := by
  induction s with
  | nil => exact replaceAll_nil pat rep
  | cons c rest ih =>
    simp only [occursSub, splitFirst] at h
    by_cases hp : pat.isPrefixOf (c :: rest)
    · simp [hp] at h
    · rw [replaceAll_not_pref pat rep c rest hp]
      simp only [hp, if_false] at h
      cases hs : splitFirst pat rest with
      | none => rw [ih (by simp [occursSub, hs])]
      | some pr => rw [hs] at h; simp at h

/-! ## Data model (src/components/types, shape mirrored) -/

/-- Per-card data (`ItemData` of `src/components/types`), restricted to the
fields the claims govern: raw title, checkbox character, block identifier,
metadata tags / date / time strings, derived display title, and the
aggregation bookkeeping fields `projectLaneId` / `projectItemId` that
`aggregateBoards` adds and `syncToProjectFiles` clears. -/
structure ItemData where
  titleRaw : Str
  checkChar : Char
  blockId : Option Str
  tags : List Str
  dateStr : Option Str
  timeStr : Option Str
  title : Str
  projectLaneId : Option Str
  projectItemId : Option Str
deriving DecidableEq, Repr

structure Item where
  id : Str
  data : ItemData
deriving DecidableEq, Repr

structure LaneData where
  title : Str
  maxItems : Nat
  shouldMarkItemsComplete : Bool
deriving DecidableEq, Repr

structure Lane where
  id : Str
  data : LaneData
  children : List Item
deriving DecidableEq, Repr

/-- Board-level auxiliary data.  The YAML frontmatter and the JSON settings
payloads are carried as opaque strings: `stringifyYaml` / `parseYaml`
(obsidian) and `JSON.stringify` / `JSON.parse` are external library functions
abstracted as the identity on these payloads. -/
structure BoardData where
  archive : List Item
  settings : Str
  frontmatter : Str
  errors : List Str
deriving DecidableEq, Repr

structure Board where
  id : Str
  children : List Lane
  data : BoardData
deriving DecidableEq, Repr

/-! ## String transform helpers

The functions of `src/parsers/helpers/parser.ts` are part of the repository
but are not included under `src/`; they are modelled from the specification
(§4.4: "raw title re-indented for continuation lines", "incidental interior
whitespace in a multi-line item body is preserved through a paired
indent/dedent transform", §4.2: block-id suffix stripping). -/

/-- Modelled from the spec: `replaceNewLines` (helpers/parser, not under
src/) — encode newlines of a heading title as literal `<br>` so the heading
stays on one line. -/
def replaceNewLines (s : Str) : Str := replaceAll ['\n'] "<br>".toList s

/-- Modelled from the spec: `replaceBrs` (helpers/parser, not under src/) —
decode literal `<br>` back into newlines. -/
def replaceBrs (s : Str) : Str := replaceAll "<br>".toList ['\n'] s

def indentUnit : Str := "    ".toList

/-- Modelled from the spec: `indentNewLines` (helpers/parser, not under
src/) — indent every continuation line of a multi-line item body. -/
def indentNewLines (s : Str) : Str := replaceAll ['\n'] ('\n' :: indentUnit) s

/-- Modelled from the spec: `dedentNewLines` (helpers/parser, not under
src/) — remove one level of continuation-line indentation; paired inverse of
`indentNewLines`. -/
def dedentNewLines (s : Str) : Str := replaceAll ('\n' :: indentUnit) ['\n'] s

def isBlockIdChar (c : Char) : Bool := c.isAlphanum || c = '-'

/-- Modelled from the spec: `addBlockId` (helpers/parser, not under src/) —
append the optional trailing block-id token. -/
def addBlockId (s : Str) (item : Item) : Str :=
  match item.data.blockId with
  | none => s
  | some bid => s ++ ' ' :: '^' :: bid

/-- Modelled from the spec: `removeBlockId` (helpers/parser, not under
src/) — strip a trailing whitespace-preceded `^id` token. -/
def removeBlockId (s : Str) : Str :=
  let rev := s.reverse
  let idr := rev.takeWhile isBlockIdChar
  match idr, rev.drop idr.length with
  | _ :: _, '^' :: c2 :: r2 =>
    if isWs c2 then ((c2 :: r2).dropWhile isWs).reverse else s
  | _, _ => s

/-- Fuel-driven worker for `natToStr` (structural, kernel-evaluable). -/
def natToStrF : Nat → Nat → Str
  | 0, _ => []
  | fuel + 1, n =>
    if n < 10 then [Char.ofNat (48 + n)]
    else natToStrF fuel (n / 10) ++ [Char.ofNat (48 + n % 10)]

/-- Decimal digits of a natural number. -/
def natToStr (n : Nat) : Str := natToStrF (n + 1) n

theorem natToStrF_fuel : ∀ fuel n, n < fuel → natToStrF fuel n = natToStr n := by
  intro fuel
  induction fuel using Nat.strong_induction_on with
  | _ fuel ih =>
    intro n hn
    cases fuel with
    | zero => omega
    | succ f =>
      rw [natToStr, natToStrF, natToStrF]
      by_cases h : n < 10
      · rw [if_pos h, if_pos h]
      · rw [if_neg h, if_neg h]
        have h1 : n / 10 < n := Nat.div_lt_self (by omega) (by omega)
        rw [ih f (by omega) (n / 10) (by omega)]
        rw [ih n (by omega) (n / 10) (by omega)]

/-- Value of a reversed (least-significant-first) digit string. -/
def digitsToNatRev : Str → Nat
  | [] => 0
  | c :: r => (c.toNat - 48) + 10 * digitsToNatRev r

/-- Modelled from the spec: `laneTitleWithMaxItems` (src/helpers, not under
src/) — render the lane's optional display cap (`maxItems`, `0` meaning no
cap, matching the JS falsiness convention) as a trailing `(n)` suffix. -/
def laneTitleWithMaxItems (title : Str) (maxItems : Nat) : Str :=
  if maxItems = 0 then title else title ++ " (".toList ++ natToStr maxItems ++ [')']

/-- Split a trailing `(digits)` display cap off a lane title (the regex
`^(.*?)\s*\((\d+)\)$` of `parseLaneTitle`). -/
def capSplit (t : Str) : Str × Nat :=
  match t.reverse with
  | ')' :: r1 =>
    let ds := r1.takeWhile Char.isDigit
    match ds, r1.drop ds.length with
    | _ :: _, '(' :: r3 => (((r3.dropWhile isWs).reverse : Str), digitsToNatRev ds)
    | _, _ => (t, 0)
  | _ => (t, 0)

/-- Modelled from the spec: `parseLaneTitle` (src/helpers, not under src/) —
decode `<br>` and extract the optional display cap. -/
def parseLaneTitle (s : Str) : Str × Nat := capSplit (replaceBrs s)

/-- Modelled from the spec: `completeString` (parsers/common, not under
src/) — the literal paragraph marker whose text is "Complete" (§4.2). -/
def completeString : Str := "**Complete**".toList

/-- Modelled from the spec: `archiveString` (parsers/common, not under
src/) — the thematic-break line that precedes the archive heading (§4.4). -/
def archiveString : Str := "***".toList

def archiveHeadingText : Str := "Archive".toList

def settingsMarker : Str := "%% kanban:settings".toList

def codeFence : Str := "```".toList

/-- Modelled from the spec: `settingsToCodeblock` (parsers/common, not under
src/) — the trailing fenced code block holding the JSON board settings, in
the exact shape `extractSettingsFooter` scans for. -/
def settingsToCodeblock (board : Board) : Str :=
  joinNl [[], [], settingsMarker, codeFence, board.data.settings, codeFence, "%%".toList]

/-! ## Serializer (src/unnamed/part_006 lines 1052-1100) -/

/-- `itemToMd` (part_006 line 1052). -/
def itemToMd (item : Item) : Str :=
  "- [".toList ++ item.data.checkChar :: "] ".toList
    ++ addBlockId (indentNewLines item.data.titleRaw) item

/-- `laneToMd` (part_006 line 1056). -/
def laneToMd (lane : Lane) : Str :=
  joinNl (("## ".toList
      ++ replaceNewLines (laneTitleWithMaxItems lane.data.title lane.data.maxItems))
    :: [] :: ((if lane.data.shouldMarkItemsComplete then [completeString] else [])
    ++ lane.children.map itemToMd ++ [[], [], []]))

/-- `archiveToMd` (part_006 line 1078). -/
def archiveToMd (archive : List Item) : Str :=
  if archive.isEmpty then []
  else joinNl ([archiveString, [], "## ".toList ++ archiveHeadingText, []]
    ++ archive.map itemToMd)

/-- `boardToMd` (part_006 line 1092).  The frontmatter block serializes the
opaque YAML payload; `stringifyYaml` is abstracted as the identity. -/
def boardToMd (board : Board) : Str :=
  let fm := joinNl ["---".toList, [], board.data.frontmatter, "---".toList, [], []]
  let lanes := (board.children.map laneToMd).foldl (· ++ ·) []
  fm ++ lanes ++ archiveToMd board.data.archive ++ settingsToCodeblock board

/-! ## Checkbox three-state cycle (src/components/Item/ItemCheckbox.tsx 35-75) -/

/-- The next checkbox character of `onCheckboxChange`
(ItemCheckbox.tsx lines 42-58): blank → slash → done character → blank,
any other character resets to blank. -/
def nextCheckChar (doneChar currentChar : Char) : Char :=
  if currentChar = ' ' then '/'
  else if currentChar = '/' then doneChar
  else if currentChar = doneChar then ' '
  else ' '

/-- The companion `checked` flag set by `onCheckboxChange`. -/
def nextChecked (doneChar currentChar : Char) : Bool :=
  if currentChar = ' ' then false
  else if currentChar = '/' then true
  else false

/-! ## Composite aggregated identifiers (src/src/ProjectStateManager.ts) -/

def sepTriple : Str := ":::".toList

/-- Aggregated item id construction (`aggregateBoards`,
ProjectStateManager.ts line 446): `filePath:::laneKey:::itemKey`. -/
def aggregatedItemId (filePath laneKey itemKey : Str) : Str :=
  filePath ++ sepTriple ++ laneKey ++ sepTriple ++ itemKey

/-- Aggregated lane id construction (`aggregateBoards`, line 433). -/
def aggregatedLaneId (filePath laneKey : Str) : Str :=
  filePath ++ sepTriple ++ laneKey

/-- The id-decoding step of `findOriginalItem`
(ProjectStateManager.ts lines 683-688): split on `:::`, require at least
three segments, and re-join all segments from the third onward. -/
def decodeAggregatedItemId (aggId : Str) : Option (Str × Str × Str) :=
  match jsSplit sepTriple aggId with
  | p :: l :: i1 :: restI => some (p, l, joinSep sepTriple (i1 :: restI))
  | _ => none

theorem occursSub_cons_false (pat : Str) (c : Char) (rest : Str)
    (h : occursSub pat (c :: rest) = false) : occursSub pat rest = false := by
  simp only [occursSub, splitFirst] at h ⊢
  by_cases hp : pat.isPrefixOf (c :: rest)
  · simp [hp] at h
  · simp only [hp, if_false] at h
    cases hs : splitFirst pat rest with
    | none => simp
    | some pr => rw [hs] at h; simp at h

/-- A segment free of `:::` and not ending in `:` passes unsplit: the first
`:::` of `p ++ ::: ++ r` sits exactly at the junction. -/
theorem splitFirst_sep_clean (p r : Str)
    (h1 : occursSub sepTriple p = false) (h2 : p.getLast? ≠ some ':') :
    splitFirst sepTriple (p ++ sepTriple ++ r) = some (p, r) := by
  induction p with
  | nil =>
    show splitFirst sepTriple (':' :: ':' :: ':' :: r) = some ([], r)
    simp only [splitFirst]
    rw [if_pos (by simp [sepTriple, List.isPrefixOf])]
    rfl
  | cons c p' ih =>
    have hp : ¬sepTriple.isPrefixOf (c :: p' ++ sepTriple ++ r) := by
      intro hp
      obtain ⟨t, ht⟩ := List.isPrefixOf_iff_prefix.mp hp
      cases p' with
      | nil =>
        have hc : c = ':' := by
          have := congrArg (fun l => l.head?) ht
          simpa [sepTriple] using this.symm
        exact h2 (by simp [hc])
      | cons d p'' =>
        cases p'' with
        | nil =>
          have hd : d = ':' := by
            have := congrArg (fun l => l.get? 1) ht
            simpa [sepTriple] using this.symm
          exact h2 (by simp [hd])
        | cons e p''' =>
          have hc : c = ':' ∧ d = ':' ∧ e = ':' := by
            refine ⟨?_, ?_, ?_⟩
            · have := congrArg (fun l => l.get? 0) ht
              simpa [sepTriple] using this.symm
            · have := congrArg (fun l => l.get? 1) ht
              simpa [sepTriple] using this.symm
            · have := congrArg (fun l => l.get? 2) ht
              simpa [sepTriple] using this.symm
          obtain ⟨hc1, hc2, hc3⟩ := hc


          subst hc1; subst hc2; subst hc3
          simp [occursSub, splitFirst, sepTriple, List.isPrefixOf] at h1
    have h1' : occursSub sepTriple p' = false := occursSub_cons_false _ _ _ h1
    have h2' : p'.getLast? ≠ some ':' := by
      cases p' with
      | nil => simp
      | cons d p'' =>
        rw [List.getLast?_cons_cons] at h2
        exact h2
    show splitFirst sepTriple (c :: (p' ++ sepTriple ++ r)) = some (c :: p', r)
    rw [splitFirst]
    rw [if_neg (show ¬(sepTriple.isPrefixOf (c :: (p' ++ sepTriple ++ r)) = true) from hp)]
    rw [ih h1' h2']

/-- Project-file registry (`projectFiles : Map<string, ProjectFile>` of
`ProjectStateManager`), modelled as an association list from document path to
its parsed Board. -/
abbrev ProjectFiles := List (Str × Board)

/-- JS `Map.get` over the association-list model. -/
def lookupPF (pf : ProjectFiles) (path : Str) : Option Board :=
  (pf.find? (fun e => e.1 == path)).map (·.2)

/-- `findOriginalItem` (ProjectStateManager.ts lines 678-700): decode the
composite id, then look up the project file, the lane and the item. -/
def findOriginalItem (pf : ProjectFiles) (aggId : Str) :
    Option (Str × Board × Lane × Item) :=
  match decodeAggregatedItemId aggId with
  | none => none
  | some (filePath, laneId2, itemId2) =>
    match lookupPF pf filePath with
    | none => none
    | some b =>
      match b.children.find? (fun l => l.id == laneId2) with
      | none => none
      | some lane =>
        match lane.children.find? (fun i => i.id == itemId2) with
        | none => none
        | some item => some (filePath, b, lane, item)

theorem jsSplit_encode_clean (p l i : Str)
    (hp1 : occursSub sepTriple p = false) (hp2 : p.getLast? ≠ some ':')
    (hl1 : occursSub sepTriple l = false) (hl2 : l.getLast? ≠ some ':') :
    jsSplit sepTriple (aggregatedItemId p l i) = p :: l :: jsSplit sepTriple i := by
  show splitSepNE ':' (':' :: ':' :: []) (aggregatedItemId p l i) = _
  have e1 : aggregatedItemId p l i = p ++ sepTriple ++ (l ++ sepTriple ++ i) := by
    simp [aggregatedItemId, List.append_assoc]
  rw [e1]
  rw [splitSepNE_some ':' (':' :: ':' :: []) _ p (l ++ sepTriple ++ i)
    (splitFirst_sep_clean p (l ++ sepTriple ++ i) hp1 hp2)]
  rw [splitSepNE_some ':' (':' :: ':' :: []) _ l i
    (splitFirst_sep_clean l i hl1 hl2)]
  rfl

theorem decode_encode_clean (p l i : Str)
    (hp1 : occursSub sepTriple p = false) (hp2 : p.getLast? ≠ some ':')
    (hl1 : occursSub sepTriple l = false) (hl2 : l.getLast? ≠ some ':') :
    decodeAggregatedItemId (aggregatedItemId p l i) = some (p, l, i) := by
  rw [decodeAggregatedItemId, jsSplit_encode_clean p l i hp1 hp2 hl1 hl2]
  show (match p :: l :: splitSepNE ':' (':' :: ':' :: []) i with
    | p :: l :: i1 :: restI => some (p, l, joinSep sepTriple (i1 :: restI))
    | _ => none) = some (p, l, i)
  cases hs : splitSepNE ':' (':' :: ':' :: []) i with
  | nil => exact absurd hs (splitSepNE_ne_nil ':' (':' :: ':' :: []) i)
  | cons i1 restI =>
    have hj : joinSep sepTriple (i1 :: restI) = i := by
      rw [← hs]
      exact joinSep_splitSepNE ':' (':' :: ':' :: []) i
    simp [hj]

theorem decode_short_none (s : Str)
    (h : (jsSplit sepTriple s).length < 3) : decodeAggregatedItemId s = none := by
  rw [decodeAggregatedItemId]
  cases h1 : jsSplit sepTriple s with
  | nil => rfl
  | cons a t1 =>
    cases t1 with
    | nil => rfl
    | cons b t2 =>
      cases t2 with
      | nil => rfl
      | cons c t3 =>
        rw [h1] at h
        simp only [List.length_cons] at h
        omega

/-! ## Generic path-addressed list operations (tree mutation engine)

`src/dnd/util/data.ts` belongs to the repository but is not included under
src/; the operations are modelled from the specification (§4.3). -/

def modifyIdx (f : α → α) : Nat → List α → List α
  | _, [] => []
  | 0, x :: xs => f x :: xs
  | n + 1, x :: xs => x :: modifyIdx f n xs

def insertAt : Nat → α → List α → List α
  | 0, a, l => a :: l
  | _ + 1, a, [] => [a]
  | n + 1, a, x :: xs => x :: insertAt n a xs

def removeAt : Nat → List α → List α
  | _, [] => []
  | 0, _ :: xs => xs
  | n + 1, x :: xs => x :: removeAt n xs

/-- Modelled from the spec: `moveEntity` of `src/dnd/util/data` (not under
src/), restricted to item paths `[laneIndex, itemIndex]` — get the entity at
the source path, remove it, and insert it at the destination path, where the
effective insertion index is adjusted by one when the destination index is
greater than the source index in the same parent collection (§4.3). -/
def moveItem (b : Board) (fromLane fromIdx toLane toIdx : Nat) : Board :=
  match (b.children.get? fromLane).bind (fun l => l.children.get? fromIdx) with
  | none => b
  | some entity =>
    let removed :=
      modifyIdx (fun l => { l with children := removeAt fromIdx l.children })
        fromLane b.children
    let adjIdx := if fromLane = toLane ∧ fromIdx < toIdx then toIdx - 1 else toIdx
    let inserted :=
      modifyIdx (fun l => { l with children := insertAt adjIdx entity l.children })
        toLane removed
    { b with children := inserted }

theorem removeAt_eq_take_drop (s : Nat) (xs : List α) :
    removeAt s xs = xs.take s ++ xs.drop (s + 1) := by
  induction xs generalizing s with
  | nil => cases s <;> simp [removeAt]
  | cons x rest ih =>
    cases s with
    | zero => simp [removeAt]
    | succ n => simp [removeAt, ih]

theorem insertAt_eq_take_drop (n : Nat) (a : α) (l : List α) :
    insertAt n a l = l.take n ++ a :: l.drop n := by
  induction l generalizing n with
  | nil => cases n <;> simp [insertAt]
  | cons x rest ih =>
    cases n with
    | zero => simp [insertAt]
    | succ m => simp [insertAt, ih]

theorem insertAt_perm (n : Nat) (a : α) (l : List α) :
    (insertAt n a l).Perm (a :: l) := by
  rw [insertAt_eq_take_drop]
  have h1 : (l.take n ++ a :: l.drop n).Perm (a :: (l.take n ++ l.drop n)) :=
    List.perm_middle
  rw [List.take_append_drop] at h1
  exact h1

theorem get_take_append_drop (s : Nat) (xs : List α) (x : α)
    (h : xs.get? s = some x) : xs = xs.take s ++ x :: xs.drop (s + 1) := by
  obtain ⟨hs, hget⟩ := List.get?_eq_some.mp h
  conv_lhs => rw [← List.take_append_drop s xs, List.drop_eq_get_cons hs, hget]

theorem removeAt_cons_perm (s : Nat) (xs : List α) (x : α)
    (h : xs.get? s = some x) : xs.Perm (x :: removeAt s xs) := by
  rw [removeAt_eq_take_drop]
  conv_lhs => rw [get_take_append_drop s xs x h]
  exact List.perm_middle

/-! ## Runtime children-repair pass (src/unnamed/part_005 lines 13-72) -/

/-- A generic JS syntax-tree node as the parser actually handles it: the
`children` field of a node is `none` when the property is absent,
`some none` when the property is present but holds `undefined`, `null`, or a
non-array value, and `some (some l)` when it is a concrete array. -/
inductive JNode where
  | mk (ty : Str) (children : Option (Option (List JNode)))

def JNode.ty : JNode → Str
  | .mk t _ => t

def JNode.children : JNode → Option (Option (List JNode))
  | .mk _ k => k

mutual

/-- `ensureChildrenAreArrays` (part_005 lines 13-72): the runtime repair
pass that walks the tree after parsing, replaces an `undefined` / `null` /
non-array `children` value by `[]`, recursively repairs array children at
`depth + 1`, leaves a node without a `children` property untouched, and
gives up below the recursion cutoff `depth > 100`. -/
def ensureChildrenAreArrays (depth : Nat) : JNode → JNode
  | JNode.mk ty kids =>
    if depth > 100 then JNode.mk ty kids
    else
      match kids with
      | none => JNode.mk ty none
      | some none => JNode.mk ty (some (some []))
      | some (some l) =>
        JNode.mk ty (some (some (ensureChildrenAreList (depth + 1) l)))

def ensureChildrenAreList (depth : Nat) : List JNode → List JNode
  | [] => []
  | n :: ns => ensureChildrenAreArrays depth n :: ensureChildrenAreList depth ns

end

mutual

/-- A node satisfies the shape guarantee when every `children` property in
its tree holds a concrete array. -/
def kidsOk : JNode → Bool
  | JNode.mk _ none => true
  | JNode.mk _ (some none) => false
  | JNode.mk _ (some (some l)) => kidsOkList l

def kidsOkList : List JNode → Bool
  | [] => true
  | n :: ns => kidsOk n && kidsOkList ns

end

mutual

def heightJ : JNode → Nat
  | JNode.mk _ none => 1
  | JNode.mk _ (some none) => 1
  | JNode.mk _ (some (some l)) => 1 + heightList l

def heightList : List JNode → Nat
  | [] => 0
  | n :: ns => max (heightJ n) (heightList ns)

end

mutual

theorem ensureChildren_ok (d : Nat) (n : JNode) (h : d + heightJ n ≤ 101) :
    kidsOk (ensureChildrenAreArrays d n) = true := by
  cases n with
  | mk ty kids =>
    have hd : ¬d > 100 := by
      have h1 : 1 ≤ heightJ (JNode.mk ty kids) := by
        cases kids with
        | none => simp [heightJ]
        | some k => cases k <;> simp [heightJ]
      omega
    cases kids with
    | none => simp [ensureChildrenAreArrays, hd, kidsOk]
    | some k =>
      cases k with
      | none => simp [ensureChildrenAreArrays, hd, kidsOk, kidsOkList]
      | some l =>
        simp only [ensureChildrenAreArrays, hd, if_false, kidsOk]
        exact ensureChildrenList_ok (d + 1) l (by simp [heightJ] at h; omega)

theorem ensureChildrenList_ok (d : Nat) (l : List JNode)
    (h : d + heightList l ≤ 101) :
    kidsOkList (ensureChildrenAreList d l) = true := by
  cases l with
  | nil => simp [ensureChildrenAreList, kidsOkList]
  | cons n ns =>
    simp only [ensureChildrenAreList, kidsOkList, Bool.and_eq_true]
    constructor
    · exact ensureChildren_ok d n (by simp [heightList] at h; omega)
    · exact ensureChildrenList_ok d ns (by simp [heightList] at h; omega)

end

theorem modifyIdx_get_self (f : α → α) (n : Nat) (l : List α) :
    (modifyIdx f n l).get? n = (l.get? n).map f := by
  induction l generalizing n with
  | nil => cases n <;> simp [modifyIdx]
  | cons x xs ih =>
    cases n with
    | zero => simp [modifyIdx]
    | succ m =>
      simp only [modifyIdx, List.get?_cons_succ]
      exact ih m

theorem modifyIdx_get_other (f : α → α) (n m : Nat) (l : List α) (h : n ≠ m) :
    (modifyIdx f n l).get? m = l.get? m := by
  induction l generalizing n m with
  | nil => cases n <;> simp [modifyIdx]
  | cons x xs ih =>
    cases n with
    | zero => cases m with
      | zero => exact absurd rfl h
      | succ k => simp [modifyIdx]
    | succ j => cases m with
      | zero => simp [modifyIdx]
      | succ k => simp only [modifyIdx, List.get?_cons_succ]; exact ih j k (by omega)

theorem insertAt_removeAt_shift (s d : Nat) (xs : List α) (x : α)
    (h2 : s < d) (h3 : d ≤ xs.length) :
    insertAt (d - 1) x (removeAt s xs) =
      xs.take s ++ (xs.drop (s + 1)).take (d - 1 - s) ++ x :: xs.drop d := by
  have hlen : (xs.take s).length = s := by rw [List.length_take]; omega
  have e1 : (xs.take s ++ xs.drop (s + 1)).take (d - 1)
      = xs.take s ++ (xs.drop (s + 1)).take (d - 1 - s) := by
    rw [List.take_append_eq_append_take, hlen]
    congr 1
    rw [List.take_take]
    congr 1
    omega
  have e2 : (xs.take s ++ xs.drop (s + 1)).drop (d - 1) = xs.drop d := by
    rw [List.drop_append_eq_append_drop]
    rw [List.drop_eq_nil_of_le (show (xs.take s).length ≤ d - 1 from by rw [hlen]; omega)]
    rw [hlen, List.nil_append, List.drop_drop]
    congr 1
    omega
  rw [removeAt_eq_take_drop, insertAt_eq_take_drop, e1, e2, List.append_assoc]

theorem shift_result_get (s d : Nat) (xs : List α) (x : α)
    (h2 : s < d) (h3 : d ≤ xs.length) :
    (xs.take s ++ (xs.drop (s + 1)).take (d - 1 - s) ++ x :: xs.drop d).get? (d - 1)
      = some x := by
  have hA : (xs.take s).length = s := by rw [List.length_take]; omega
  have hB : ((xs.drop (s + 1)).take (d - 1 - s)).length = d - 1 - s := by
    rw [List.length_take, List.length_drop]; omega
  rw [List.append_assoc, List.get?_append_right (by rw [hA]; omega)]
  rw [List.get?_append_right (by rw [hA, hB])]
  rw [hA, hB]
  rw [show d - 1 - s - (d - 1 - s) = 0 from by omega]
  rfl

theorem shift_result_perm (s d : Nat) (xs : List α) (x : α)
    (h2 : s < d) (h3 : d ≤ xs.length) (hx : xs.get? s = some x) :
    (xs.take s ++ (xs.drop (s + 1)).take (d - 1 - s) ++ x :: xs.drop d).Perm xs := by
  have hmid : ((xs.take s ++ (xs.drop (s + 1)).take (d - 1 - s)) ++ x :: xs.drop d).Perm
      (x :: ((xs.take s ++ (xs.drop (s + 1)).take (d - 1 - s)) ++ xs.drop d)) :=
    List.perm_middle
  have hC : xs.drop d = ((xs.drop (s + 1)).drop (d - 1 - s)) := by
    rw [List.drop_drop]
    congr 1
    omega
  have hBC : (xs.drop (s + 1)).take (d - 1 - s) ++ xs.drop d = xs.drop (s + 1) := by
    rw [hC, List.take_append_drop]
  have hrw : (xs.take s ++ (xs.drop (s + 1)).take (d - 1 - s)) ++ xs.drop d
      = xs.take s ++ xs.drop (s + 1) := by
    rw [List.append_assoc, hBC]
  rw [hrw] at hmid
  have hfin : xs.Perm (x :: (xs.take s ++ xs.drop (s + 1))) := by
    rw [← removeAt_eq_take_drop]
    exact removeAt_cons_perm s xs x hx
  exact hmid.trans hfin.symm

/-! ## Claim theorems: C2, C5, C8, C10 -/

/-- C2: moving an item within the same lane from index `s` to index `d` with
`s < d` applies the index-shift correction — the entity is re-inserted at
`d - 1` after removal, so it lands at position `d - 1`, the items strictly
between shift down by one, and the result is a permutation of the original
lane (no item duplicated or lost); and concretely, moving the item at path
`[0,2]` to path `[0,0]` in the same lane places it first with the other two
items of a three-item group shifted by exactly one position. -/
theorem c2_move_index_shift (board : Board) (L s d : Nat) (lane : Lane) (x : Item)
    (h1 : board.children.get? L = some lane)
    (h2 : s < d) (h3 : d ≤ lane.children.length)
    (hx : lane.children.get? s = some x)
    (bid lid : Str) (bd : BoardData) (ld : LaneData)
    (a b c : Item) (rest : List Item) :
    ((moveItem board L s L d).children.get? L =
      some { lane with children :=
        lane.children.take s
          ++ (lane.children.drop (s + 1)).take (d - 1 - s)
          ++ x :: lane.children.drop d }
     ∧ (lane.children.take s
          ++ (lane.children.drop (s + 1)).take (d - 1 - s)
          ++ x :: lane.children.drop d).get? (d - 1) = some x
     ∧ (lane.children.take s
          ++ (lane.children.drop (s + 1)).take (d - 1 - s)
          ++ x :: lane.children.drop d).Perm lane.children)
    ∧ (moveItem (Board.mk bid [Lane.mk lid ld (a :: b :: c :: rest)] bd) 0 2 0 0 =
        Board.mk bid [Lane.mk lid ld (c :: a :: b :: rest)] bd
       ∧ (c :: a :: b :: rest).Perm (a :: b :: c :: rest)) := by
  have hentity : (board.children.get? L).bind (fun l => l.children.get? s) = some x := by
    rw [h1]; simpa using hx
  refine ⟨⟨?_, shift_result_get s d lane.children x h2 h3,
      shift_result_perm s d lane.children x h2 h3 hx⟩, ?_, ?_⟩
  · have hmv : moveItem board L s L d =
        { board with children := modifyIdx (fun l => { l with children := insertAt (if L = L ∧ s < d then d - 1 else d) x l.children }) L (modifyIdx (fun l => { l with children := removeAt s l.children }) L board.children) } := by
      unfold moveItem
      rw [hentity]
    rw [hmv]
    show (modifyIdx _ L (modifyIdx _ L board.children)).get? L = _
    rw [modifyIdx_get_self, modifyIdx_get_self, h1]
    rw [if_pos (And.intro rfl h2)]
    show some (Lane.mk lane.id lane.data (insertAt (d - 1) x (removeAt s lane.children))) = _
    rw [insertAt_removeAt_shift s d lane.children x h2 h3]
  · rfl
  · have hp : (([c] ++ [a, b]) ++ rest).Perm (([a, b] ++ [c]) ++ rest) :=
      List.Perm.append_right rest List.perm_append_comm
    simpa using hp

def demoItemData (t : Str) : ItemData :=
  ⟨t, ' ', none, [], none, none, [], none, none⟩

def demoItem (n : Nat) : Item := ⟨natToStr n, demoItemData (natToStr n)⟩

def demoLaneData : LaneData := ⟨"Todo".toList, 0, false⟩

def demoBoardData : BoardData := ⟨[], "1".toList, "project: x".toList, []⟩

def c2DemoLane : Lane :=
  Lane.mk "l0".toList demoLaneData [demoItem 0, demoItem 1, demoItem 2, demoItem 3]

def c2DemoBoard : Board := Board.mk "B".toList [c2DemoLane] demoBoardData

theorem c2_move_index_shift_witness :
    (moveItem c2DemoBoard 0 1 0 3).children.get? 0 =
      some (Lane.mk "l0".toList demoLaneData
        [demoItem 0, demoItem 2, demoItem 1, demoItem 3]) :=
  (c2_move_index_shift c2DemoBoard 0 1 3 c2DemoLane (demoItem 1) rfl
    (by omega) (by decide) rfl [] [] demoBoardData demoLaneData
    (demoItem 0) (demoItem 1) (demoItem 2) []).1.1

def c5BadNode : JNode := JNode.mk "listItem".toList (some none)

/-- C5 counterexample: the claim says the always-present-children invariant
is established by the node type definitions at construction time rather than
by a runtime repair pass.  In the code the node type admits a container node
whose `children` value is `undefined` (`c5BadNode` violates the invariant),
and it is the runtime repair pass `ensureChildrenAreArrays` — which
`parseMarkdown` (part_005 line 364) runs over the tree after parsing — that
replaces the missing collection by a concrete empty array. -/
theorem c5_counterexample :
    kidsOk c5BadNode = false ∧
    (ensureChildrenAreArrays 0 c5BadNode).children = some (some []) ∧
    kidsOk (ensureChildrenAreArrays 0 c5BadNode) = true :=
  ⟨rfl, rfl, rfl⟩

/-- C5 (amended): for every parsed tree (up to the repair pass's recursion
cutoff at depth 100), every node that carries a `children` property holds a
concrete array after the runtime repair pass `ensureChildrenAreArrays` that
`parseMarkdown` applies to the tree after parsing — the invariant is
established by this repair pass, not by the node type definitions. -/
theorem c5_shape_guarantee_by_repair (n : JNode) (h : heightJ n ≤ 101) :
    kidsOk (ensureChildrenAreArrays 0 n) = true :=
  ensureChildren_ok 0 n (by omega)

def c5DemoTree : JNode :=
  JNode.mk "root".toList
    (some (some [JNode.mk "paragraph".toList (some none),
                 JNode.mk "text".toList none]))

theorem c5_shape_guarantee_by_repair_witness :
    kidsOk (ensureChildrenAreArrays 0 c5DemoTree) = true :=
  c5_shape_guarantee_by_repair c5DemoTree (by decide)

/-- C8: for an Item whose checkChar is the pending character (blank), the
checkbox-toggle transition of `onCheckboxChange` (ItemCheckbox.tsx 35-75)
visits the in-progress character `/` and the configured done character
exactly once each, in that order, and returns to the pending character after
three applications — provided the configured done character is distinct from
the pending and in-progress characters. -/
theorem c8_checkbox_cycle (doneChar : Char)
    (h1 : doneChar ≠ ' ') (h2 : doneChar ≠ '/') :
    nextCheckChar doneChar ' ' = '/' ∧
    nextCheckChar doneChar (nextCheckChar doneChar ' ') = doneChar ∧
    nextCheckChar doneChar
      (nextCheckChar doneChar (nextCheckChar doneChar ' ')) = ' ' := by
  refine ⟨rfl, ?_, ?_⟩ <;> simp [nextCheckChar, h1, h2]

theorem c8_checkbox_cycle_witness :
    nextCheckChar 'x' ' ' = '/' ∧
    nextCheckChar 'x' (nextCheckChar 'x' ' ') = 'x' ∧
    nextCheckChar 'x' (nextCheckChar 'x' (nextCheckChar 'x' ' ')) = ' ' :=
  c8_checkbox_cycle 'x' (by decide) (by decide)

/-- C10 counterexample: the claim only requires the document path and lane id
to contain no `:::` substring, but a path ending in `:` (here `"a:"`, which
contains no `:::`) merges with the separator, so the decode step of
`findOriginalItem` recovers `("a", ":l", "i")` instead of the original
`("a:", "l", "i")`. -/
theorem c10_counterexample :
    occursSub sepTriple "a:".toList = false ∧
    occursSub sepTriple "l".toList = false ∧
    decodeAggregatedItemId (aggregatedItemId "a:".toList "l".toList "i".toList) =
      some ("a".toList, ":l".toList, "i".toList) ∧
    decodeAggregatedItemId (aggregatedItemId "a:".toList "l".toList "i".toList) ≠
      some ("a:".toList, "l".toList, "i".toList) := by
  refine ⟨rfl, rfl, by decide, by decide⟩

/-- C10 (amended): when the document path and lane id contain no `:::`
substring *and neither ends in `':'`*, the decode step of `findOriginalItem`
recovers exactly the `(path, laneId, itemId)` triple from the id that
`aggregateBoards` constructs (item ids may contain the separator, since all
segments from the third onward are re-joined); and for every id string with
fewer than three `:::`-separated segments, `findOriginalItem` returns null. -/
theorem c10_composite_id_roundtrip (p l i : Str)
    (hp1 : occursSub sepTriple p = false) (hp2 : p.getLast? ≠ some ':')
    (hl1 : occursSub sepTriple l = false) (hl2 : l.getLast? ≠ some ':') :
    decodeAggregatedItemId (aggregatedItemId p l i) = some (p, l, i) ∧
    (∀ s pf, (jsSplit sepTriple s).length < 3 → findOriginalItem pf s = none) := by
  constructor
  · exact decode_encode_clean p l i hp1 hp2 hl1 hl2
  · intro s pf h
    simp only [findOriginalItem, decode_short_none s h]

theorem c10_composite_id_roundtrip_witness :
    decodeAggregatedItemId
        (aggregatedItemId "A.md".toList "lane1".toList "it:::em3".toList) =
      some ("A.md".toList, "lane1".toList, "it:::em3".toList) ∧
    (∀ s pf, (jsSplit sepTriple s).length < 3 → findOriginalItem pf s = none) :=
  c10_composite_id_roundtrip "A.md".toList "lane1".toList "it:::em3".toList
    (by decide) (by decide) (by decide) (by decide)

/-! ## mdast-style AST model for the board builder (src/unnamed/part_006)

The markdown tokenizer (`mdast-util-from-markdown` plus the repository's
micromark extensions, which are not under src/) is external to this
embedding: ASTs are supplied directly, in the shape the builder code
consumes.  Inline node kinds are restricted to the ones the claims
exercise (text, hashtag, date, dateLink, time, blockid). -/

inductive Inline where
  | text (value : Str) (startO endO : Option Nat)
  | hashtag (value : Str) (startO endO : Option Nat)
  | date (value : Str) (startO endO : Option Nat)
  | dateLink (value : Str) (startO endO : Option Nat)
  | timeTok (value : Str) (startO endO : Option Nat)
  | blockid (value : Str) (startO endO : Option Nat)
deriving DecidableEq, Repr

def Inline.value : Inline → Str
  | .text v _ _ => v
  | .hashtag v _ _ => v
  | .date v _ _ => v
  | .dateLink v _ _ => v
  | .timeTok v _ _ => v
  | .blockid v _ _ => v

def Inline.startO : Inline → Option Nat
  | .text _ s _ => s
  | .hashtag _ s _ => s
  | .date _ s _ => s
  | .dateLink _ s _ => s
  | .timeTok _ s _ => s
  | .blockid _ s _ => s

def Inline.endO : Inline → Option Nat
  | .text _ _ e => e
  | .hashtag _ _ e => e
  | .date _ _ e => e
  | .dateLink _ _ e => e
  | .timeTok _ _ e => e
  | .blockid _ _ e => e

def Inline.isBlockid : Inline → Bool
  | .blockid _ _ _ => true
  | _ => false

/-- A paragraph-wrapped item child with its source span. -/
structure ParaNode where
  children : List Inline
  startO : Option Nat
  endO : Option Nat
deriving DecidableEq, Repr

/-- A parsed task list item (`TaskItem`, part_006 line 215): the custom task
list extension records the raw checkbox character and a `checked` flag that
is true for any non-blank character. -/
structure TaskItemAst where
  checked : Bool
  checkChar : Option Char
  children : List ParaNode
deriving DecidableEq, Repr

/-- Top-level body nodes seen by `astToUnhydratedBoard`. -/
inductive Content where
  | heading (children : List Inline)
  | paragraph (children : List Inline)
  | thematicBreak
  | list (items : List TaskItemAst)
deriving DecidableEq, Repr

/-- JS truthiness of an optional offset: an absent offset and the offset `0`
both count as missing (the code tests `!node.position?.start?.offset`). -/
def jsOffset : Option Nat → Option Nat
  | none => none
  | some 0 => none
  | some (n + 1) => some (n + 1)

/-- `getNodeContentBoundary` (part_006 lines 1108-1144) over a node's inline
children: first child's start offset to last child's end offset, excluding a
trailing `blockid` child, with the JS falsy-offset guards. -/
def getNodeContentBoundary (children : List Inline) : Option (Nat × Nat) :=
  match children with
  | [] => none
  | c0 :: rest =>
    match jsOffset c0.startO with
    | none => none
    | some st =>
      match (c0 :: rest).getLast? with
      | none => none
      | some lastN =>
        if lastN.isBlockid then
          if rest.isEmpty then some (st, st)
          else
            match (c0 :: rest).get? ((c0 :: rest).length - 2) with
            | none => none
            | some prevN =>
              match jsOffset prevN.endO with
              | none => none
              | some en => some (st, en)
        else
          match jsOffset lastN.endO with
          | none => none
          | some en => some (st, en)

/-- `getStringFromBoundary` (part_006 line 1146). -/
def getStringFromBoundary (md : Str) (b : Option (Nat × Nat)) : Str :=
  match b with
  | none => []
  | some (s, e) => (md.drop s).take (e - s)

def nullCh : Char := Char.ofNat 0

/-- Modelled from the spec: `markRangeForDeletion` (helpers/parser, not
under src/) — mark a half-open source range of the title for excision by
overwriting it with NUL characters. -/
def markRangeForDeletion (s : Str) (st en : Nat) : Str :=
  s.take st ++ List.replicate (min en s.length - st) nullCh ++ s.drop en

/-- One match attempt of the excision collapse: optional spaces, at least
one NUL, optional spaces. -/
def delMatch (s : Str) : Option Str :=
  let sp := s.dropWhile (fun c => c = ' ')
  match sp with
  | [] => none
  | c :: _ =>
    if c = nullCh then
      some ((sp.dropWhile (fun c => c = nullCh)).dropWhile (fun c => c = ' '))
    else none

def collapseDelF : Nat → Str → Str
  | 0, s => s
  | fuel + 1, s =>
    match delMatch s with
    | some rest => ' ' :: collapseDelF fuel rest
    | none =>
      match s with
      | [] => []
      | c :: r => c :: collapseDelF fuel r

/-- Modelled from the spec: `executeDeletion` (helpers/parser, not under
src/) — collapse every marked run (with its surrounding spaces) to a single
space and trim the result, so an excised token leaves no stray spacing. -/
def executeDeletion (s : Str) : Str := jsTrim (collapseDelF s.length s)

/-- Modelled from the spec: `preprocessTitle` (helpers/hydrateBoard, not
under src/) — the extensible title-postprocessing hook; under the default
settings considered here (no inline scheduling-field relocation) it leaves
the title unchanged. -/
def preprocessTitle (s : Str) : Str := s

def strLt : Str → Str → Bool
  | [], [] => false
  | [], _ :: _ => true
  | _ :: _, [] => false
  | a :: as, b :: bs =>
    if a.toNat < b.toNat then true
    else if b.toNat < a.toNat then false
    else strLt as bs

def insertSorted (x : Str) : List Str → List Str
  | [] => [x]
  | y :: ys => if strLt y x then y :: insertSorted x ys else x :: y :: ys

/-- Modelled from the spec: `defaultSort` (helpers/util, not under src/) —
the tag list is sorted with the default string comparison. -/
def sortStrs (l : List Str) : List Str := l.foldr insertSorted []

/-- State threaded through the metadata visit of `listItemToItemData`. -/
structure VisitState where
  title : Str
  blockId : Option Str
  tags : List Str
  dateStr : Option Str
  timeStr : Option Str
deriving DecidableEq, Repr

/-- The metadata visitor body (part_006 lines 605-710), applied to one
inline node whose parent paragraph's first child value is `parentFirstVal`:
a `blockid` records the block identifier; a `hashtag` outside a leading code
fence contributes `#value` to the tag list and, under the move-tags option,
marks its source range in the title for excision; `date` / `dateLink` /
`time` record their strings and are excised under the move-dates option. -/
def visitInline (moveTags moveDates : Bool) (bStart : Nat)
    (parentFirstVal : Option Str) (st : VisitState) (n : Inline) : VisitState :=
  match n with
  | .blockid v _ _ => { st with blockId := some v }
  | .hashtag v so eo =>
    let fenceGuard :=
      match parentFirstVal with
      | none => true
      | some fv => ¬codeFence.isPrefixOf fv
    if fenceGuard then
      let st1 := { st with tags := st.tags ++ ['#' :: v] }
      if moveTags then
        match jsOffset so, jsOffset eo with
        | some a, some b =>
          { st1 with title := markRangeForDeletion st1.title (a - bStart) (b - bStart) }
        | _, _ => st1
      else st1
    else st
  | .date v so eo =>
    let st1 := { st with dateStr := some v }
    if moveDates then
      match jsOffset so, jsOffset eo with
      | some a, some b =>
        { st1 with title := markRangeForDeletion st1.title (a - bStart) (b - bStart) }
      | _, _ => st1
    else st1
  | .dateLink v so eo =>
    let st1 := { st with dateStr := some v }
    if moveDates then
      match jsOffset so, jsOffset eo with
      | some a, some b =>
        { st1 with title := markRangeForDeletion st1.title (a - bStart) (b - bStart) }
      | _, _ => st1
    else st1
  | .timeTok v so eo =>
    let st1 := { st with timeStr := some v }
    if moveDates then
      match jsOffset so, jsOffset eo with
      | some a, some b =>
        { st1 with title := markRangeForDeletion st1.title (a - bStart) (b - bStart) }
      | _, _ => st1
    else st1
  | .text _ _ _ => st

/-- The metadata visit (part_006 lines 712-718): the visitor runs over every
non-paragraph node of the item in tree order (the item root matches no
branch; paragraphs are traversed but not visited). -/
def metadataVisit (moveTags moveDates : Bool) (bStart : Nat)
    (item : TaskItemAst) (title0 : Str) : VisitState :=
  item.children.foldl
    (fun st para =>
      para.children.foldl
        (visitInline moveTags moveDates bStart ((para.children.head?).map Inline.value))
        st)
    ⟨title0, none, [], none, none⟩

def emptyItemDataOf (item : TaskItemAst) : ItemData :=
  ⟨[], (if item.checked then item.checkChar.getD ' ' else ' '), none,
    [], none, none, [], none, none⟩

/-- `listItemToItemData` (part_006 lines 303-763), restricted to the fields
of the `ItemData` model: content boundary between the first and last child
(paragraph-wrapped children use their inner boundary, a trailing block-id
child is excluded by `getNodeContentBoundary`), slice of the source text,
empty-checkbox normalization, metadata visit, and the final title pipeline
`preprocessTitle ∘ dedentNewLines ∘ executeDeletion` /
`removeBlockId ∘ dedentNewLines ∘ replaceBrs`.  The `titleSearch` fields and
the inline-metadata relocation stage (lines 732-759, whose module is not
under src/ and whose recognized fields are absent from the inputs
considered) are not modelled. -/
def listItemToItemData (moveTags moveDates : Bool) (md : Str)
    (item : TaskItemAst) : ItemData :=
  match item.children with
  | [] => emptyItemDataOf item
  | startNode :: restCh =>
    let endNode := (startNode :: restCh).getLast (by simp)
    match jsOffset startNode.startO, jsOffset endNode.endO with
    | some s0, some e0 =>
      let st := ((getNodeContentBoundary startNode.children).map Prod.fst).getD s0
      let en := ((getNodeContentBoundary endNode.children).map Prod.snd).getD e0
      let itemContent0 := (md.drop st).take (en - st)
      let effChar := if item.checked then item.checkChar.getD ' ' else ' '
      let itemContent := if itemContent0 = '[' :: effChar :: [']'] then [] else itemContent0
      let vs := metadataVisit moveTags moveDates st item itemContent
      { titleRaw := removeBlockId (dedentNewLines (replaceBrs itemContent)),
        checkChar := effChar,
        blockId := vs.blockId,
        tags := sortStrs vs.tags,
        dateStr := vs.dateStr,
        timeStr := vs.timeStr,
        title := preprocessTitle (dedentNewLines (executeDeletion vs.title)),
        projectLaneId := none,
        projectItemId := none }
    | _, _ => emptyItemDataOf item

/-- mdast `toString` over the model: concatenation of inline values. -/
def contentToString : Content → Str
  | .heading ch => (ch.map Inline.value).foldl (· ++ ·) []
  | .paragraph ch => (ch.map Inline.value).foldl (· ++ ·) []
  | .thematicBreak => []
  | .list _ => []

/-- `getPrevSibling` (part_006 line 1152). -/
def getPrevSibling (children : List Content) (i : Nat) : Option Content :=
  if i = 0 then none else children.get? (i - 1)

def isBreakOpt : Option Content → Bool
  | some Content.thematicBreak => true
  | _ => false

/-- `isArchiveLane` (part_006 lines 766-774): a heading whose text is the
literal "Archive" and whose immediately preceding sibling is a thematic
break. -/
def isArchiveLane (child : Content) (children : List Content) (i : Nat) : Bool :=
  match child with
  | .heading _ =>
    if contentToString child ≠ archiveHeadingText then false
    else isBreakOpt (getPrevSibling children i)
  | _ => false

/-- The lookahead `getNextOfType(root.children, index, 'list', …)`
(part_006 lines 832-862) with its `shouldContinue` closure: stop (no list)
at a heading or at a paragraph that begins the settings codeblock marker;
a paragraph equal to the literal "Complete" sets the lane's
items-complete flag and the walk continues; anything else is skipped. -/
def findListGo : List Content → Bool → Option (List TaskItemAst) × Bool
  | [], flag => (none, flag)
  | c :: rest, flag =>
    match c with
    | .list its => (some its, flag)
    | .heading _ => (none, flag)
    | .paragraph ch =>
      let s := contentToString (.paragraph ch)
      if settingsMarker.isPrefixOf s then (none, flag)
      else if s = "Complete".toList then findListGo rest true
      else findListGo rest flag
    | .thematicBreak => findListGo rest flag

def findListFrom (children : List Content) (i : Nat) :
    Option (List TaskItemAst) × Bool :=
  findListGo (children.drop (i + 1)) false

/-- Accumulator of the `astToUnhydratedBoard` forEach. -/
structure BuildState where
  lanes : List Lane
  archive : List Item
deriving DecidableEq, Repr

/-- One step of the `astToUnhydratedBoard` forEach (part_006 lines
806-967): a non-heading child is skipped; a heading with an invalid content
boundary is skipped; an "Archive" heading immediately preceded by a thematic
break routes its following list's items into the archive; every other
heading pushes a Lane (with the found list's items, the parsed lane title
and display cap, and the Complete flag collected during the lookahead).
Instance ids (`generateInstanceId`) are modelled as empty strings. -/
def processChild (moveTags moveDates : Bool) (md : Str)
    (children : List Content) (i : Nat) (st : BuildState) : BuildState :=
  match children.get? i with
  | none => st
  | some child =>
    match child with
    | .heading hs =>
      match getNodeContentBoundary hs with
      | none => st
      | some (bs, be) =>
        let title := (md.drop bs).take (be - bs)
        let found := findListFrom children i
        match found.1 with
        | some listItems =>
          if isArchiveLane (Content.heading hs) children i then
            { st with archive := st.archive
                ++ listItems.map (fun li =>
                    Item.mk [] (listItemToItemData moveTags moveDates md li)) }
          else
            { st with lanes := st.lanes
                ++ [Lane.mk []
                      (LaneData.mk (parseLaneTitle title).1 (parseLaneTitle title).2
                        found.2)
                      (listItems.map (fun li =>
                        Item.mk [] (listItemToItemData moveTags moveDates md li)))] }
        | none =>
          { st with lanes := st.lanes
              ++ [Lane.mk []
                    (LaneData.mk (parseLaneTitle title).1 (parseLaneTitle title).2
                      found.2)
                    []] }
    | _ => st

/-- `astToUnhydratedBoard` (part_006 lines 776-982), folded over the body's
top-level children. -/
def astToUnhydratedBoard (moveTags moveDates : Bool) (md : Str)
    (children : List Content) (boardId settings frontmatter : Str) : Board :=
  let st := (List.range children.length).foldl
    (fun st i => processChild moveTags moveDates md children i st) ⟨[], []⟩
  Board.mk boardId st.lanes (BoardData.mk st.archive settings frontmatter [])

/-! ## Claim theorems: C6, C7 -/

def md7 : Str := "- [ ] Buy milk #errand".toList

/-- The tokenizer's AST for `- [ ] Buy milk #errand`: an unchecked task item
wrapping one paragraph with a text node and a hashtag node at their source
offsets. -/
def item7 : TaskItemAst :=
  ⟨false, some ' ',
   [⟨[Inline.text "Buy milk ".toList (some 6) (some 15),
      Inline.hashtag "errand".toList (some 15) (some 22)], some 6, some 22⟩]⟩

/-- C7: parsing the list item `Buy milk #errand` with the move-tags option
enabled yields title "Buy milk" and tag list ["#errand"]; with the option
disabled the title remains "Buy milk #errand" and the tag list is still
["#errand"] (`listItemToItemData`, part_006 lines 303-763). -/
theorem c7_tag_extraction :
    (listItemToItemData true false md7 item7).title = "Buy milk".toList ∧
    (listItemToItemData true false md7 item7).tags = ["#errand".toList] ∧
    (listItemToItemData false false md7 item7).title = "Buy milk #errand".toList ∧
    (listItemToItemData false false md7 item7).tags = ["#errand".toList] := by
  refine ⟨by decide, by decide, by decide, by decide⟩

/-- C6: for any document body, a heading whose text is the literal
"Archive" and whose immediately preceding sibling is a thematic break routes
its following list's items into the archive sequence and creates no Lane;
every other heading — including one whose text is "Archive" but which is not
immediately preceded by a thematic break — starts a Lane
(`isArchiveLane` and the `astToUnhydratedBoard` forEach,
part_006 lines 766-967). -/
theorem c6_archive_detection (moveTags moveDates : Bool) (md : Str)
    (children : List Content) (i : Nat) (hs : List Inline) (st : BuildState)
    (hchild : children.get? i = some (Content.heading hs)) :
    ((contentToString (Content.heading hs) = archiveHeadingText ∧ 0 < i ∧
      children.get? (i - 1) = some Content.thematicBreak) →
      ∀ bs be listItems flag,
        getNodeContentBoundary hs = some (bs, be) →
        findListFrom children i = (some listItems, flag) →
        (processChild moveTags moveDates md children i st).lanes = st.lanes ∧
        (processChild moveTags moveDates md children i st).archive =
          st.archive ++ listItems.map (fun li =>
            Item.mk [] (listItemToItemData moveTags moveDates md li)))
    ∧
    ((contentToString (Content.heading hs) ≠ archiveHeadingText ∨ i = 0 ∨
      children.get? (i - 1) ≠ some Content.thematicBreak) →
      ∀ bs be,
        getNodeContentBoundary hs = some (bs, be) →
        (processChild moveTags moveDates md children i st).archive = st.archive ∧
        (processChild moveTags moveDates md children i st).lanes = st.lanes ++
          [Lane.mk []
            (LaneData.mk (parseLaneTitle ((md.drop bs).take (be - bs))).1
              (parseLaneTitle ((md.drop bs).take (be - bs))).2
              (findListFrom children i).2)
            (match (findListFrom children i).1 with
             | some listItems => listItems.map (fun li =>
                 Item.mk [] (listItemToItemData moveTags moveDates md li))
             | none => [])]) := by
  constructor
  · intro harch bs be listItems flag hbound hfind
    have hprev : getPrevSibling children i = some Content.thematicBreak := by
      rw [getPrevSibling, if_neg (by omega)]
      exact harch.2.2
    have hisarch : isArchiveLane (Content.heading hs) children i = true := by
      simp only [isArchiveLane]
      rw [if_neg (by simp [harch.1])]
      rw [hprev]
      rfl
    simp only [processChild, hchild, hbound, hfind, hisarch, if_true]
    constructor <;> trivial
  · intro hother bs be hbound
    have hisarch : isArchiveLane (Content.heading hs) children i = false := by
      simp only [isArchiveLane]
      by_cases ht : contentToString (Content.heading hs) = archiveHeadingText
      · rw [if_neg (by simp [ht])]
        rcases hother with h | h | h
        · exact absurd ht h
        · rw [getPrevSibling, if_pos h]
          rfl
        · cases hp : getPrevSibling children i with
          | none => rfl
          | some c =>
            cases c with
            | thematicBreak =>
              exfalso
              rw [getPrevSibling] at hp
              by_cases hi : i = 0
              · rw [if_pos hi] at hp
                exact Option.noConfusion hp
              · rw [if_neg hi] at hp
                exact h hp
            | heading ch => rfl
            | paragraph ch => rfl
            | list its => rfl
      · rw [if_pos ht]
    cases hf : (findListFrom children i).1 with
    | some listItems =>
      have hfind : findListFrom children i = (some listItems, (findListFrom children i).2) := by
        rw [← hf]
      simp only [processChild, hchild, hbound, hf, hisarch]
      simp only [Bool.false_eq_true, if_false]
      constructor <;> trivial
    | none =>
      simp only [processChild, hchild, hbound, hf]
      constructor <;> trivial

def c6md : Str := "## Setup\n\n- [ ] A\n\n***\n\n## Archive\n\n- [x] Old".toList

def c6ItemOld : TaskItemAst :=
  ⟨true, some 'x', [⟨[Inline.text "Old".toList (some 42) (some 45)], some 42, some 45⟩]⟩

def c6ItemA : TaskItemAst :=
  ⟨false, some ' ', [⟨[Inline.text "A".toList (some 16) (some 17)], some 16, some 17⟩]⟩

def c6Children : List Content :=
  [Content.heading [Inline.text "Setup".toList (some 3) (some 8)],
   Content.list [c6ItemA],
   Content.thematicBreak,
   Content.heading [Inline.text "Archive".toList (some 27) (some 34)],
   Content.list [c6ItemOld]]

theorem c6_archive_detection_witness :
    (processChild false false c6md c6Children 3 ⟨[], []⟩).lanes = [] ∧
    (processChild false false c6md c6Children 3 ⟨[], []⟩).archive =
      [Item.mk [] ⟨"Old".toList, 'x', none, [], none, none, "Old".toList,
        none, none⟩] := by
  have h := (c6_archive_detection false false c6md c6Children 3
      [Inline.text "Archive".toList (some 27) (some 34)] ⟨[], []⟩ rfl).1
      ⟨by decide, by decide, rfl⟩ 27 34 [c6ItemOld] false rfl rfl
  exact ⟨h.1, by rw [h.2]; decide⟩

/-! ## Frontmatter and settings-footer extraction (src/unnamed/part_005) -/

/-- Result of `extractFrontmatter`: `err` is the thrown
`'Error parsing frontmatter'` (a non-dash among the first three characters);
`undef` is the implicit `undefined` return of an unterminated block, on
which `parseMarkdown` then crashes at `Object.keys(mdFrontmatter)`; `ok`
carries the trimmed YAML payload (`parseYaml` abstracted as the identity)
and the text after the closing dashes. -/
inductive FmResult where
  | err
  | undef
  | ok (yaml : Str) (rest : Str)
deriving DecidableEq, Repr

def isNlCr (c : Char) : Bool := c = '\n' || c = '\r'

/-- The scanning loop of `extractFrontmatter` (part_005 lines 86-101) after
the three opening dashes: find the first `-` that is preceded by a newline
and followed by two more dashes; the payload is the text from index 3 up to
(excluding) the character before that dash, trimmed.  `prev` is the
previously consumed character and `acc` the consumed payload in reverse. -/
def twoDashes : Str → Bool
  | '-' :: '-' :: _ => true
  | _ => false

def fmScan (prev : Char) (acc : Str) : Str → FmResult
  | [] => .undef
  | c :: rest =>
    if c = '-' ∧ isNlCr prev = true ∧ twoDashes rest = true then
      .ok (jsTrim (acc.drop 1).reverse) (rest.drop 2)
    else fmScan c (c :: acc) rest

/-- `extractFrontmatter` (part_005 lines 82-102): the document must open
with three dashes (a non-dash earlier throws), then the loop scans for the
newline-preceded closing dashes. -/
def extractFrontmatter (md : Str) : FmResult :=
  match md with
  | [] => .undef
  | c1 :: rest1 =>
    if c1 = '-' then
      match rest1 with
      | [] => .undef
      | c2 :: rest2 =>
        if c2 = '-' then
          match rest2 with
          | [] => .undef
          | c3 :: rest3 => if c3 = '-' then fmScan '-' [] rest3 else .err
        else .err
    else .err

def isFooterClassChar (c : Char) : Bool :=
  c = '`' || c = '%' || c = '\n' || c = '\r'

/-- Phase two of `extractSettingsFooter`: walking backwards below the
closing fence, accumulate the payload and stop at the rightmost backtick of
the opening fence (three backticks preceded by a newline).  `first` marks
the `settingsEnd` position, which the end-exclusive slice omits. -/
def openFenceBefore : Str → Bool
  | '`' :: '`' :: d :: _ => isNlCr d
  | _ => false

def footScan2 (first : Bool) (acc : Str) : Str → Option Str
  | [] => none
  | c :: rest =>
    if c = '`' ∧ openFenceBefore rest = true then
      some (jsTrim acc)
    else footScan2 false (if first then acc else c :: acc) rest

/-- Phase one of `extractSettingsFooter` (part_005 lines 104-128): walking
backwards from the end, only backticks, percent signs and newlines may
appear before the closing fence; the third backtick enters phase two.  A
character outside that class first means there is no settings footer. -/
def footScan1 (ticks : Nat) : Str → Option Str
  | [] => none
  | c :: rest =>
    if isFooterClassChar c then
      if c = '`' then
        if ticks = 2 then footScan2 true [] rest
        else footScan1 (ticks + 1) rest
      else footScan1 ticks rest
    else none

/-- `extractSettingsFooter` (part_005 lines 104-128), with `JSON.parse`
abstracted as the identity on the fenced payload. -/
def extractSettingsFooter (md : Str) : Option Str := footScan1 0 md.reverse

/-! ## Document-level parse of the serialized format

The markdown tokenization itself is the external `mdast-util-from-markdown`
library plus micromark extensions that are not under src/; the body parse
below is therefore modelled from the spec (§6 document format, §4.2 board
builder) at line granularity, while the frontmatter/settings extraction is
the faithful embedding above and the item fields follow the
`listItemToItemData` formulas (content slice, empty-checkbox normalization,
`removeBlockId ∘ dedentNewLines ∘ replaceBrs`, checkbox character from the
task-list extension with `checked` true for any non-blank character). -/

/-- Recognize `- [c] content`. -/
def parseItemLine (l : Str) : Option (Char × Str) :=
  match l with
  | '-' :: ' ' :: '[' :: c :: ']' :: ' ' :: content => some (c, content)
  | _ => none

/-- Modelled from the spec: the trailing block-id token of the blockid
extension (not under src/) — one space, a caret and a non-empty run of
id characters at the end of the item content; excluded from the content
boundary, kept as the Item's block identifier (§4.2). -/
def splitBlockIdTok (s : Str) : Option Str × Str :=
  let rev := s.reverse
  let idr := rev.takeWhile isBlockIdChar
  match idr, rev.drop idr.length with
  | _ :: _, '^' :: ' ' :: r2 => (some idr.reverse, r2.reverse)
  | _, _ => (none, s)

/-- Item data computed from a checkbox character and the raw item content,
following `listItemToItemData` (part_006 lines 408-588): the task-list
extension records `checked = (c ≠ ' ')`; the trailing block-id token is
excluded from the boundary; an empty-checkbox content normalizes to the
empty string; `titleRaw` is `removeBlockId (dedentNewLines (replaceBrs …))`.
Inline metadata (tags, dates) is not modelled at document level — it is not
among the governed fields. -/
def mkItemData (c : Char) (content0 : Str) : ItemData :=
  let astChecked := c ≠ ' '
  let effChar := if astChecked then c else ' '
  let bid := (splitBlockIdTok content0).1
  let content1 := (splitBlockIdTok content0).2
  let content2 := if content1 = '[' :: effChar :: [']'] then [] else content1
  { titleRaw := removeBlockId (dedentNewLines (replaceBrs content2)),
    checkChar := effChar,
    blockId := bid,
    tags := [], dateStr := none, timeStr := none, title := [],
    projectLaneId := none, projectItemId := none }

def mkParsedItem (c : Char) (content : Str) : Item := Item.mk [] (mkItemData c content)

inductive PMode where
  | top
  | lane (ld : LaneData) (items : List Item) (cur : Option (Char × Str))
  | arch (cur : Option (Char × Str))
  | stopped
deriving DecidableEq, Repr

structure PState where
  lanes : List Lane
  archive : List Item
  afterBreak : Bool
  mode : PMode
deriving DecidableEq, Repr

def closeCur : Option (Char × Str) → List Item
  | none => []
  | some (c, acc) => [mkParsedItem c acc]

def extendCur (cur : Option (Char × Str)) (l : Str) : Option (Char × Str) :=
  match cur with
  | some (c, acc) => some (c, acc ++ '\n' :: l)
  | none => none

def headingPrefix : Str := "## ".toList

/-- One line of the body walk: headings start lanes (or, after a thematic
break, the archive when titled "Archive"); `**Complete**` before a lane's
list sets its flag; item lines open items, indented lines continue them,
blank lines close them; `***` records a thematic break; the settings marker
stops the walk (§4.2, §6). -/
def stepLine (st : PState) (l : Str) : PState :=
  match st.mode with
  | .stopped => st
  | .top =>
    if settingsMarker.isPrefixOf l then { st with mode := .stopped }
    else if l = [] then st
    else if l = archiveString then { st with afterBreak := true }
    else if headingPrefix.isPrefixOf l then
      if st.afterBreak ∧ l.drop 3 = archiveHeadingText then
        { st with mode := .arch none, afterBreak := false }
      else
        let ld0 := LaneData.mk (parseLaneTitle (l.drop 3)).1 (parseLaneTitle (l.drop 3)).2 false
        { st with mode := .lane ld0 [] none, afterBreak := false }
    else { st with afterBreak := false }
  | .lane ld items cur =>
    if settingsMarker.isPrefixOf l then
      { st with mode := .stopped, lanes := st.lanes ++ [Lane.mk [] ld (items ++ closeCur cur)] }
    else if l = [] then { st with mode := .lane ld (items ++ closeCur cur) none }
    else if l = archiveString then
      { st with mode := .top, afterBreak := true, lanes := st.lanes ++ [Lane.mk [] ld (items ++ closeCur cur)] }
    else if headingPrefix.isPrefixOf l then
      let ld0 := LaneData.mk (parseLaneTitle (l.drop 3)).1 (parseLaneTitle (l.drop 3)).2 false
      { st with lanes := st.lanes ++ [Lane.mk [] ld (items ++ closeCur cur)], mode := .lane ld0 [] none, afterBreak := false }
    else if l = completeString then
      if items.isEmpty ∧ cur.isNone then
        { st with mode := .lane (LaneData.mk ld.title ld.maxItems true) items cur }
      else st
    else if indentUnit.isPrefixOf l ∧ cur.isSome then
      { st with mode := .lane ld items (extendCur cur l) }
    else
      match parseItemLine l with
      | some (c, content) =>
        { st with mode := .lane ld (items ++ closeCur cur) (some (c, content)) }
      | none => { st with afterBreak := false }
  | .arch cur =>
    if settingsMarker.isPrefixOf l then
      { st with mode := .stopped, archive := st.archive ++ closeCur cur }
    else if l = [] then { st with mode := .arch none, archive := st.archive ++ closeCur cur }
    else if l = archiveString then
      { st with mode := .top, afterBreak := true, archive := st.archive ++ closeCur cur }
    else if headingPrefix.isPrefixOf l then
      let ld0 := LaneData.mk (parseLaneTitle (l.drop 3)).1 (parseLaneTitle (l.drop 3)).2 false
      { st with archive := st.archive ++ closeCur cur, mode := .lane ld0 [] none, afterBreak := false }
    else if indentUnit.isPrefixOf l ∧ cur.isSome then
      { st with mode := .arch (extendCur cur l) }
    else
      match parseItemLine l with
      | some (c, content) =>
        { st with mode := .arch (some (c, content)), archive := st.archive ++ closeCur cur }
      | none => st

def finalizeP (st : PState) : List Lane × List Item :=
  match st.mode with
  | .top => (st.lanes, st.archive)
  | .stopped => (st.lanes, st.archive)
  | .lane ld items cur => (st.lanes ++ [Lane.mk [] ld (items ++ closeCur cur)], st.archive)
  | .arch cur => (st.lanes, st.archive ++ closeCur cur)

def parseBodyLines (ls : List Str) : List Lane × List Item :=
  finalizeP (ls.foldl stepLine ⟨[], [], false, .top⟩)

/-- The per-document parse: `parseMarkdown` (part_005 323-398) +
`astToUnhydratedBoard`, at the line-granularity body model.  The two thrown
outcomes of `extractFrontmatter` surface as `Except.error`, contained by the
caller per document. -/
def docParse (md : Str) : Except Str Board :=
  match extractFrontmatter md with
  | .err => .error "Error parsing frontmatter".toList
  | .undef => .error "Cannot convert undefined to object".toList
  | .ok yaml rest =>
    let settings := (extractSettingsFooter md).getD []
    let lanesArch := parseBodyLines (linesOf rest)
    .ok (Board.mk [] lanesArch.1 (BoardData.mk lanesArch.2 settings yaml []))

/-! ## C9: the leading frontmatter block is not optional -/

/-- A well-formed frontmatter-free document: a heading, a checkbox item and
a trailing settings code block. -/
def c9Doc : Str := "## Todo\n\n- [ ] Task one\n\n\n\n%% kanban:settings\n```\n1\n```\n%%".toList

def c9FmPrefix : Str := "---\n\nproject: x\n---\n\n".toList

def c9Board : Board :=
  Board.mk []
    [Lane.mk [] (LaneData.mk "Todo".toList 0 false)
       [Item.mk [] ⟨"Task one".toList, ' ', none, [], none, none, [], none, none⟩]]
    (BoardData.mk [] "1".toList "project: x".toList [])

set_option maxRecDepth 100000 in
/-- C9 counterexample: the well-formed frontmatter-free document `c9Doc`
(heading, checkbox item, settings footer) does not parse — `extractFrontmatter`
throws `'Error parsing frontmatter'` at its first character — while the very
same body preceded by a `---`-delimited frontmatter block parses to the
expected one-lane board, so the body itself is well formed and only the
missing frontmatter is at fault. -/
theorem c9_counterexample :
    docParse c9Doc = Except.error "Error parsing frontmatter".toList ∧
    (docParse (c9FmPrefix ++ c9Doc)).toOption = some c9Board := by
  constructor
  · rfl
  · decide

/-- C9 (amended): the frontmatter block is mandatory, not optional — for
every document text that does not begin with the three opening dashes,
parsing fails (`extractFrontmatter` either throws `'Error parsing
frontmatter'` on a non-dash among the first three characters, or returns
`undefined` on a short all-dash text, on which `parseMarkdown` then crashes
at `Object.keys`), so no frontmatter-free document yields a Board. -/
theorem c9_frontmatter_mandatory (md : Str)
    (h : "---".toList.isPrefixOf md = false) :
    (docParse md).toOption = none := by
  match md with
  | [] => rfl
  | c1 :: r1 =>
    by_cases h1 : c1 = '-'
    · subst h1
      match r1 with
      | [] => rfl
      | c2 :: r2 =>
        by_cases h2 : c2 = '-'
        · subst h2
          match r2 with
          | [] => rfl
          | c3 :: r3 =>
            by_cases h3 : c3 = '-'
            · subst h3
              simp [List.isPrefixOf] at h
            · simp [docParse, extractFrontmatter, h3, Except.toOption]
        · simp [docParse, extractFrontmatter, h2, Except.toOption]
    · simp [docParse, extractFrontmatter, h1, Except.toOption]

/-- Witness for C9: the single-character document `"x"` does not begin with
dashes and indeed fails to parse. -/
theorem c9_frontmatter_mandatory_witness :
    "---".toList.isPrefixOf ['x'] = false ∧ (docParse ['x']).toOption = none :=
  ⟨by decide, c9_frontmatter_mandatory ['x'] (by decide)⟩

/-! ## C4/C3: project scan, aggregation and reconciliation
(src/src/ProjectStateManager.ts) -/

/-- The fallback board `parseProjectFile` returns from its outer catch
(ProjectStateManager.ts lines 372-389): the document path as id, no lanes,
and the caught message recorded in this document board's own error list. -/
def fallbackBoard (path msg : Str) : Board :=
  Board.mk path [] (BoardData.mk [] [] [] [msg])

/-- `parseProjectFile` (ProjectStateManager.ts lines 243-390): parse the
document; every failure is caught by the outer catch and becomes the
fallback board, so the function itself never throws. -/
def parseProjectFileM (path content : Str) : Board :=
  match docParse content with
  | .ok b => b
  | .error e => fallbackBoard path e

/-- `scanProjectFiles` (ProjectStateManager.ts lines 114-171) over the
candidate documents as (path, content) pairs: an empty or whitespace-only
document is skipped silently (`continue`); every other document contributes
its parsed board to `newProjectFiles`.  The `catch` that would push onto
`newErrors` only runs if `parseProjectFile` throws or the board fails the
`!board || !board.children` check; `parseProjectFile` catches all its
failures internally and even its fallback board carries `children: []`, so
nothing is ever pushed.  Returns (`newProjectFiles`, `newErrors`). -/
def scanProjectFiles : List (Str × Str) → ProjectFiles × List Str
  | [] => ([], [])
  | (path, content) :: rest =>
    let acc := scanProjectFiles rest
    if jsTrim content = [] then acc
    else ((path, parseProjectFileM path content) :: acc.1, acc.2)

/-- The error write-back at the end of the scan (lines 152-166): the
aggregated board's error list is `$set` from `newErrors` only when
`newErrors` is non-empty; otherwise the previous list stays. -/
def scanAggregatedErrors (errs prev : List Str) : List Str :=
  if errs = [] then prev else errs

/-- JS string truthiness fallback `x || y` (the empty string is falsy). -/
def orElseStr (x y : Str) : Str := if x = [] then y else x

/-- The lane key used in composite ids (`lane.id || lane-idx`,
ProjectStateManager.ts lines 433, 446, 451). -/
def laneKeyOf (lane : Lane) (laneIndex : Nat) : Str :=
  orElseStr lane.id ("lane-".toList ++ natToStr laneIndex)

/-- The item key used in composite ids (`item.id || 'unknown'`, lines 446,
452). -/
def itemKeyOf (item : Item) : Str := orElseStr item.id "unknown".toList

/-- One item of `aggregateBoards` (lines 440-455): composite id, original
data plus the origin keys `projectLaneId`/`projectItemId`. -/
def aggItem (filePath laneKey : Str) (item : Item) : Item :=
  Item.mk (aggregatedItemId filePath laneKey (itemKeyOf item))
    { item.data with
        projectLaneId := some laneKey, projectItemId := some (itemKeyOf item) }

/-- One lane of `aggregateBoards` (lines 430-459): composite lane id, the
original lane data (the title is kept as is), aggregated items. -/
def aggLane (filePath : Str) (laneIndex : Nat) (lane : Lane) : Lane :=
  Lane.mk (aggregatedLaneId filePath (laneKeyOf lane laneIndex)) lane.data
    (lane.children.map (aggItem filePath (laneKeyOf lane laneIndex)))

/-- The indexed `forEach` of `aggregateBoards` over one board's lanes,
carrying the running lane index. -/
def aggLanesFrom (filePath : Str) (n : Nat) : List Lane → List Lane
  | [] => []
  | l :: ls => aggLane filePath n l :: aggLanesFrom filePath (n + 1) ls

/-- `aggregateBoards` (ProjectStateManager.ts lines 395-484): every project
file's lanes in registry order, each lane re-keyed with its composite id. -/
def aggregateBoards (pfs : ProjectFiles) : List Lane :=
  (pfs.map (fun e => aggLanesFrom e.1 0 e.2.children)).flatten

/-- The aggregated board after a scan: lanes from `aggregateBoards`, errors
from the conditional `$set` of `scanProjectFiles`. -/
def aggregatedBoardOf (files : List (Str × Str)) (prevErrors : List Str) : Board :=
  let scanned := scanProjectFiles files
  Board.mk [] (aggregateBoards scanned.1)
    (BoardData.mk [] [] [] (scanAggregatedErrors scanned.2 prevErrors))

/-- The C4 scenario: one empty document, one with invalid frontmatter, one
valid. -/
def c4Files : List (Str × Str) :=
  [("a.md".toList, "".toList),
   ("b.md".toList, "## Stray\n\n- [ ] Task".toList),
   ("c.md".toList,
    ("---\n\nproject: x\n---\n\n" ++
     "## Todo\n\n- [ ] Task one\n\n\n\n%% kanban:settings\n```\n1\n```\n%%").toList)]

set_option maxRecDepth 100000 in
/-- C4 counterexample: scanning the three documents records zero errors in
the aggregated board — not two.  The empty document is skipped silently and
the unparseable document's error is caught inside `parseProjectFile` and
recorded only in that document's own fallback board, which the aggregation
then drops (it contributes no lanes and its error list is never merged), so
the scan-level `newErrors` stays empty and the aggregated error list is
never set. -/
theorem c4_counterexample :
    (aggregatedBoardOf c4Files []).data.errors.length ≠ 2 ∧
    (aggregatedBoardOf c4Files []).data.errors = [] ∧
    (lookupPF (scanProjectFiles c4Files).1 "b.md".toList).map (fun b => b.data.errors)
      = some ["Error parsing frontmatter".toList] := by
  refine ⟨by decide, by decide, by decide⟩

set_option maxRecDepth 100000 in
/-- C4 (amended): no exception escapes the scan and the aggregated board
contains exactly the valid document's lanes, but with zero recorded errors
instead of two — for every input list the scan-level error list is empty
(`parseProjectFile` converts every failure into a per-document fallback
board that passes the validity check), hence the aggregated error list is
never overwritten; concretely, the three-document scenario yields exactly
the one lane of the valid third document (under its composite id, carrying
the origin keys) and an empty error list. -/
theorem c4_fault_isolation :
    (∀ files : List (Str × Str),
      (scanProjectFiles files).2 = [] ∧
      (aggregatedBoardOf files []).data.errors = []) ∧
    (aggregatedBoardOf c4Files []).children =
      [Lane.mk ("c.md:::lane-0".toList) (LaneData.mk "Todo".toList 0 false)
        [Item.mk ("c.md:::lane-0:::unknown".toList)
          ⟨"Task one".toList, ' ', none, [], none, none, [],
            some "lane-0".toList, some "unknown".toList⟩]] := by
  constructor
  · intro files
    have herr : ∀ fs : List (Str × Str), (scanProjectFiles fs).2 = [] := by
      intro fs
      induction fs with
      | nil => rfl
      | cons fc rest ih =>
        obtain ⟨path, content⟩ := fc
        simp only [scanProjectFiles]
        by_cases hc : jsTrim content = []
        · simpa [hc] using ih
        · simpa [hc] using ih
    refine ⟨herr files, ?_⟩
    simp [aggregatedBoardOf, scanAggregatedErrors, herr files]
  · decide

/-! ## C3: reconciliation (`syncToProjectFiles`) -/

/-- Clearing the project-tracking fields on write-back
(`projectFile/projectLaneId/projectItemId := undefined`,
ProjectStateManager.ts lines 628-632, 643-647). -/
def clearItemData (d : ItemData) : ItemData :=
  { d with projectLaneId := none, projectItemId := none }

/-- `itemParts.slice(2).flatten(':::')` (line 622). -/
def originalItemIdOf (aggId : Str) : Str :=
  joinSep sepTriple ((jsSplit sepTriple aggId).drop 2)

/-- One item of the write-back (lines 619-651): decode the original item
id; when the origin lane still has that item the write keeps it, otherwise
the entity is created as new under `originalItemId || aggregatedItem.id`;
either way the data is the aggregated item's data with the project fields
cleared. -/
def syncItem (origLane : Lane) (ai : Item) : Item :=
  match origLane.children.find? (fun i => i.id == originalItemIdOf ai.id) with
  | none => Item.mk (orElseStr (originalItemIdOf ai.id) ai.id) (clearItemData ai.data)
  | some _ => Item.mk (originalItemIdOf ai.id) (clearItemData ai.data)

/-- One lane of the write-back (lines 609-658): the original lane keeps its
identity and data; when a grouped aggregated lane matches
`filePath:::originalLane.id`, its items replace the original children. -/
def syncLane (filePath : Str) (glanes : List Lane) (origLane : Lane) : Lane :=
  match glanes.find? (fun al => al.id == filePath ++ sepTriple ++ origLane.id) with
  | none => origLane
  | some al => Lane.mk origLane.id origLane.data (al.children.map (syncItem origLane))

/-- The file path an aggregated lane is grouped under (lines 584-601):
lanes with a falsy id or fewer than two `:::` segments are skipped. -/
def laneFilePath (l : Lane) : Option Str :=
  if l.id = [] then none
  else
    match jsSplit sepTriple l.id with
    | p :: _ :: _ => some p
    | _ => none

/-- Insertion into the JS `Map`-as-ordered-association-list: a present key
extends its bucket in place, a fresh key appends a new entry. -/
def insertGroup (m : List (Str × List Lane)) (p : Str) (l : Lane) :
    List (Str × List Lane) :=
  match m with
  | [] => [(p, [l])]
  | (q, ls) :: rest =>
    if q = p then (q, ls ++ [l]) :: rest else (q, ls) :: insertGroup rest p l

def groupStep (m : List (Str × List Lane)) (l : Lane) : List (Str × List Lane) :=
  match laneFilePath l with
  | none => m
  | some p => insertGroup m p l

/-- The `projectLanesMap` grouping of `syncToProjectFiles` (lines 579-601). -/
def groupLanes (children : List Lane) : List (Str × List Lane) :=
  children.foldl groupStep []

/-- `syncToProjectFiles` (ProjectStateManager.ts lines 573-667): group the
aggregated lanes by origin path, and for each registered origin document
rebuild its board lane by lane; the result is the list of
(path, updated board) file writes in grouping order. -/
def syncToProjectFiles (pfs : ProjectFiles) (aggregatedChildren : List Lane) :
    List (Str × Board) :=
  (groupLanes aggregatedChildren).filterMap (fun g =>
    match lookupPF pfs g.1 with
    | none => none
    | some b => some (g.1, Board.mk b.id (b.children.map (syncLane g.1 g.2)) b.data))

/-- A data-only edit of one aggregated item (the aggregated board after a
user edit of item `iid` in lane `lid`): ids and positions unchanged. -/
def editAggLane (lid iid : Str) (d : ItemData) (l : Lane) : Lane :=
  if l.id = lid then
    Lane.mk l.id l.data
      (l.children.map (fun i => if i.id = iid then Item.mk iid d else i))
  else l

def editItemInAgg (agg : List Lane) (lid iid : Str) (d : ItemData) : List Lane :=
  agg.map (editAggLane lid iid d)

/-- The corresponding edit expressed on an origin document: only item `ik`
of lane `lk` changes, its data becoming the edited data with project fields
cleared. -/
def editItemOrig (ik : Str) (d : ItemData) (i : Item) : Item :=
  if i.id = ik then Item.mk ik (clearItemData d) else i

def editLaneOrig (lk ik : Str) (d : ItemData) (l : Lane) : Lane :=
  if l.id = lk then Lane.mk l.id l.data (l.children.map (editItemOrig ik d)) else l

/-- A segment usable inside composite ids: free of `:::` and not ending in
`:` (the C10 decode conditions). -/
def cleanSeg (s : Str) : Bool :=
  !(occursSub sepTriple s) && !(s.getLast? == some ':')

def WFSyncItem (i : Item) : Prop :=
  i.id ≠ [] ∧ i.data.projectLaneId = none ∧ i.data.projectItemId = none

def WFSyncLane (l : Lane) : Prop :=
  l.id ≠ [] ∧ cleanSeg l.id = true ∧ (∀ i ∈ l.children, WFSyncItem i) ∧
    (l.children.map Item.id).Nodup

def WFSyncBoard (b : Board) : Prop :=
  (∀ l ∈ b.children, WFSyncLane l) ∧ (b.children.map Lane.id).Nodup

/-- Well-formedness of the project-file registry for reconciliation:
distinct clean paths, clean non-empty lane ids unique per board, non-empty
item ids unique per lane, and no stale project fields on origin items. -/
def WFSyncRegistry (pfs : ProjectFiles) : Prop :=
  (∀ e ∈ pfs, cleanSeg e.1 = true ∧ WFSyncBoard e.2) ∧ (pfs.map Prod.fst).Nodup

instance : DecidablePred WFSyncItem := fun i => by unfold WFSyncItem; infer_instance

instance : DecidablePred WFSyncLane := fun l => by unfold WFSyncLane; infer_instance

instance : DecidablePred WFSyncBoard := fun b => by unfold WFSyncBoard; infer_instance

instance : DecidablePred WFSyncRegistry := fun pfs => by
  unfold WFSyncRegistry; infer_instance

theorem cleanSeg_occurs {s : Str} (h : cleanSeg s = true) :
    occursSub sepTriple s = false := by
  rw [cleanSeg, Bool.and_eq_true] at h
  simpa using h.1

theorem cleanSeg_last {s : Str} (h : cleanSeg s = true) :
    s.getLast? ≠ some ':' := by
  rw [cleanSeg, Bool.and_eq_true] at h
  simpa using h.2

theorem jsSplit_sep_clean (p x : Str) (hp : cleanSeg p = true) :
    jsSplit sepTriple (p ++ sepTriple ++ x) = p :: jsSplit sepTriple x := by
  exact splitSepNE_some ':' (':' :: ':' :: []) _ p x
    (splitFirst_sep_clean p x (cleanSeg_occurs hp) (cleanSeg_last hp))

theorem joinSep_jsSplit (s : Str) :
    joinSep sepTriple (jsSplit sepTriple s) = s :=
  joinSep_splitSepNE ':' (':' :: ':' :: []) s

theorem aggLaneId_inj {p A x y : Str} (hp : cleanSeg p = true)
    (hA : cleanSeg A = true)
    (h : aggregatedLaneId p x = aggregatedLaneId A y) : p = A ∧ x = y := by
  have hs : jsSplit sepTriple (p ++ sepTriple ++ x)
      = jsSplit sepTriple (A ++ sepTriple ++ y) := congrArg _ h
  rw [jsSplit_sep_clean p x hp, jsSplit_sep_clean A y hA] at hs
  have h1 : p = A := (List.cons.injEq _ _ _ _ ▸ hs : _ ∧ _).1
  have h2 : jsSplit sepTriple x = jsSplit sepTriple y :=
    (List.cons.injEq _ _ _ _ ▸ hs : _ ∧ _).2
  refine ⟨h1, ?_⟩
  have := congrArg (joinSep sepTriple) h2
  rwa [joinSep_jsSplit, joinSep_jsSplit] at this

theorem aggItemId_inj_right {p lk x y : Str}
    (h : aggregatedItemId p lk x = aggregatedItemId p lk y) : x = y := by
  exact List.append_cancel_left h

theorem originalItemIdOf_encode (p lk ik : Str) (hp : cleanSeg p = true)
    (hl : cleanSeg lk = true) :
    originalItemIdOf (aggregatedItemId p lk ik) = ik := by
  rw [originalItemIdOf, show aggregatedItemId p lk ik
      = p ++ sepTriple ++ (lk ++ sepTriple ++ ik) by
        simp [aggregatedItemId, List.append_assoc]]
  rw [jsSplit_sep_clean p _ hp, jsSplit_sep_clean lk ik hl]
  show joinSep sepTriple (jsSplit sepTriple ik) = ik
  exact joinSep_jsSplit ik

theorem originalItemIdOf_plain (s : Str)
    (h : occursSub sepTriple s = false) : originalItemIdOf s = [] := by
  have hnone : splitFirst sepTriple s = none := by
    rw [occursSub] at h
    cases hs : splitFirst sepTriple s with
    | none => rfl
    | some pr => rw [hs] at h; simp at h
  have hsp : jsSplit sepTriple s = [s] :=
    splitSepNE_none ':' (':' :: ':' :: []) s hnone
  rw [originalItemIdOf, hsp]
  rfl

theorem aggLaneId_ne_nil (p x : Str) : aggregatedLaneId p x ≠ [] := by
  show p ++ sepTriple ++ x ≠ []
  simp [sepTriple]

theorem laneFilePath_aggId {l : Lane} {p x : Str} (hp : cleanSeg p = true)
    (hid : l.id = aggregatedLaneId p x) : laneFilePath l = some p := by
  rw [laneFilePath, hid, if_neg (aggLaneId_ne_nil p x)]
  rw [show aggregatedLaneId p x = p ++ sepTriple ++ x from rfl,
    jsSplit_sep_clean p x hp]
  cases hx : jsSplit sepTriple x with
  | nil => exact absurd hx (splitSepNE_ne_nil ':' (':' :: ':' :: []) x)
  | cons a t => rfl

theorem laneKeyOf_ne_nil {l : Lane} (h : l.id ≠ []) (n : Nat) :
    laneKeyOf l n = l.id := by
  rw [laneKeyOf, orElseStr, if_neg h]

theorem itemKeyOf_ne_nil {i : Item} (h : i.id ≠ []) :
    itemKeyOf i = i.id := by
  rw [itemKeyOf, orElseStr, if_neg h]

theorem editAggLane_id (lid iid : Str) (d : ItemData) (l : Lane) :
    (editAggLane lid iid d l).id = l.id := by
  rw [editAggLane]
  by_cases h : l.id = lid
  · rw [if_pos h]
  · rw [if_neg h]

/-- `Array.find` by id over a list whose ids are distinct returns the
member itself. -/
theorem find?_id_of_nodup (ls : List Item) (it : Item) (hmem : it ∈ ls)
    (hnd : (ls.map Item.id).Nodup) :
    ls.find? (fun i => i.id == it.id) = some it := by
  induction ls with
  | nil => cases hmem
  | cons h t ih =>
    rw [List.map_cons, List.nodup_cons] at hnd
    by_cases hh : h.id = it.id
    · cases List.mem_cons.mp hmem with
      | inl he =>
        subst he
        rw [List.find?_cons_of_pos _ (by simp)]
      | inr ht =>
        exact absurd (hh ▸ List.mem_map_of_mem Item.id ht) hnd.1
    · have ht : it ∈ t := by
        cases List.mem_cons.mp hmem with
        | inl he => exact absurd (by rw [he]) hh
        | inr h2 => exact h2
      rw [List.find?_cons_of_neg _ (by simpa using hh)]
      exact ih ht hnd.2

/-- `syncItem` applied to the aggregation of a still-present origin item
recovers that item exactly. -/
theorem syncItem_aggItem (p lk : Str) (origLane : Lane) (it : Item)
    (hp : cleanSeg p = true) (hl : cleanSeg lk = true)
    (hmem : it ∈ origLane.children)
    (hnd : (origLane.children.map Item.id).Nodup)
    (hwf : WFSyncItem it) :
    syncItem origLane (aggItem p lk it) = it := by
  obtain ⟨hid, hpl, hpi⟩ := hwf
  have hoid : originalItemIdOf (aggItem p lk it).id = it.id := by
    show originalItemIdOf (aggregatedItemId p lk (itemKeyOf it)) = it.id
    rw [itemKeyOf_ne_nil hid, originalItemIdOf_encode p lk it.id hp hl]
  rw [syncItem, hoid, find?_id_of_nodup _ it hmem hnd]
  show Item.mk it.id (clearItemData { it.data with
      projectLaneId := some lk, projectItemId := some (itemKeyOf it) }) = it
  obtain ⟨iid, idata⟩ := it
  obtain ⟨tr, cc, bid, tg, ds, ts, ti, pl, pi⟩ := idata
  simp only at hpl hpi
  subst hpl; subst hpi
  rfl

/-- `syncItem` applied to an edited aggregated item whose decoded key is
still present writes the edit back under the original id. -/
theorem syncItem_edited (p lk ik : Str) (origLane : Lane) (d : ItemData)
    (hp : cleanSeg p = true) (hl : cleanSeg lk = true)
    (hfound : ∃ j ∈ origLane.children, j.id = ik) :
    syncItem origLane (Item.mk (aggregatedItemId p lk ik) d)
      = Item.mk ik (clearItemData d) := by
  have hoid : originalItemIdOf (Item.mk (aggregatedItemId p lk ik) d).id = ik :=
    originalItemIdOf_encode p lk ik hp hl
  rw [syncItem, hoid]
  obtain ⟨j, hj, hjid⟩ := hfound
  cases hfind : origLane.children.find? (fun i => i.id == ik) with
  | some _ => rfl
  | none =>
    have := List.find?_eq_none.mp hfind j hj
    simp [hjid] at this

/-- `syncItem` applied to an aggregated item whose id has no `:::` segments
(a freshly created entity) creates it as new under its own id. -/
theorem syncItem_fresh (origLane : Lane) (fid : Str) (d : ItemData)
    (hocc : occursSub sepTriple fid = false)
    (hids : ∀ i ∈ origLane.children, i.id ≠ []) :
    syncItem origLane (Item.mk fid d) = Item.mk fid (clearItemData d) := by
  have hoid : originalItemIdOf (Item.mk fid d).id = [] :=
    originalItemIdOf_plain fid hocc
  rw [syncItem, hoid]
  rw [List.find?_eq_none.mpr (fun i hi => by simpa using hids i hi)]
  rw [orElseStr, if_pos rfl]

/-- The lane `find` of the write-back over an aggregated block: with
distinct non-empty lane ids the block lane found for an origin lane is its
own aggregation (the lane index in the composite key collapses to the lane
id). -/
theorem find?_aggLanes (p : Str) :
    ∀ (ls : List Lane) (n : Nat) (orig : Lane), orig ∈ ls →
      (∀ l ∈ ls, l.id ≠ []) → (ls.map Lane.id).Nodup →
      (aggLanesFrom p n ls).find? (fun al => al.id == p ++ sepTriple ++ orig.id)
        = some (Lane.mk (aggregatedLaneId p orig.id) orig.data
            (orig.children.map (aggItem p orig.id))) := by
  intro ls
  induction ls with
  | nil => intro n orig hmem; cases hmem
  | cons l t ih =>
    intro n orig hmem hids hnd
    rw [List.map_cons, List.nodup_cons] at hnd
    have hlid : l.id ≠ [] := hids l (List.mem_cons_self l t)
    have hhead : (aggLane p n l).id = p ++ sepTriple ++ l.id := by
      show aggregatedLaneId p (laneKeyOf l n) = _
      rw [laneKeyOf_ne_nil hlid]
      rfl
    rw [aggLanesFrom]
    by_cases hh : l.id = orig.id
    · cases List.mem_cons.mp hmem with
      | inl he =>
        rw [List.find?_cons_of_pos _ (by simp [hhead, he])]
        rw [he]
        show some (aggLane p n l) = _
        rw [aggLane, laneKeyOf_ne_nil hlid]
      | inr ht =>
        exact absurd (hh ▸ List.mem_map_of_mem Lane.id ht) hnd.1
    · have ht : orig ∈ t := by
        cases List.mem_cons.mp hmem with
        | inl he => exact absurd (by rw [he]) hh
        | inr h2 => exact h2
      rw [List.find?_cons_of_neg _ (by
        simp only [hhead, beq_iff_eq]
        intro hc
        exact hh (List.append_cancel_left hc))]
      exact ih (n + 1) orig ht (fun x hx => hids x (List.mem_cons_of_mem l hx)) hnd.2

/-- Write-back round trip for an unedited lane: syncing the aggregation of
a well-formed board block recovers each origin lane exactly. -/
theorem syncLane_block (p : Str) (ls : List Lane) (orig : Lane)
    (hp : cleanSeg p = true)
    (hmem : orig ∈ ls) (hids : ∀ l ∈ ls, l.id ≠ [])
    (hnd : (ls.map Lane.id).Nodup) (hwfl : WFSyncLane orig) :
    syncLane p (aggLanesFrom p 0 ls) orig = orig := by
  obtain ⟨hoid, hocl, hitems, hndi⟩ := hwfl
  rw [syncLane, find?_aggLanes p ls 0 orig hmem hids hnd]
  show Lane.mk orig.id orig.data
      ((orig.children.map (aggItem p orig.id)).map (syncItem orig)) = orig
  rw [List.map_map]
  have hsame : ∀ i ∈ orig.children, (syncItem orig ∘ aggItem p orig.id) i = i :=
    fun i hi => syncItem_aggItem p orig.id orig i hp hocl hi hndi (hitems i hi)
  rw [List.map_congr_left hsame, List.map_id']

/-- The data edit of an aggregated item targeting document `A` leaves the
aggregated block of every other document unchanged. -/
theorem editAgg_foreign (p A lk ik : Str) (d : ItemData)
    (hp : cleanSeg p = true) (hA : cleanSeg A = true) (hne : p ≠ A) :
    ∀ (ls : List Lane) (n : Nat),
      (aggLanesFrom p n ls).map
          (editAggLane (aggregatedLaneId A lk) (aggregatedItemId A lk ik) d)
        = aggLanesFrom p n ls := by
  intro ls
  induction ls with
  | nil => intro n; rfl
  | cons l t ih =>
    intro n
    rw [aggLanesFrom, List.map_cons, ih (n + 1)]
    have : editAggLane (aggregatedLaneId A lk) (aggregatedItemId A lk ik) d
        (aggLane p n l) = aggLane p n l := by
      rw [editAggLane, if_neg]
      show ¬(aggregatedLaneId p (laneKeyOf l n) = aggregatedLaneId A lk)
      intro hc
      exact hne (aggLaneId_inj hp hA hc).1
    rw [this]

theorem map2_congr {A B C : Type} (f : A → B) (g : B → C) (e : A → C) :
    ∀ (l : List A), (∀ a ∈ l, g (f a) = e a) → (l.map f).map g = l.map e := by
  intro l
  induction l with
  | nil => intro _; rfl
  | cons x t ih =>
    intro hp
    simp only [List.map_cons]
    rw [hp x (List.mem_cons_self x t), ih (fun a ha => hp a (List.mem_cons_of_mem x ha))]

theorem map_congr_expl {A B : Type} (f g : A → B) :
    ∀ (l : List A), (∀ a ∈ l, f a = g a) → l.map f = l.map g := by
  intro l
  induction l with
  | nil => intro _; rfl
  | cons x t ih =>
    intro hp
    simp only [List.map_cons]
    rw [hp x (List.mem_cons_self x t), ih (fun a ha => hp a (List.mem_cons_of_mem x ha))]

theorem map3_congr {A B C D : Type} (f : A → B) (g : B → C) (h : C → D) (e : A → D) :
    ∀ (l : List A), (∀ a ∈ l, h (g (f a)) = e a) → ((l.map f).map g).map h = l.map e := by
  intro l
  induction l with
  | nil => intro _; rfl
  | cons x t ih =>
    intro hp
    simp only [List.map_cons]
    rw [hp x (List.mem_cons_self x t), ih (fun a ha => hp a (List.mem_cons_of_mem x ha))]

/-- Write-back of the edited document's block: the edit of one aggregated
item lands on exactly the targeted origin lane and item; every other lane
and item of the document round-trips unchanged. -/
theorem syncLane_block_edited (p lk ik : Str) (ls : List Lane) (orig : Lane)
    (d : ItemData) (hp : cleanSeg p = true) (hlk : cleanSeg lk = true)
    (hmem : orig ∈ ls) (hids : ∀ l ∈ ls, l.id ≠ [])
    (hnd : (ls.map Lane.id).Nodup) (hwfl : WFSyncLane orig) :
    syncLane p ((aggLanesFrom p 0 ls).map
        (editAggLane (aggregatedLaneId p lk) (aggregatedItemId p lk ik) d)) orig
      = editLaneOrig lk ik d orig := by
  obtain ⟨hoid, hocl, hitems, hndi⟩ := hwfl
  have hpred : ((fun al => al.id == p ++ sepTriple ++ orig.id) ∘
      editAggLane (aggregatedLaneId p lk) (aggregatedItemId p lk ik) d)
      = (fun al => al.id == p ++ sepTriple ++ orig.id) := by
    funext l
    simp [Function.comp, editAggLane_id]
  have hfind : ((aggLanesFrom p 0 ls).map
      (editAggLane (aggregatedLaneId p lk) (aggregatedItemId p lk ik) d)).find?
        (fun al => al.id == p ++ sepTriple ++ orig.id)
      = some (editAggLane (aggregatedLaneId p lk) (aggregatedItemId p lk ik) d
          (Lane.mk (aggregatedLaneId p orig.id) orig.data
            (orig.children.map (aggItem p orig.id)))) := by
    rw [List.find?_map, hpred, find?_aggLanes p ls 0 orig hmem hids hnd]
    rfl
  rw [syncLane, hfind]
  by_cases horig : orig.id = lk
  · have hfire : editAggLane (aggregatedLaneId p lk) (aggregatedItemId p lk ik) d
        (Lane.mk (aggregatedLaneId p orig.id) orig.data
          (orig.children.map (aggItem p orig.id)))
        = Lane.mk (aggregatedLaneId p orig.id) orig.data
            ((orig.children.map (aggItem p orig.id)).map
              (fun i => if i.id = aggregatedItemId p lk ik
                then Item.mk (aggregatedItemId p lk ik) d else i)) := by
      rw [editAggLane, if_pos (by rw [horig])]
    rw [hfire]
    show Lane.mk orig.id orig.data
        (((orig.children.map (aggItem p orig.id)).map
          (fun i => if i.id = aggregatedItemId p lk ik
            then Item.mk (aggregatedItemId p lk ik) d else i)).map (syncItem orig))
      = editLaneOrig lk ik d orig
    rw [editLaneOrig, if_pos horig]
    have hsame : ∀ j ∈ orig.children,
        syncItem orig ((fun i => if i.id = aggregatedItemId p lk ik
            then Item.mk (aggregatedItemId p lk ik) d else i) (aggItem p orig.id j))
          = editItemOrig ik d j := by
      intro j hj
      have hjid : j.id ≠ [] := (hitems j hj).1
      have haggid : (aggItem p orig.id j).id = aggregatedItemId p lk (j.id) := by
        show aggregatedItemId p orig.id (itemKeyOf j) = _
        rw [itemKeyOf_ne_nil hjid, horig]
      show syncItem orig (if (aggItem p orig.id j).id = aggregatedItemId p lk ik
          then Item.mk (aggregatedItemId p lk ik) d else aggItem p orig.id j)
        = editItemOrig ik d j
      by_cases hik : j.id = ik
      · rw [if_pos (by rw [haggid, hik])]
        rw [syncItem_edited p lk ik orig d hp hlk ⟨j, hj, hik⟩]
        rw [editItemOrig, if_pos hik]
      · rw [if_neg (by
          rw [haggid]
          intro hc
          exact hik (aggItemId_inj_right hc))]
        rw [show aggItem p orig.id j = aggItem p lk j by rw [horig]]
        rw [syncItem_aggItem p lk orig j hp hlk hj hndi (hitems j hj)]
        rw [editItemOrig, if_neg hik]
    rw [map3_congr _ _ _ _ orig.children hsame]
  · have hskip : editAggLane (aggregatedLaneId p lk) (aggregatedItemId p lk ik) d
        (Lane.mk (aggregatedLaneId p orig.id) orig.data
          (orig.children.map (aggItem p orig.id)))
        = Lane.mk (aggregatedLaneId p orig.id) orig.data
            (orig.children.map (aggItem p orig.id)) := by
      rw [editAggLane, if_neg]
      show ¬(aggregatedLaneId p orig.id = aggregatedLaneId p lk)
      intro hc
      exact horig (aggLaneId_inj hp hp hc).2
    rw [hskip]
    show Lane.mk orig.id orig.data
        ((orig.children.map (aggItem p orig.id)).map (syncItem orig))
      = editLaneOrig lk ik d orig
    rw [editLaneOrig, if_neg horig]
    have hsame : ∀ i ∈ orig.children, syncItem orig (aggItem p orig.id i) = i :=
      fun i hi => syncItem_aggItem p orig.id orig i hp hocl hi hndi (hitems i hi)
    rw [map2_congr _ _ _ orig.children hsame, List.map_id']

theorem insertGroup_fresh (m : List (Str × List Lane)) (p : Str) (l : Lane)
    (h : ∀ e ∈ m, e.1 ≠ p) : insertGroup m p l = m ++ [(p, [l])] := by
  induction m with
  | nil => rfl
  | cons e t ih =>
    obtain ⟨q, ls⟩ := e
    rw [insertGroup, if_neg (h (q, ls) (List.mem_cons_self _ t))]
    rw [ih (fun e' he' => h e' (List.mem_cons_of_mem _ he'))]
    rfl

theorem insertGroup_present (m : List (Str × List Lane)) (p : Str)
    (acc : List Lane) (l : Lane) (h : ∀ e ∈ m, e.1 ≠ p) :
    insertGroup (m ++ [(p, acc)]) p l = m ++ [(p, acc ++ [l])] := by
  induction m with
  | nil =>
    show insertGroup [(p, acc)] p l = [(p, acc ++ [l])]
    rw [insertGroup, if_pos rfl]
  | cons e t ih =>
    obtain ⟨q, ls⟩ := e
    show insertGroup ((q, ls) :: (t ++ [(p, acc)])) p l = _
    rw [insertGroup, if_neg (h (q, ls) (List.mem_cons_self _ t))]
    rw [ih (fun e' he' => h e' (List.mem_cons_of_mem _ he'))]
    rfl

theorem foldGroup_block (p : Str) :
    ∀ (bs : List Lane) (m : List (Str × List Lane)) (acc : List Lane),
      (∀ e ∈ m, e.1 ≠ p) → (∀ l ∈ bs, laneFilePath l = some p) →
      List.foldl groupStep (m ++ [(p, acc)]) bs = m ++ [(p, acc ++ bs)] := by
  intro bs
  induction bs with
  | nil => intro m acc _ _; simp
  | cons b t ih =>
    intro m acc hm hall
    rw [List.foldl_cons]
    rw [show groupStep (m ++ [(p, acc)]) b = insertGroup (m ++ [(p, acc)]) p b from by
      rw [groupStep, hall b (List.mem_cons_self b t)]]
    rw [insertGroup_present m p acc b hm]
    rw [ih m (acc ++ [b]) hm (fun l hl => hall l (List.mem_cons_of_mem b hl))]
    simp

theorem foldGroup_newblock (p : Str) (bs : List Lane)
    (m : List (Str × List Lane)) (hm : ∀ e ∈ m, e.1 ≠ p)
    (hall : ∀ l ∈ bs, laneFilePath l = some p) (hne : bs ≠ []) :
    List.foldl groupStep m bs = m ++ [(p, bs)] := by
  cases bs with
  | nil => exact absurd rfl hne
  | cons b t =>
    rw [List.foldl_cons]
    rw [show groupStep m b = insertGroup m p b from by
      rw [groupStep, hall b (List.mem_cons_self b t)]]
    rw [insertGroup_fresh m p b hm]
    rw [foldGroup_block p t m [b] hm (fun l hl => hall l (List.mem_cons_of_mem b hl))]
    rfl

theorem groupLanes_join :
    ∀ (entries : List (Str × List Lane)) (m : List (Str × List Lane)),
      (entries.map Prod.fst).Nodup →
      (∀ e ∈ entries, ∀ e' ∈ m, e'.1 ≠ e.1) →
      (∀ e ∈ entries, ∀ l ∈ e.2, laneFilePath l = some e.1) →
      List.foldl groupStep m ((entries.map Prod.snd).flatten)
        = m ++ entries.filterMap (fun e => if e.2 = [] then none else some e) := by
  intro entries
  induction entries with
  | nil => intro m _ _ _; simp
  | cons e es ih =>
    intro m hnd hfresh hall
    obtain ⟨p, bs⟩ := e
    simp only [List.map_cons] at hnd ⊢
    rw [List.nodup_cons] at hnd
    rw [List.flatten_cons, List.foldl_append]
    by_cases hbs : bs = []
    · subst hbs
      show List.foldl groupStep (List.foldl groupStep m []) _ = _
      rw [List.foldl_nil]
      rw [ih m hnd.2 (fun e' he' => hfresh e' (List.mem_cons_of_mem _ he'))
        (fun e' he' => hall e' (List.mem_cons_of_mem _ he'))]
      simp [List.filterMap_cons]
    · rw [foldGroup_newblock p bs m
        (fun e' he' => hfresh (p, bs) (List.mem_cons_self _ es) e' he')
        (hall (p, bs) (List.mem_cons_self _ es)) hbs]
      rw [ih (m ++ [(p, bs)]) hnd.2
        (fun e' he' e2 he2 => by
          cases List.mem_append.mp he2 with
          | inl h2 => exact hfresh e' (List.mem_cons_of_mem _ he') e2 h2
          | inr h2 =>
            have : e2 = (p, bs) := by simpa using h2
            subst this
            show p ≠ e'.1
            intro hc
            exact hnd.1 (hc ▸ List.mem_map_of_mem Prod.fst he'))
        (fun e' he' => hall e' (List.mem_cons_of_mem _ he'))]
      rw [List.filterMap_cons]
      simp only [hbs, if_neg hbs]
      rw [List.append_assoc]
      rfl

theorem mem_aggLanesFrom {p : Str} {l' : Lane} :
    ∀ {ls : List Lane} {n : Nat}, l' ∈ aggLanesFrom p n ls →
      ∃ j l0, l0 ∈ ls ∧ l' = aggLane p j l0 := by
  intro ls
  induction ls with
  | nil => intro n h; cases h
  | cons l t ih =>
    intro n h
    cases List.mem_cons.mp h with
    | inl he => exact ⟨n, l, List.mem_cons_self l t, he⟩
    | inr ht =>
      obtain ⟨j, l0, hl0, he⟩ := ih ht
      exact ⟨j, l0, List.mem_cons_of_mem l hl0, he⟩

theorem laneFilePath_block (p : Str) (hp : cleanSeg p = true)
    (lid iid : Str) (d : ItemData) (ls : List Lane) (l' : Lane)
    (hmem : l' ∈ (aggLanesFrom p 0 ls).map (editAggLane lid iid d)) :
    laneFilePath l' = some p := by
  obtain ⟨x, hx, hxe⟩ := List.mem_map.mp hmem
  obtain ⟨j, l0, _, hagg⟩ := mem_aggLanesFrom hx
  have hid : l'.id = aggregatedLaneId p (laneKeyOf l0 j) := by
    rw [← hxe, editAggLane_id, hagg]
    rfl
  exact laneFilePath_aggId hp hid

theorem lookupPF_of_nodup (pfs : ProjectFiles) (p : Str) (b : Board)
    (hmem : (p, b) ∈ pfs) (hnd : (pfs.map Prod.fst).Nodup) :
    lookupPF pfs p = some b := by
  induction pfs with
  | nil => cases hmem
  | cons e t ih =>
    rw [List.map_cons, List.nodup_cons] at hnd
    by_cases he : e.1 = p
    · cases List.mem_cons.mp hmem with
      | inl h2 =>
        rw [lookupPF, List.find?_cons_of_pos _ (by simpa using he)]
        rw [← h2]
        rfl
      | inr h2 =>
        exfalso
        have : p ∈ t.map Prod.fst := List.mem_map_of_mem Prod.fst h2
        exact hnd.1 (he ▸ this)
    · have h2 : (p, b) ∈ t := by
        cases List.mem_cons.mp hmem with
        | inl h3 => exact absurd (congrArg Prod.fst h3).symm he
        | inr h3 => exact h3
      rw [lookupPF, List.find?_cons_of_neg _ (by simpa using he)]
      exact ih h2 hnd.2

theorem aggLanesFrom_eq_nil_iff (p : Str) (n : Nat) (ls : List Lane) :
    aggLanesFrom p n ls = [] ↔ ls = [] := by
  cases ls with
  | nil => simp [aggLanesFrom]
  | cons l t => simp [aggLanesFrom]

/-- The edit of one aggregated item expressed on the origin document: only
lane `lk`, and within it only item `ik`, change. -/
def editBoardOrig (lk ik : Str) (d : ItemData) (b : Board) : Board :=
  Board.mk b.id (b.children.map (editLaneOrig lk ik d)) b.data

theorem filterMap_congr_mem {A B : Type} (f g : A → Option B) :
    ∀ (l : List A), (∀ a ∈ l, f a = g a) → l.filterMap f = l.filterMap g := by
  intro l
  induction l with
  | nil => intro _; rfl
  | cons x t ih =>
    intro h
    rw [List.filterMap_cons, List.filterMap_cons, h x (List.mem_cons_self x t),
      ih (fun a ha => h a (List.mem_cons_of_mem x ha))]

theorem map_flatten_helper {A B : Type} (f : A → B) :
    ∀ (L : List (List A)), (L.flatten).map f = (L.map (List.map f)).flatten := by
  intro L
  induction L with
  | nil => rfl
  | cons x t ih => simp only [List.flatten_cons, List.map_append, List.map_cons, ih]

/-- C3: editing an aggregated item whose composite id names document `A`,
lane `lk`, item `ik` reconciles to exactly the expected per-document
writes: every registered document writes back its own board, unchanged
except that document `A`'s board changes only at lane `lk` and within it
only at item `ik` (the edited data, with the project fields cleared);
and an aggregated entity whose composite key decodes to no existing item
of the origin lane is written back as a new item under its own id, never
as an edit to a different entity. -/
theorem c3_sync_frame (pfs : ProjectFiles) (A lk ik : Str) (d : ItemData)
    (hreg : WFSyncRegistry pfs) (hA : cleanSeg A = true)
    (hlk : cleanSeg lk = true) :
    (syncToProjectFiles pfs
        (editItemInAgg (aggregateBoards pfs) (aggregatedLaneId A lk)
          (aggregatedItemId A lk ik) d)
      = pfs.filterMap (fun e =>
          if e.2.children = [] then none
          else some (e.1, if e.1 = A then editBoardOrig lk ik d e.2 else e.2))) ∧
    (∀ (origLane : Lane) (fid : Str) (d2 : ItemData),
      occursSub sepTriple fid = false →
      (∀ i ∈ origLane.children, i.id ≠ []) →
      syncItem origLane (Item.mk fid d2) = Item.mk fid (clearItemData d2)) := by
  obtain ⟨hwf, hnd⟩ := hreg
  refine ⟨?_, fun origLane fid d2 h1 h2 => syncItem_fresh origLane fid d2 h1 h2⟩
  have hagg : editItemInAgg (aggregateBoards pfs) (aggregatedLaneId A lk)
      (aggregatedItemId A lk ik) d
      = ((pfs.map (fun e => (e.1, (aggLanesFrom e.1 0 e.2.children).map
          (editAggLane (aggregatedLaneId A lk) (aggregatedItemId A lk ik) d)))).map
            Prod.snd).flatten := by
    rw [editItemInAgg, aggregateBoards, map_flatten_helper]
    rw [List.map_map, List.map_map]
    rfl
  have hg2 : groupLanes (((pfs.map (fun e => (e.1,
      (aggLanesFrom e.1 0 e.2.children).map
        (editAggLane (aggregatedLaneId A lk) (aggregatedItemId A lk ik) d)))).map
          Prod.snd).flatten)
      = (pfs.map (fun e => (e.1, (aggLanesFrom e.1 0 e.2.children).map
          (editAggLane (aggregatedLaneId A lk) (aggregatedItemId A lk ik) d)))).filterMap
            (fun e => if e.2 = [] then none else some e) := by
    rw [groupLanes]
    rw [groupLanes_join _ []
      (by rw [List.map_map]; exact hnd)
      (fun e _ e' he' => absurd he' (List.not_mem_nil e'))
      (by
        intro e he l hl
        obtain ⟨e0, he0, hee⟩ := List.mem_map.mp he
        rw [← hee] at hl ⊢
        exact laneFilePath_block e0.1 (hwf e0 he0).1 _ _ d e0.2.children l hl)]
    rfl
  rw [syncToProjectFiles, hagg, hg2, List.filterMap_map, List.filterMap_filterMap]
  apply filterMap_congr_mem
  intro e0 he0
  obtain ⟨p, b⟩ := e0
  have hp : cleanSeg p = true := (hwf (p, b) he0).1
  obtain ⟨hwfb, hndl⟩ := (hwf (p, b) he0).2
  have hids : ∀ l ∈ b.children, l.id ≠ [] := fun l hl => (hwfb l hl).1
  show (((if (aggLanesFrom p 0 b.children).map
        (editAggLane (aggregatedLaneId A lk) (aggregatedItemId A lk ik) d) = []
      then none
      else some (p, (aggLanesFrom p 0 b.children).map
        (editAggLane (aggregatedLaneId A lk) (aggregatedItemId A lk ik) d))).bind
      (fun g => (match lookupPF pfs g.1 with
        | none => none
        | some b2 => some (g.1, Board.mk b2.id (b2.children.map (syncLane g.1 g.2)) b2.data))))
    = (if b.children = [] then none
      else some (p, if p = A then editBoardOrig lk ik d b else b)))
  by_cases hch : b.children = []
  · rw [hch]
    rw [if_pos rfl, if_pos (by rw [show aggLanesFrom p 0 ([] : List Lane) = [] from rfl]; rfl)]
    rfl
  · have hblk : (aggLanesFrom p 0 b.children).map
        (editAggLane (aggregatedLaneId A lk) (aggregatedItemId A lk ik) d) ≠ [] := by
      rw [ne_eq, List.map_eq_nil_iff, aggLanesFrom_eq_nil_iff]
      exact hch
    rw [if_neg hblk, if_neg hch, Option.some_bind]
    rw [show lookupPF pfs (p, (aggLanesFrom p 0 b.children).map
        (editAggLane (aggregatedLaneId A lk) (aggregatedItemId A lk ik) d)).1
      = some b from lookupPF_of_nodup pfs p b he0 hnd]
    by_cases hpA : p = A
    · subst hpA
      rw [if_pos rfl]
      have hlanes : b.children.map (syncLane p ((aggLanesFrom p 0 b.children).map
          (editAggLane (aggregatedLaneId p lk) (aggregatedItemId p lk ik) d)))
          = b.children.map (editLaneOrig lk ik d) :=
        List.map_congr_left (fun orig ho =>
          syncLane_block_edited p lk ik b.children orig d hp hlk ho hids hndl (hwfb orig ho))
      rw [editBoardOrig]
      exact congrArg (fun cs => some (p, Board.mk b.id cs b.data)) hlanes
    · rw [if_neg hpA]
      rw [editAgg_foreign p A lk ik d hp hA hpA b.children 0]
      have hlanes : b.children.map (syncLane p (aggLanesFrom p 0 b.children))
          = b.children :=
        (List.map_congr_left (fun orig ho =>
          syncLane_block p b.children orig hp ho hids hndl (hwfb orig ho))).trans
          (List.map_id' b.children)
      exact congrArg (fun cs => some (p, Board.mk b.id cs b.data)) hlanes

/-- A concrete two-document registry for the C3 witness. -/
def c3Pfs : ProjectFiles :=
  [("A.md".toList, Board.mk "A.md".toList
      [Lane.mk "lane1".toList (LaneData.mk "Todo".toList 0 false)
        [Item.mk "item3".toList ⟨"Alpha".toList, ' ', none, [], none, none, [], none, none⟩,
         Item.mk "item4".toList ⟨"Beta".toList, ' ', none, [], none, none, [], none, none⟩]]
      (BoardData.mk [] [] [] [])),
   ("B.md".toList, Board.mk "B.md".toList
      [Lane.mk "laneB".toList (LaneData.mk "Other".toList 0 false)
        [Item.mk "itemB".toList ⟨"Gamma".toList, ' ', none, [], none, none, [], none, none⟩]]
      (BoardData.mk [] [] [] []))]

def c3NewData : ItemData :=
  ⟨"Alpha edited".toList, 'x', none, [], none, none, [],
    some "lane1".toList, some "item3".toList⟩

set_option maxRecDepth 100000 in
/-- Witness for C3: the concrete two-document registry satisfies the
well-formedness hypotheses and an edit of `A.md:::lane1:::item3`
reconciles to the characterized writes. -/
theorem c3_sync_frame_witness :
    syncToProjectFiles c3Pfs
        (editItemInAgg (aggregateBoards c3Pfs)
          (aggregatedLaneId "A.md".toList "lane1".toList)
          (aggregatedItemId "A.md".toList "lane1".toList "item3".toList) c3NewData)
      = c3Pfs.filterMap (fun e =>
          if e.2.children = [] then none
          else some (e.1, if e.1 = "A.md".toList then
            editBoardOrig "lane1".toList "item3".toList c3NewData e.2 else e.2)) :=
  (c3_sync_frame c3Pfs "A.md".toList "lane1".toList "item3".toList c3NewData
    (by decide) (by decide) (by decide)).1

/-! ## C1: the document-level round trip

`docParse ∘ boardToMd` recovers the governed fields exactly and
`boardToMd` of the reparse is byte-identical, for boards in the
well-formedness envelope below. -/

/-- The Item the document parse recovers from a serialized item: the
governed fields (raw title, checkbox character, block id) survive; ids and
inline metadata are not represented in the text. -/
def reparseItem (it : Item) : Item :=
  Item.mk [] ⟨it.data.titleRaw, it.data.checkChar, it.data.blockId,
    [], none, none, [], none, none⟩

def reparseLane (l : Lane) : Lane :=
  Lane.mk [] l.data (l.children.map reparseItem)

def reparseBoard (B : Board) : Board :=
  Board.mk [] (B.children.map reparseLane)
    (BoardData.mk (B.data.archive.map reparseItem) B.data.settings
      B.data.frontmatter [])

/-- The well-formedness of a stored block id: non-empty and made of
block-id characters; with no block id, the raw title must not itself end in
something the block-id scanner would strip. -/
def blockIdOk : Option Str → Str → Prop
  | none, body => splitBlockIdTok body = (none, body)
  | some b, _ => b ≠ [] ∧ b.all isBlockIdChar = true

instance : ∀ (o : Option Str) (body : Str), Decidable (blockIdOk o body) :=
  fun o body => by
    cases o with
    | none => unfold blockIdOk; infer_instance
    | some b => unfold blockIdOk; infer_instance

/-- Well-formedness of an item for the round trip: a checkbox character
that cannot break the line structure, no literal `<br>` in the serialized
body, a raw title that neither carries a strippable block-id tail nor
collides with the empty-task normalization, and a well-formed block id. -/
def WFItemP (it : Item) : Prop :=
  it.data.checkChar ≠ '\n' ∧
  occursSub "<br>".toList (indentNewLines it.data.titleRaw) = false ∧
  removeBlockId it.data.titleRaw = it.data.titleRaw ∧
  indentNewLines it.data.titleRaw ≠ '[' :: it.data.checkChar :: [']'] ∧
  blockIdOk it.data.blockId (indentNewLines it.data.titleRaw)

instance : DecidablePred WFItemP := fun it => by unfold WFItemP; infer_instance

/-- Well-formedness of a lane: its serialized heading parses back to
exactly its title and cap, and its items are well formed. -/
def WFLaneP (l : Lane) : Prop :=
  parseLaneTitle (replaceNewLines
      (laneTitleWithMaxItems l.data.title l.data.maxItems))
    = (l.data.title, l.data.maxItems) ∧
  (∀ it ∈ l.children, WFItemP it)

instance : DecidablePred WFLaneP := fun l => by unfold WFLaneP; infer_instance

/-- No newline-dash adjacency: the frontmatter scanner must not find a
premature closing fence inside the YAML payload. -/
def noNlDash : Str → Bool
  | [] => true
  | [_] => true
  | a :: b :: rest => !(isNlCr a && b = '-') && noNlDash (b :: rest)

/-- The round-trip well-formedness envelope of a board: a trimmed YAML
payload that cannot close the frontmatter early, a trimmed settings payload
free of backticks, and well-formed lanes and archive items. -/
def WFBoardP (B : Board) : Prop :=
  noNlDash ('\n' :: B.data.frontmatter) = true ∧
  jsTrim B.data.frontmatter = B.data.frontmatter ∧
  B.data.settings.all (fun c => ¬(c = '`')) = true ∧
  jsTrim B.data.settings = B.data.settings ∧
  (∀ l ∈ B.children, WFLaneP l) ∧
  (∀ it ∈ B.data.archive, WFItemP it)

instance : DecidablePred WFBoardP := fun B => by unfold WFBoardP; infer_instance

/-- Pending-lane bookkeeping of the body walk: `none` is top level, `some`
is an open lane. -/
def closePend : Option (LaneData × List Item) → List Lane
  | none => []
  | some p => [Lane.mk [] p.1 p.2]

def pendMode : Option (LaneData × List Item) → PMode
  | none => .top
  | some p => .lane p.1 p.2 none

def pendOf (l : Lane) : Option (LaneData × List Item) :=
  some (l.data, l.children.map reparseItem)

def lanesOutFrom : Option (LaneData × List Item) → List Lane → List Lane
  | _, [] => []
  | pend, l :: ls => closePend pend ++ lanesOutFrom (pendOf l) ls

def pendOutFrom : Option (LaneData × List Item) → List Lane → Option (LaneData × List Item)
  | pend, [] => pend
  | _, l :: ls => pendOutFrom (pendOf l) ls

/-- The lane part of `laneToMd` as a line list (the lane's serialized text
is `joinNl` of these lines plus one further empty line merged into what
follows). -/
def laneContrib (l : Lane) : List Str :=
  (headingPrefix ++ replaceNewLines (laneTitleWithMaxItems l.data.title l.data.maxItems))
    :: [] :: ((if l.data.shouldMarkItemsComplete then [completeString] else [])
      ++ (l.children.map (fun it => linesOf (itemToMd it))).flatten ++ [[], []])

theorem linesOf_no_nl (s : Str) (h : s.all (fun c => ¬(c = '\n')) = true) :
    linesOf s = [s] := by
  induction s with
  | nil => rfl
  | cons c rest ih =>
    rw [List.all_cons, Bool.and_eq_true] at h
    have hc : ¬(c = '\n') := by simpa using h.1
    rw [linesOf, if_neg hc, ih h.2]

theorem linesOf_prepend_no_nl (pre : Str)
    (h : pre.all (fun c => ¬(c = '\n')) = true) :
    ∀ (s : Str) (X : Str) (r : List Str), linesOf s = X :: r →
      linesOf (pre ++ s) = (pre ++ X) :: r := by
  induction pre with
  | nil => intro s X r hs; simpa using hs
  | cons c p ih =>
    intro s X r hs
    rw [List.all_cons, Bool.and_eq_true] at h
    have hc : ¬(c = '\n') := by simpa using h.1
    show linesOf (c :: (p ++ s)) = (c :: (p ++ X)) :: r
    rw [linesOf, if_neg hc, ih h.2 s X r hs]

def appendToLast (suf : Str) : List Str → List Str
  | [] => [suf]
  | [x] => [x ++ suf]
  | x :: xs => x :: appendToLast suf xs

theorem linesOf_append_no_nl (suf : Str)
    (h : suf.all (fun c => ¬(c = '\n')) = true) :
    ∀ (s : Str), linesOf (s ++ suf) = appendToLast suf (linesOf s) := by
  intro s
  induction s with
  | nil =>
    show linesOf suf = appendToLast suf [[]]
    rw [linesOf_no_nl suf h]
    rfl
  | cons c rest ih =>
    by_cases hc : c = '\n'
    · subst hc
      show linesOf ('\n' :: (rest ++ suf)) = appendToLast suf ([] :: linesOf rest)
      rw [linesOf, if_pos rfl, ih]
      cases hr : linesOf rest with
      | nil => exact absurd hr (linesOf_ne_nil rest)
      | cons X r => rfl
    · show linesOf (c :: (rest ++ suf)) = appendToLast suf (linesOf (c :: rest))
      rw [linesOf, if_neg hc, ih, linesOf, if_neg hc]
      cases hr : linesOf rest with
      | nil => exact absurd hr (linesOf_ne_nil rest)
      | cons X r =>
        cases r with
        | nil => rfl
        | cons y r2 => rfl

def mapTailIndent : List Str → List Str
  | [] => []
  | x :: xs => x :: xs.map (fun l => indentUnit ++ l)

theorem linesOf_indentNewLines (t : Str) :
    linesOf (indentNewLines t) = mapTailIndent (linesOf t) := by
  induction t with
  | nil => rfl
  | cons c rest ih =>
    by_cases hc : c = '\n'
    · subst hc
      rw [show indentNewLines ('\n' :: rest)
          = '\n' :: (indentUnit ++ indentNewLines rest) from by
        rw [indentNewLines, replaceAll_pref ['\n'] ('\n' :: indentUnit) '\n' rest
          (by simp) (by simp [List.isPrefixOf])]
        rfl]
      rw [show linesOf ('\n' :: (indentUnit ++ indentNewLines rest))
          = [] :: linesOf (indentUnit ++ indentNewLines rest) from rfl]
      cases hr : linesOf rest with
      | nil => exact absurd hr (linesOf_ne_nil rest)
      | cons X r =>
        rw [hr] at ih
        have hiu : indentUnit.all (fun c => ¬(c = '\n')) = true := by decide
        cases h2 : linesOf (indentNewLines rest) with
        | nil => exact absurd h2 (linesOf_ne_nil _)
        | cons X2 r2 =>
          rw [linesOf_prepend_no_nl indentUnit hiu _ X2 r2 h2]
          rw [h2] at ih
          rw [show linesOf ('\n' :: rest) = [] :: linesOf rest from rfl, hr]
          show ([] :: (indentUnit ++ X2) :: r2)
            = [] :: (X :: r).map (fun l => indentUnit ++ l)
          rw [show mapTailIndent (X :: r) = X :: r.map (fun l => indentUnit ++ l)
            from rfl] at ih
          have hX2 : X2 = X := (List.cons.injEq _ _ _ _ ▸ ih : _ ∧ _).1
          have hr2 : r2 = r.map (fun l => indentUnit ++ l) :=
            (List.cons.injEq _ _ _ _ ▸ ih : _ ∧ _).2
          rw [hX2, hr2, List.map_cons]
    · rw [show indentNewLines (c :: rest) = c :: indentNewLines rest from by
        rw [indentNewLines, replaceAll_not_pref ['\n'] ('\n' :: indentUnit) c rest
          (by simp [List.isPrefixOf]; exact fun h => hc h.symm)]
        rfl]
      rw [linesOf, if_neg hc, linesOf, if_neg hc, ih]
      cases hr : linesOf rest with
      | nil => exact absurd hr (linesOf_ne_nil rest)
      | cons X r => rfl

theorem replaceNewLines_no_nl (s : Str) :
    (replaceNewLines s).all (fun c => ¬(c = '\n')) = true := by
  induction s with
  | nil => rfl
  | cons c rest ih =>
    by_cases hc : c = '\n'
    · subst hc
      rw [show replaceNewLines ('\n' :: rest)
          = "<br>".toList ++ replaceNewLines rest from by
        rw [replaceNewLines, replaceAll_pref ['\n'] "<br>".toList '\n' rest
          (by simp) (by simp [List.isPrefixOf])]
        rfl]
      rw [List.all_append, ih]
      rfl
    · rw [show replaceNewLines (c :: rest) = c :: replaceNewLines rest from by
        rw [replaceNewLines, replaceAll_not_pref ['\n'] "<br>".toList c rest
          (by simp [List.isPrefixOf]; exact fun h => hc h.symm)]
        rfl]
      rw [List.all_cons, ih]
      simp [hc]

/-- The indent/dedent pair is the identity on raw titles. -/
theorem dedent_indent (t : Str) : dedentNewLines (indentNewLines t) = t := by
  induction t with
  | nil => rfl
  | cons c rest ih =>
    by_cases hc : c = '\n'
    · subst hc
      rw [show indentNewLines ('\n' :: rest)
          = '\n' :: (indentUnit ++ indentNewLines rest) from by
        rw [indentNewLines, replaceAll_pref ['\n'] ('\n' :: indentUnit) '\n' rest
          (by simp) (by simp [List.isPrefixOf])]
        rfl]
      rw [dedentNewLines, replaceAll_pref ('\n' :: indentUnit) ['\n'] '\n'
        (indentUnit ++ indentNewLines rest) (by simp)
        (by simp [indentUnit, List.isPrefixOf])]
      show '\n' :: replaceAll ('\n' :: indentUnit) ['\n']
          (('\n' :: (indentUnit ++ indentNewLines rest)).drop 5) = '\n' :: rest
      rw [show ('\n' :: (indentUnit ++ indentNewLines rest)).drop 5
          = indentNewLines rest from by simp [indentUnit]]
      rw [show replaceAll ('\n' :: indentUnit) ['\n'] (indentNewLines rest)
          = dedentNewLines (indentNewLines rest) from rfl, ih]
    · rw [show indentNewLines (c :: rest) = c :: indentNewLines rest from by
        rw [indentNewLines, replaceAll_not_pref ['\n'] ('\n' :: indentUnit) c rest
          (by simp [List.isPrefixOf]; exact fun h => hc h.symm)]
        rfl]
      rw [dedentNewLines, replaceAll_not_pref ('\n' :: indentUnit) ['\n'] c _
        (by simp [List.isPrefixOf]; exact fun h _ => hc h.symm)]
      rw [show replaceAll ('\n' :: indentUnit) ['\n'] (indentNewLines rest)
          = dedentNewLines (indentNewLines rest) from rfl, ih]

theorem takeWhile_append_stop (p : Char → Bool) :
    ∀ (a : Str) (c : Char) (d : Str), a.all p = true → p c = false →
      (a ++ c :: d).takeWhile p = a := by
  intro a
  induction a with
  | nil => intro c d _ hc; simp [List.takeWhile, hc]
  | cons x xs ih =>
    intro c d ha hc
    rw [List.all_cons, Bool.and_eq_true] at ha
    show (x :: (xs ++ c :: d)).takeWhile p = x :: xs
    rw [List.takeWhile_cons, ha.1, ih c d ha.2 hc]
    simp

/-- The block-id scanner splits `body ++ " ^id"` back into the body and the
id, for a well-formed id. -/
theorem splitBlockIdTok_append (x b : Str) (hb : b ≠ [])
    (hall : b.all isBlockIdChar = true) :
    splitBlockIdTok (x ++ ' ' :: '^' :: b) = (some b, x) := by
  rw [splitBlockIdTok]
  have hrev : (x ++ ' ' :: '^' :: b).reverse
      = b.reverse ++ '^' :: ' ' :: x.reverse := by
    simp
  rw [hrev]
  have htw : (b.reverse ++ '^' :: ' ' :: x.reverse).takeWhile isBlockIdChar
      = b.reverse :=
    takeWhile_append_stop isBlockIdChar b.reverse '^' (' ' :: x.reverse)
      (by simpa using hall) (by decide)
  rw [htw]
  have hdr : (b.reverse ++ '^' :: ' ' :: x.reverse).drop b.reverse.length
      = '^' :: ' ' :: x.reverse := by
    rw [List.drop_left]
  rw [hdr]
  cases hbr : b.reverse with
  | nil => exact absurd (by simpa using hbr) hb
  | cons y ys =>
    show (some (y :: ys).reverse, x.reverse.reverse) = (some b, x)
    rw [← hbr]
    simp

theorem joinNl_cons_flatten (X : Str) :
    ∀ (r : List Str), joinNl (X :: r) = X ++ (r.map ('\n' :: ·)).flatten := by
  intro r
  induction r generalizing X with
  | nil => simp [joinNl]
  | cons y r2 ih =>
    rw [show joinNl (X :: y :: r2) = X ++ '\n' :: joinNl (y :: r2) from rfl]
    rw [ih y]
    simp

theorem foldl_append_eq_flatten :
    ∀ (L : List Str) (acc : Str), L.foldl (· ++ ·) acc = acc ++ L.flatten := by
  intro L
  induction L with
  | nil => intro acc; simp
  | cons x xs ih =>
    intro acc
    rw [List.foldl_cons, ih, List.flatten_cons]
    simp

theorem linesOf_joinNl_blank_append :
    ∀ (L : List Str) (rest : Str),
      linesOf (joinNl (L ++ [[]]) ++ rest)
        = (L.map linesOf).flatten ++ linesOf rest := by
  intro L
  induction L with
  | nil => intro rest; simp [joinNl]
  | cons x xs ih =>
    intro rest
    have hj : joinNl ((x :: xs) ++ [[]]) = x ++ '\n' :: joinNl (xs ++ [[]]) := by
      cases xs with
      | nil => rfl
      | cons y ys => rfl
    rw [hj]
    rw [show (x ++ '\n' :: joinNl (xs ++ [[]])) ++ rest
        = x ++ '\n' :: (joinNl (xs ++ [[]]) ++ rest) from by simp]
    rw [linesOf_append_nl, ih rest]
    simp

theorem linesOf_joinNl_nl_append :
    ∀ (L : List Str) (rest : Str), L ≠ [] →
      linesOf (joinNl L ++ '\n' :: rest)
        = (L.map linesOf).flatten ++ linesOf rest := by
  intro L
  induction L with
  | nil => intro rest h; exact absurd rfl h
  | cons x xs ih =>
    intro rest _
    cases hxs : xs with
    | nil =>
      show linesOf (joinNl [x] ++ '\n' :: rest) = _
      rw [show joinNl [x] = x from rfl, linesOf_append_nl]
      simp
    | cons y ys =>
      rw [← hxs]
      have hj : joinNl (x :: xs) = x ++ '\n' :: joinNl xs := by
        rw [hxs]; rfl
      rw [hj]
      rw [show (x ++ '\n' :: joinNl xs) ++ '\n' :: rest
          = x ++ '\n' :: (joinNl xs ++ '\n' :: rest) from by simp]
      rw [linesOf_append_nl, ih rest (by rw [hxs]; simp)]
      simp

theorem fmScan_walk :
    ∀ (y : Str) (prev : Char) (acc : Str) (rest2 : Str),
      noNlDash (prev :: y) = true →
      fmScan prev acc (y ++ '\n' :: '-' :: '-' :: '-' :: rest2)
        = .ok (jsTrim (acc.reverse ++ y)) rest2 := by
  intro y
  induction y with
  | nil =>
    intro prev acc rest2 _
    show fmScan prev acc ('\n' :: '-' :: '-' :: '-' :: rest2) = _
    rw [fmScan, if_neg (by simp)]
    rw [fmScan, if_pos ⟨rfl, rfl, rfl⟩]
    show FmResult.ok (jsTrim (('\n' :: acc).drop 1).reverse) rest2 = _
    simp
  | cons c y' ih =>
    intro prev acc rest2 hnd
    rw [show noNlDash (prev :: c :: y')
        = (!(isNlCr prev && c = '-') && noNlDash (c :: y')) from rfl,
      Bool.and_eq_true] at hnd
    show fmScan prev acc (c :: (y' ++ '\n' :: '-' :: '-' :: '-' :: rest2)) = _
    rw [fmScan, if_neg (by
      intro hcond
      rw [hcond.2.1, hcond.1] at hnd
      simp at hnd)]
    rw [ih c (c :: acc) rest2 hnd.2]
    rw [show (c :: acc).reverse = acc.reverse ++ [c] from by simp]
    rw [List.append_assoc]
    rfl

theorem extractFrontmatter_board (y body : Str)
    (h1 : noNlDash ('\n' :: y) = true) (h2 : jsTrim y = y) :
    extractFrontmatter ('-' :: '-' :: '-' :: '\n' :: '\n'
        :: (y ++ '\n' :: '-' :: '-' :: '-' :: '\n' :: '\n' :: body))
      = .ok y ('\n' :: '\n' :: body) := by
  show fmScan '-' []
      ('\n' :: '\n' :: (y ++ '\n' :: '-' :: '-' :: '-' :: '\n' :: '\n' :: body))
    = .ok y ('\n' :: '\n' :: body)
  rw [show ('\n' :: '\n' :: (y ++ '\n' :: '-' :: '-' :: '-' :: '\n' :: '\n' :: body))
      = ('\n' :: '\n' :: y) ++ '\n' :: '-' :: '-' :: '-' :: ('\n' :: '\n' :: body)
    from by simp]
  rw [fmScan_walk ('\n' :: '\n' :: y) '-' [] ('\n' :: '\n' :: body) (by
    show (!(isNlCr '-' && ('\n' : Char) = '-')
        && noNlDash ('\n' :: '\n' :: y)) = true
    rw [show noNlDash ('\n' :: '\n' :: y)
        = (!(isNlCr '\n' && ('\n' : Char) = '-') && noNlDash ('\n' :: y)) from rfl]
    rw [h1]
    rfl)]
  rw [show (([] : Str).reverse ++ ('\n' :: '\n' :: y)) = '\n' :: '\n' :: y from by simp]
  rw [show jsTrim ('\n' :: '\n' :: y) = jsTrim y from rfl, h2]

theorem footScan2_walk :
    ∀ (zs : Str) (acc : Str) (restR : Str),
      zs.all (fun c => ¬(c = '`')) = true →
      footScan2 false acc (zs ++ '\n' :: '`' :: '`' :: '`' :: '\n' :: restR)
        = some (jsTrim ('\n' :: (zs.reverse ++ acc))) := by
  intro zs
  induction zs with
  | nil =>
    intro acc restR _
    show footScan2 false acc ('\n' :: '`' :: '`' :: '`' :: '\n' :: restR) = _
    rw [footScan2, if_neg (by simp)]
    rw [footScan2, if_pos ⟨rfl, rfl⟩]
    simp
  | cons z zs' ih =>
    intro acc restR hall
    rw [List.all_cons, Bool.and_eq_true] at hall
    have hz : ¬(z = '`') := by simpa using hall.1
    show footScan2 false acc
        (z :: (zs' ++ '\n' :: '`' :: '`' :: '`' :: '\n' :: restR)) = _
    rw [footScan2, if_neg (by intro hcond; exact hz hcond.1)]
    show footScan2 false (z :: acc)
        (zs' ++ '\n' :: '`' :: '`' :: '`' :: '\n' :: restR) = _
    rw [ih (z :: acc) restR hall.2]
    rw [show (z :: zs').reverse = zs'.reverse ++ [z] from by simp]
    rw [List.append_assoc]
    rfl

/-- The concrete pre-settings footer text `\n\n%% kanban:settings\n`​``\n`. -/
def pre1 : Str := '\n' :: '\n' :: settingsMarker ++ '\n' :: codeFence ++ ['\n']

def suf1 : Str := '\n' :: codeFence ++ '\n' :: '%' :: '%' :: []

theorem settingsToCodeblock_shape (b : Board) :
    settingsToCodeblock b = pre1 ++ b.data.settings ++ suf1 := by
  show joinNl [[], [], settingsMarker, codeFence, b.data.settings, codeFence,
      "%%".toList] = _
  simp [joinNl, pre1, suf1, settingsMarker, codeFence]

theorem extractSettingsFooter_board (P s : Str)
    (hs : s.all (fun c => ¬(c = '`')) = true) (ht : jsTrim s = s) :
    extractSettingsFooter (P ++ (pre1 ++ s ++ suf1)) = some s := by
  rw [extractSettingsFooter]
  have hrev : (P ++ (pre1 ++ s ++ suf1)).reverse
      = '%' :: '%' :: '\n' :: '`' :: '`' :: '`' :: '\n'
        :: (s.reverse ++ '\n' :: '`' :: '`' :: '`' :: '\n'
          :: (pre1.reverse.drop 5 ++ P.reverse)) := by
    rw [show (P ++ (pre1 ++ s ++ suf1)).reverse
        = suf1.reverse ++ s.reverse ++ pre1.reverse ++ P.reverse from by simp]
    rw [show suf1.reverse = ['%', '%', '\n', '`', '`', '`', '\n'] from by decide]
    rw [show pre1.reverse = '\n' :: '`' :: '`' :: '`' :: '\n'
        :: pre1.reverse.drop 5 from by decide]
    simp
  rw [hrev]
  show footScan2 true []
      ('\n' :: (s.reverse ++ '\n' :: '`' :: '`' :: '`' :: '\n'
        :: (pre1.reverse.drop 5 ++ P.reverse))) = some s
  rw [footScan2, if_neg (by simp)]
  show footScan2 false []
      (s.reverse ++ '\n' :: '`' :: '`' :: '`' :: '\n'
        :: (pre1.reverse.drop 5 ++ P.reverse)) = some s
  rw [footScan2_walk s.reverse [] (pre1.reverse.drop 5 ++ P.reverse)
    (by simpa using hs)]
  rw [show (s.reverse.reverse ++ ([] : Str)) = s from by simp]
  rw [show jsTrim ('\n' :: s) = jsTrim s from rfl, ht]

theorem isPrefixOf_append_self (p t : Str) : p.isPrefixOf (p ++ t) = true :=
  List.isPrefixOf_iff_prefix.mpr ⟨t, rfl⟩

theorem blockIdChar_ne_nl (c : Char) (h : isBlockIdChar c = true) :
    ¬(c = '\n') := fun hc => by subst hc; exact absurd h (by decide)

theorem appendToLast_pred (P : Str → Prop) (suf : Str)
    (hstab : ∀ l, P l → P (l ++ suf)) :
    ∀ (ls : List Str), ls ≠ [] → (∀ l ∈ ls, P l) →
      ∀ l ∈ appendToLast suf ls, P l := by
  intro ls
  induction ls with
  | nil => intro h; exact absurd rfl h
  | cons x xs ih =>
    intro _ hall l hl
    cases xs with
    | nil =>
      rw [show appendToLast suf [x] = [x ++ suf] from rfl] at hl
      rw [List.mem_singleton] at hl
      subst hl
      exact hstab x (hall x (List.mem_cons_self x []))
    | cons y ys =>
      rw [show appendToLast suf (x :: y :: ys) = x :: appendToLast suf (y :: ys)
        from rfl] at hl
      cases List.mem_cons.mp hl with
      | inl he => subst he; exact hall l (List.mem_cons_self _ _)
      | inr h2 =>
        exact ih (by simp) (fun a ha => hall a (List.mem_cons_of_mem x ha)) l h2

/-- The line shape of a serialized item: an item-start line carrying the
checkbox character and the first body line, then indented continuation
lines which re-join to exactly the serialized body. -/
theorem itemToMd_lines (it : Item) (h : WFItemP it) :
    ∃ X r, linesOf (itemToMd it)
        = ('-' :: ' ' :: '[' :: it.data.checkChar :: ']' :: ' ' :: X) :: r ∧
      joinNl (X :: r) = addBlockId (indentNewLines it.data.titleRaw) it ∧
      (∀ l ∈ r, indentUnit.isPrefixOf l = true) := by
  obtain ⟨hc, _, _, _, hbid⟩ := h
  have hbody : ∃ X r,
      linesOf (addBlockId (indentNewLines it.data.titleRaw) it) = X :: r ∧
      (∀ l ∈ r, indentUnit.isPrefixOf l = true) := by
    cases hb : it.data.blockId with
    | none =>
      rw [show addBlockId (indentNewLines it.data.titleRaw) it
          = indentNewLines it.data.titleRaw from by rw [addBlockId, hb]]
      rw [linesOf_indentNewLines]
      cases ht : linesOf it.data.titleRaw with
      | nil => exact absurd ht (linesOf_ne_nil _)
      | cons X0 r0 =>
        refine ⟨X0, r0.map (fun l => indentUnit ++ l), rfl, ?_⟩
        intro l hl
        obtain ⟨x, _, hxe⟩ := List.mem_map.mp hl
        rw [← hxe]
        exact isPrefixOf_append_self indentUnit x
    | some bid =>
      rw [hb] at hbid
      obtain ⟨hbne, hball⟩ := hbid
      rw [show addBlockId (indentNewLines it.data.titleRaw) it
          = indentNewLines it.data.titleRaw ++ ' ' :: '^' :: bid from by
        rw [addBlockId, hb]]
      have hsuf : (' ' :: '^' :: bid).all (fun c => ¬(c = '\n')) = true := by
        rw [List.all_cons, List.all_cons]
        have : bid.all (fun c => ¬(c = '\n')) = true :=
          List.all_eq_true.mpr (fun c hcm =>
            by simpa using blockIdChar_ne_nl c (List.all_eq_true.mp hball c hcm))
        rw [this]
        rfl
      rw [linesOf_append_no_nl _ hsuf, linesOf_indentNewLines]
      cases ht : linesOf it.data.titleRaw with
      | nil => exact absurd ht (linesOf_ne_nil _)
      | cons X0 r0 =>
        cases hr0 : r0.map (fun l => indentUnit ++ l) with
        | nil =>
          refine ⟨X0 ++ ' ' :: '^' :: bid, [], ?_, by simp⟩
          rw [show mapTailIndent (X0 :: r0) = X0 :: r0.map (fun l => indentUnit ++ l)
            from rfl, hr0]
          rfl
        | cons y ys =>
          refine ⟨X0, appendToLast (' ' :: '^' :: bid) (y :: ys), ?_, ?_⟩
          · rw [show mapTailIndent (X0 :: r0) = X0 :: r0.map (fun l => indentUnit ++ l)
              from rfl, hr0]
            rfl
          · refine appendToLast_pred _ _ ?_ (y :: ys) (by simp) ?_
            · intro l hl
              obtain ⟨t, htl⟩ := List.isPrefixOf_iff_prefix.mp hl
              exact List.isPrefixOf_iff_prefix.mpr ⟨t ++ ' ' :: '^' :: bid,
                by rw [← List.append_assoc, htl]⟩
            · intro l hl
              rw [← hr0] at hl
              obtain ⟨x, _, hxe⟩ := List.mem_map.mp hl
              rw [← hxe]
              exact isPrefixOf_append_self indentUnit x
  obtain ⟨X, r, hlines, hpref⟩ := hbody
  have hpre : ('-' :: ' ' :: '[' :: it.data.checkChar :: ']' :: ' ' :: []).all
      (fun c => ¬(c = '\n')) = true := by
    simp only [List.all_cons, List.all_nil]
    simp [hc]
  refine ⟨X, r, ?_, ?_, hpref⟩
  · rw [show itemToMd it
        = ('-' :: ' ' :: '[' :: it.data.checkChar :: ']' :: ' ' :: [])
          ++ addBlockId (indentNewLines it.data.titleRaw) it from by
      rw [itemToMd]; simp]
    rw [linesOf_prepend_no_nl _ hpre _ X r hlines]
    rfl
  · rw [← joinNl_linesOf (addBlockId (indentNewLines it.data.titleRaw) it), hlines]

/-- Parsing the serialized item body recovers the governed item fields. -/
theorem mkParsedItem_reparse (it : Item) (h : WFItemP it) :
    mkParsedItem it.data.checkChar (addBlockId (indentNewLines it.data.titleRaw) it)
      = reparseItem it := by
  obtain ⟨hc, hbr, hrb, hne, hbid⟩ := h
  have hsplit : splitBlockIdTok (addBlockId (indentNewLines it.data.titleRaw) it)
      = (it.data.blockId, indentNewLines it.data.titleRaw) := by
    cases hb : it.data.blockId with
    | none =>
      rw [hb] at hbid
      rw [addBlockId, hb]
      exact hbid
    | some b =>
      rw [hb] at hbid
      rw [addBlockId, hb]
      exact splitBlockIdTok_append _ b hbid.1 hbid.2
  rw [mkParsedItem, reparseItem]
  simp only [mkItemData, hsplit]
  have heff : (if it.data.checkChar ≠ ' ' then it.data.checkChar else ' ')
      = it.data.checkChar := by
    by_cases hsp : it.data.checkChar = ' '
    · rw [if_neg (by simp [hsp]), hsp]
    · rw [if_pos hsp]
  simp only [heff]
  rw [if_neg hne]
  rw [show replaceBrs (indentNewLines it.data.titleRaw)
      = indentNewLines it.data.titleRaw from replaceAll_noop _ _ _ hbr]
  rw [dedent_indent, hrb]

theorem step_lane_cont (ls : List Lane) (ar : List Item) (ab : Bool)
    (ld : LaneData) (items : List Item) (c : Char) (acc t : Str) :
    stepLine (PState.mk ls ar ab (.lane ld items (some (c, acc))))
        (indentUnit ++ t)
      = PState.mk ls ar ab
          (.lane ld items (some (c, acc ++ '\n' :: (indentUnit ++ t)))) := by
  simp only [stepLine]
  rw [if_neg (show ¬(settingsMarker.isPrefixOf (indentUnit ++ t) = true)
    from fun h => nomatch h)]
  rw [if_neg (show ¬(indentUnit ++ t = []) from fun h => nomatch h)]
  rw [if_neg (show ¬(indentUnit ++ t = archiveString) from fun h => nomatch h)]
  rw [if_neg (show ¬(headingPrefix.isPrefixOf (indentUnit ++ t) = true)
    from fun h => nomatch h)]
  rw [if_neg (show ¬(indentUnit ++ t = completeString) from fun h => nomatch h)]
  rw [if_pos ⟨isPrefixOf_append_self indentUnit t, rfl⟩]
  rfl

theorem step_arch_cont (ls : List Lane) (ar : List Item) (ab : Bool)
    (c : Char) (acc t : Str) :
    stepLine (PState.mk ls ar ab (.arch (some (c, acc)))) (indentUnit ++ t)
      = PState.mk ls ar ab (.arch (some (c, acc ++ '\n' :: (indentUnit ++ t)))) := by
  simp only [stepLine]
  rw [if_neg (show ¬(settingsMarker.isPrefixOf (indentUnit ++ t) = true)
    from fun h => nomatch h)]
  rw [if_neg (show ¬(indentUnit ++ t = []) from fun h => nomatch h)]
  rw [if_neg (show ¬(indentUnit ++ t = archiveString) from fun h => nomatch h)]
  rw [if_neg (show ¬(headingPrefix.isPrefixOf (indentUnit ++ t) = true)
    from fun h => nomatch h)]
  rw [if_pos ⟨isPrefixOf_append_self indentUnit t, rfl⟩]
  rfl

theorem fold_cont_lines :
    ∀ (r : List Str), (∀ l ∈ r, indentUnit.isPrefixOf l = true) →
      ∀ (ls : List Lane) (ar : List Item) (ab : Bool) (ld : LaneData)
        (items : List Item) (c : Char) (acc : Str),
      List.foldl stepLine (PState.mk ls ar ab (.lane ld items (some (c, acc)))) r
        = PState.mk ls ar ab
            (.lane ld items (some (c, acc ++ (r.map ('\n' :: ·)).flatten))) := by
  intro r
  induction r with
  | nil => intro _ ls ar ab ld items c acc; simp
  | cons l r' ih =>
    intro hr ls ar ab ld items c acc
    obtain ⟨t, ht⟩ := List.isPrefixOf_iff_prefix.mp (hr l (List.mem_cons_self l r'))
    rw [List.foldl_cons]
    rw [show stepLine (PState.mk ls ar ab (.lane ld items (some (c, acc)))) l
        = PState.mk ls ar ab (.lane ld items (some (c, acc ++ '\n' :: l))) from by
      rw [← ht]; exact step_lane_cont ls ar ab ld items c acc t]
    rw [ih (fun x hx => hr x (List.mem_cons_of_mem l hx)) ls ar ab ld items c
      (acc ++ '\n' :: l)]
    rw [List.map_cons, List.flatten_cons]
    simp

theorem fold_cont_lines_arch :
    ∀ (r : List Str), (∀ l ∈ r, indentUnit.isPrefixOf l = true) →
      ∀ (ls : List Lane) (ar : List Item) (ab : Bool) (c : Char) (acc : Str),
      List.foldl stepLine (PState.mk ls ar ab (.arch (some (c, acc)))) r
        = PState.mk ls ar ab
            (.arch (some (c, acc ++ (r.map ('\n' :: ·)).flatten))) := by
  intro r
  induction r with
  | nil => intro _ ls ar ab c acc; simp
  | cons l r' ih =>
    intro hr ls ar ab c acc
    obtain ⟨t, ht⟩ := List.isPrefixOf_iff_prefix.mp (hr l (List.mem_cons_self l r'))
    rw [List.foldl_cons]
    rw [show stepLine (PState.mk ls ar ab (.arch (some (c, acc)))) l
        = PState.mk ls ar ab (.arch (some (c, acc ++ '\n' :: l))) from by
      rw [← ht]; exact step_arch_cont ls ar ab c acc t]
    rw [ih (fun x hx => hr x (List.mem_cons_of_mem l hx)) ls ar ab c
      (acc ++ '\n' :: l)]
    rw [List.map_cons, List.flatten_cons]
    simp

theorem fold_item_block (it : Item) (h : WFItemP it) (ls : List Lane)
    (ar : List Item) (ab : Bool) (ld : LaneData) (items : List Item)
    (cur : Option (Char × Str)) :
    List.foldl stepLine (PState.mk ls ar ab (.lane ld items cur))
        (linesOf (itemToMd it))
      = PState.mk ls ar ab (.lane ld (items ++ closeCur cur)
          (some (it.data.checkChar,
            addBlockId (indentNewLines it.data.titleRaw) it))) := by
  obtain ⟨X, r, hlines, hjoin, hpref⟩ := itemToMd_lines it h
  rw [hlines, List.foldl_cons]
  rw [show stepLine (PState.mk ls ar ab (.lane ld items cur))
      ('-' :: ' ' :: '[' :: it.data.checkChar :: ']' :: ' ' :: X)
      = PState.mk ls ar ab
          (.lane ld (items ++ closeCur cur) (some (it.data.checkChar, X)))
    from rfl]
  rw [fold_cont_lines r hpref ls ar ab ld (items ++ closeCur cur)
    it.data.checkChar X]
  rw [← joinNl_cons_flatten X r, hjoin]

theorem fold_item_block_arch (it : Item) (h : WFItemP it) (ls : List Lane)
    (ar : List Item) (ab : Bool) (cur : Option (Char × Str)) :
    List.foldl stepLine (PState.mk ls ar ab (.arch cur)) (linesOf (itemToMd it))
      = PState.mk ls (ar ++ closeCur cur) ab
          (.arch (some (it.data.checkChar,
            addBlockId (indentNewLines it.data.titleRaw) it))) := by
  obtain ⟨X, r, hlines, hjoin, hpref⟩ := itemToMd_lines it h
  rw [hlines, List.foldl_cons]
  rw [show stepLine (PState.mk ls ar ab (.arch cur))
      ('-' :: ' ' :: '[' :: it.data.checkChar :: ']' :: ' ' :: X)
      = PState.mk ls (ar ++ closeCur cur) ab
          (.arch (some (it.data.checkChar, X)))
    from rfl]
  rw [fold_cont_lines_arch r hpref ls (ar ++ closeCur cur) ab
    it.data.checkChar X]
  rw [← joinNl_cons_flatten X r, hjoin]

/-- Folding a lane's serialized items plus the closing blank line: every
item is parsed back and the cursor is closed. -/
theorem fold_items_lane :
    ∀ (its : List Item), (∀ it ∈ its, WFItemP it) →
      ∀ (rest : List Str) (ls : List Lane) (ar : List Item) (ab : Bool)
        (ld : LaneData) (items : List Item) (cur : Option (Char × Str)),
      List.foldl stepLine (PState.mk ls ar ab (.lane ld items cur))
          ((its.map (fun it => linesOf (itemToMd it))).flatten ++ [] :: rest)
        = List.foldl stepLine
            (PState.mk ls ar ab
              (.lane ld (items ++ closeCur cur ++ its.map reparseItem) none))
            rest := by
  intro its
  induction its with
  | nil =>
    intro _ rest ls ar ab ld items cur
    rw [List.map_nil, List.flatten_nil, List.nil_append, List.foldl_cons]
    rw [show stepLine (PState.mk ls ar ab (.lane ld items cur)) []
        = PState.mk ls ar ab (.lane ld (items ++ closeCur cur) none) from rfl]
    simp
  | cons it its' ih =>
    intro hall rest ls ar ab ld items cur
    rw [List.map_cons, List.flatten_cons, List.append_assoc, List.foldl_append]
    rw [fold_item_block it (hall it (List.mem_cons_self _ _)) ls ar ab ld items cur]
    rw [ih (fun x hx => hall x (List.mem_cons_of_mem _ hx)) rest ls ar ab ld
      (items ++ closeCur cur)
      (some (it.data.checkChar, addBlockId (indentNewLines it.data.titleRaw) it))]
    rw [show closeCur (some (it.data.checkChar,
        addBlockId (indentNewLines it.data.titleRaw) it))
      = [mkParsedItem it.data.checkChar
          (addBlockId (indentNewLines it.data.titleRaw) it)] from rfl]
    rw [mkParsedItem_reparse it (hall it (List.mem_cons_self _ _))]
    rw [List.map_cons]
    simp [List.append_assoc]

theorem fold_items_arch :
    ∀ (its : List Item), (∀ it ∈ its, WFItemP it) →
      ∀ (rest : List Str) (ls : List Lane) (ar : List Item) (ab : Bool)
        (cur : Option (Char × Str)),
      List.foldl stepLine (PState.mk ls ar ab (.arch cur))
          ((its.map (fun it => linesOf (itemToMd it))).flatten ++ [] :: rest)
        = List.foldl stepLine
            (PState.mk ls (ar ++ closeCur cur ++ its.map reparseItem) ab
              (.arch none))
            rest := by
  intro its
  induction its with
  | nil =>
    intro _ rest ls ar ab cur
    rw [List.map_nil, List.flatten_nil, List.nil_append, List.foldl_cons]
    rw [show stepLine (PState.mk ls ar ab (.arch cur)) []
        = PState.mk ls (ar ++ closeCur cur) ab (.arch none) from rfl]
    simp
  | cons it its' ih =>
    intro hall rest ls ar ab cur
    rw [List.map_cons, List.flatten_cons, List.append_assoc, List.foldl_append]
    rw [fold_item_block_arch it (hall it (List.mem_cons_self _ _)) ls ar ab cur]
    rw [ih (fun x hx => hall x (List.mem_cons_of_mem _ hx)) rest ls
      (ar ++ closeCur cur) ab
      (some (it.data.checkChar, addBlockId (indentNewLines it.data.titleRaw) it))]
    rw [show closeCur (some (it.data.checkChar,
        addBlockId (indentNewLines it.data.titleRaw) it))
      = [mkParsedItem it.data.checkChar
          (addBlockId (indentNewLines it.data.titleRaw) it)] from rfl]
    rw [mkParsedItem_reparse it (hall it (List.mem_cons_self _ _))]
    rw [List.map_cons]
    simp [List.append_assoc]

theorem step_pend_heading (ls : List Lane) (ar : List Item)
    (pend : Option (LaneData × List Item)) (X : Str) :
    stepLine (PState.mk ls ar false (pendMode pend)) (headingPrefix ++ X)
      = PState.mk (ls ++ closePend pend) ar false
          (.lane (LaneData.mk (parseLaneTitle X).1 (parseLaneTitle X).2 false)
            [] none) := by
  cases pend with
  | none =>
    simp only [pendMode, stepLine]
    rw [if_neg (show ¬(settingsMarker.isPrefixOf (headingPrefix ++ X) = true)
      from fun h => nomatch h)]
    rw [if_neg (show ¬(headingPrefix ++ X = []) from fun h => nomatch h)]
    rw [if_neg (show ¬(headingPrefix ++ X = archiveString) from fun h => nomatch h)]
    rw [if_pos (isPrefixOf_append_self headingPrefix X)]
    rw [if_neg (show ¬((false = true) ∧ (headingPrefix ++ X).drop 3 = archiveHeadingText)
      from fun h => nomatch h.1)]
    rw [show (headingPrefix ++ X).drop 3 = X from rfl]
    simp only [closePend, List.append_nil]
  | some p =>
    obtain ⟨ld0, its0⟩ := p
    simp only [pendMode, stepLine]
    rw [if_neg (show ¬(settingsMarker.isPrefixOf (headingPrefix ++ X) = true)
      from fun h => nomatch h)]
    rw [if_neg (show ¬(headingPrefix ++ X = []) from fun h => nomatch h)]
    rw [if_neg (show ¬(headingPrefix ++ X = archiveString) from fun h => nomatch h)]
    rw [if_pos (isPrefixOf_append_self headingPrefix X)]
    rw [show (headingPrefix ++ X).drop 3 = X from rfl]
    rw [show its0 ++ closeCur none = its0 from by simp [closeCur]]
    rfl

theorem step_pend_break (ls : List Lane) (ar : List Item) (ab : Bool)
    (pend : Option (LaneData × List Item)) :
    stepLine (PState.mk ls ar ab (pendMode pend)) archiveString
      = PState.mk (ls ++ closePend pend) ar true .top := by
  cases pend with
  | none =>
    show PState.mk ls ar true .top = _
    simp only [closePend, List.append_nil]
  | some p =>
    obtain ⟨ld0, its0⟩ := p
    show PState.mk (ls ++ [Lane.mk [] ld0 (its0 ++ closeCur none)]) ar true .top = _
    rw [show its0 ++ closeCur none = its0 from by simp [closeCur]]
    rfl

theorem step_pend_marker (ls : List Lane) (ar : List Item) (ab : Bool)
    (pend : Option (LaneData × List Item)) :
    stepLine (PState.mk ls ar ab (pendMode pend)) settingsMarker
      = PState.mk (ls ++ closePend pend) ar ab .stopped := by
  cases pend with
  | none =>
    show PState.mk ls ar ab .stopped = _
    simp only [closePend, List.append_nil]
  | some p =>
    obtain ⟨ld0, its0⟩ := p
    show PState.mk (ls ++ [Lane.mk [] ld0 (its0 ++ closeCur none)]) ar ab .stopped = _
    rw [show its0 ++ closeCur none = its0 from by simp [closeCur]]
    rfl

theorem step_pend_blank (ls : List Lane) (ar : List Item) (ab : Bool)
    (pend : Option (LaneData × List Item)) :
    stepLine (PState.mk ls ar ab (pendMode pend)) []
      = PState.mk ls ar ab (pendMode pend) := by
  cases pend with
  | none => rfl
  | some p =>
    obtain ⟨ld0, its0⟩ := p
    show PState.mk ls ar ab (.lane ld0 (its0 ++ closeCur none) none) = _
    rw [show its0 ++ closeCur none = its0 from by simp [closeCur]]
    rfl

theorem fold_laneContrib (l : Lane) (h : WFLaneP l)
    (pend : Option (LaneData × List Item)) (ls : List Lane) (ar : List Item)
    (rest : List Str) :
    List.foldl stepLine (PState.mk ls ar false (pendMode pend))
        (laneContrib l ++ rest)
      = List.foldl stepLine
          (PState.mk (ls ++ closePend pend) ar false (pendMode (pendOf l)))
          rest := by
  obtain ⟨htitle, hits⟩ := h
  rw [laneContrib, List.cons_append, List.cons_append, List.foldl_cons]
  rw [step_pend_heading ls ar pend
    (replaceNewLines (laneTitleWithMaxItems l.data.title l.data.maxItems))]
  rw [htitle, List.foldl_cons]
  rw [show stepLine (PState.mk (ls ++ closePend pend) ar false
      (.lane (LaneData.mk (l.data.title, l.data.maxItems).1
        (l.data.title, l.data.maxItems).2 false) [] none)) []
    = PState.mk (ls ++ closePend pend) ar false
        (.lane (LaneData.mk l.data.title l.data.maxItems false) [] none) from rfl]
  cases hf : l.data.shouldMarkItemsComplete with
  | true =>
    rw [if_pos rfl]
    rw [show ([completeString] ++ (l.children.map
          (fun it => linesOf (itemToMd it))).flatten ++ [[], []]) ++ rest
      = completeString :: ((l.children.map
          (fun it => linesOf (itemToMd it))).flatten ++ [] :: ([] :: rest))
      from by simp]
    rw [List.foldl_cons]
    rw [show stepLine (PState.mk (ls ++ closePend pend) ar false
        (.lane (LaneData.mk l.data.title l.data.maxItems false) [] none))
          completeString
      = PState.mk (ls ++ closePend pend) ar false
          (.lane (LaneData.mk l.data.title l.data.maxItems true) [] none)
      from rfl]
    rw [fold_items_lane l.children hits ([] :: rest) (ls ++ closePend pend) ar
      false (LaneData.mk l.data.title l.data.maxItems true) [] none]
    rw [List.foldl_cons]
    rw [show stepLine (PState.mk (ls ++ closePend pend) ar false
        (.lane (LaneData.mk l.data.title l.data.maxItems true)
          ([] ++ closeCur none ++ l.children.map reparseItem) none)) []
      = PState.mk (ls ++ closePend pend) ar false
          (.lane (LaneData.mk l.data.title l.data.maxItems true)
            (([] ++ closeCur none ++ l.children.map reparseItem) ++ closeCur none)
            none) from rfl]
    rw [show LaneData.mk l.data.title l.data.maxItems true = l.data from by
      rw [← hf]]
    rw [show pendMode (pendOf l) = .lane l.data (l.children.map reparseItem) none
      from rfl]
    simp [closeCur]
  | false =>
    rw [if_neg (by simp)]
    rw [show (([] : List Str) ++ (l.children.map
          (fun it => linesOf (itemToMd it))).flatten ++ [[], []]) ++ rest
      = (l.children.map (fun it => linesOf (itemToMd it))).flatten
          ++ [] :: ([] :: rest) from by simp]
    rw [fold_items_lane l.children hits ([] :: rest) (ls ++ closePend pend) ar
      false (LaneData.mk l.data.title l.data.maxItems false) [] none]
    rw [List.foldl_cons]
    rw [show stepLine (PState.mk (ls ++ closePend pend) ar false
        (.lane (LaneData.mk l.data.title l.data.maxItems false)
          ([] ++ closeCur none ++ l.children.map reparseItem) none)) []
      = PState.mk (ls ++ closePend pend) ar false
          (.lane (LaneData.mk l.data.title l.data.maxItems false)
            (([] ++ closeCur none ++ l.children.map reparseItem) ++ closeCur none)
            none) from rfl]
    rw [show LaneData.mk l.data.title l.data.maxItems false = l.data from by
      rw [← hf]]
    rw [show pendMode (pendOf l) = .lane l.data (l.children.map reparseItem) none
      from rfl]
    simp [closeCur]

theorem fold_lanes :
    ∀ (lsB : List Lane), (∀ l ∈ lsB, WFLaneP l) →
      ∀ (pend : Option (LaneData × List Item)) (ls : List Lane) (ar : List Item)
        (rest : List Str),
      List.foldl stepLine (PState.mk ls ar false (pendMode pend))
          ((lsB.map laneContrib).flatten ++ rest)
        = List.foldl stepLine
            (PState.mk (ls ++ lanesOutFrom pend lsB) ar false
              (pendMode (pendOutFrom pend lsB))) rest := by
  intro lsB
  induction lsB with
  | nil =>
    intro _ pend ls ar rest
    simp [lanesOutFrom, pendOutFrom]
  | cons l ls' ih =>
    intro hall pend ls ar rest
    rw [List.map_cons, List.flatten_cons, List.append_assoc]
    rw [fold_laneContrib l (hall l (List.mem_cons_self _ _)) pend ls ar]
    rw [ih (fun x hx => hall x (List.mem_cons_of_mem _ hx)) (pendOf l)
      (ls ++ closePend pend) ar rest]
    rw [show lanesOutFrom pend (l :: ls')
        = closePend pend ++ lanesOutFrom (pendOf l) ls' from rfl]
    rw [show pendOutFrom pend (l :: ls') = pendOutFrom (pendOf l) ls' from rfl]
    rw [List.append_assoc]

theorem lanesOut_close :
    ∀ (lsB : List Lane) (pend : Option (LaneData × List Item)),
      lanesOutFrom pend lsB ++ closePend (pendOutFrom pend lsB)
        = closePend pend ++ lsB.map reparseLane := by
  intro lsB
  induction lsB with
  | nil => intro pend; simp [lanesOutFrom, pendOutFrom]
  | cons l ls' ih =>
    intro pend
    rw [show lanesOutFrom pend (l :: ls')
        = closePend pend ++ lanesOutFrom (pendOf l) ls' from rfl]
    rw [show pendOutFrom pend (l :: ls') = pendOutFrom (pendOf l) ls' from rfl]
    rw [List.append_assoc, ih (pendOf l)]
    rw [show closePend (pendOf l) = [reparseLane l] from rfl]
    rw [List.map_cons]
    rfl

theorem fold_stopped :
    ∀ (lines : List Str) (ls : List Lane) (ar : List Item) (ab : Bool),
      List.foldl stepLine (PState.mk ls ar ab .stopped) lines
        = PState.mk ls ar ab .stopped := by
  intro lines
  induction lines with
  | nil => intro ls ar ab; rfl
  | cons l rest ih =>
    intro ls ar ab
    rw [List.foldl_cons]
    rw [show stepLine (PState.mk ls ar ab .stopped) l
        = PState.mk ls ar ab .stopped from rfl]
    exact ih ls ar ab

theorem linesOf_laneToMd_append (l : Lane) (rest : Str) :
    linesOf (laneToMd l ++ rest) = laneContrib l ++ linesOf rest := by
  rw [laneToMd]
  rw [show ("## ".toList : Str) = headingPrefix from rfl]
  rw [show ((headingPrefix
        ++ replaceNewLines (laneTitleWithMaxItems l.data.title l.data.maxItems))
      :: [] :: ((if l.data.shouldMarkItemsComplete then [completeString] else [])
        ++ l.children.map itemToMd ++ [[], [], []]))
    = ((headingPrefix
        ++ replaceNewLines (laneTitleWithMaxItems l.data.title l.data.maxItems))
      :: [] :: ((if l.data.shouldMarkItemsComplete then [completeString] else [])
        ++ l.children.map itemToMd ++ [[], []])) ++ [[]] from by simp]
  rw [linesOf_joinNl_blank_append]
  rw [laneContrib]
  have hhd : linesOf (headingPrefix
      ++ replaceNewLines (laneTitleWithMaxItems l.data.title l.data.maxItems))
      = [headingPrefix
        ++ replaceNewLines (laneTitleWithMaxItems l.data.title l.data.maxItems)] := by
    apply linesOf_no_nl
    rw [List.all_append]
    rw [replaceNewLines_no_nl]
    rfl
  simp only [List.map_cons, List.map_append, List.flatten_cons, List.flatten_append,
    List.map_map, hhd]
  rw [show linesOf ([] : Str) = [[]] from rfl]
  cases hf : l.data.shouldMarkItemsComplete with
  | true =>
    simp only [eq_self_iff_true, if_true]
    rw [show (List.map linesOf [completeString]) = [[completeString]] from rfl]
    simp only [List.map_nil, List.flatten_nil, List.flatten_cons, List.append_nil,
      List.nil_append, List.cons_append, List.append_assoc]
    rfl
  | false =>
    simp only [Bool.false_eq_true, if_false]
    simp only [List.map_nil, List.flatten_nil, List.append_nil, List.nil_append,
      List.cons_append, List.append_assoc]
    rfl

theorem linesOf_lanes_append :
    ∀ (lsB : List Lane) (rest : Str),
      linesOf ((lsB.map laneToMd).flatten ++ rest)
        = (lsB.map laneContrib).flatten ++ linesOf rest := by
  intro lsB
  induction lsB with
  | nil => intro rest; simp
  | cons l ls' ih =>
    intro rest
    rw [List.map_cons, List.flatten_cons, List.append_assoc]
    rw [linesOf_laneToMd_append l ((ls'.map laneToMd).flatten ++ rest)]
    rw [ih rest, List.map_cons, List.flatten_cons, List.append_assoc]

/-- The archive block's line list. -/
def archContrib (its : List Item) : List Str :=
  [archiveString, [], headingPrefix ++ archiveHeadingText, []]
    ++ (its.map (fun it => linesOf (itemToMd it))).flatten

theorem linesOf_archiveToMd_append (its : List Item) (h : its ≠ [])
    (rest : Str) :
    linesOf (archiveToMd its ++ '\n' :: rest)
      = archContrib its ++ linesOf rest := by
  rw [archiveToMd, if_neg (by simpa using h)]
  rw [linesOf_joinNl_nl_append _ rest (by simp)]
  rw [archContrib]
  simp only [List.map_cons, List.map_append, List.flatten_cons, List.flatten_append,
    List.map_map]
  rw [show linesOf archiveString = [archiveString] from rfl]
  rw [show linesOf ([] : Str) = [[]] from rfl]
  rw [show linesOf ("## ".toList ++ archiveHeadingText)
      = [headingPrefix ++ archiveHeadingText] from rfl]
  simp only [List.map_nil, List.flatten_nil, List.append_nil, List.nil_append,
    List.cons_append, List.append_assoc]
  rfl

theorem step_arch_marker (ls : List Lane) (ar : List Item) (ab : Bool) :
    stepLine (PState.mk ls ar ab (.arch none)) settingsMarker
      = PState.mk ls ar ab .stopped := by
  show PState.mk ls (ar ++ closeCur none) ab .stopped = _
  rw [show ar ++ closeCur none = ar from by simp [closeCur]]

theorem laneToMd_reparse (l : Lane) : laneToMd (reparseLane l) = laneToMd l := by
  rw [laneToMd, laneToMd]
  rw [show (reparseLane l).data = l.data from rfl]
  rw [show (reparseLane l).children = l.children.map reparseItem from rfl]
  rw [List.map_map]
  simp only [Function.comp_def]
  rw [map_congr_expl (fun it => itemToMd (reparseItem it)) itemToMd l.children
    (fun it _ => rfl)]

theorem boardToMd_reparse (B : Board) :
    boardToMd (reparseBoard B) = boardToMd B := by
  have h1 : (B.children.map reparseLane).map laneToMd = B.children.map laneToMd := by
    rw [List.map_map]
    exact List.map_congr_left (fun l _ => laneToMd_reparse l)
  have h2 : archiveToMd (B.data.archive.map reparseItem)
      = archiveToMd B.data.archive := by
    cases ha : B.data.archive with
    | nil => rfl
    | cons a as =>
      rw [archiveToMd, archiveToMd, if_neg (by simp), if_neg (by simp)]
      rw [List.map_map]
      simp only [Function.comp_def]
      rw [map_congr_expl (fun it => itemToMd (reparseItem it)) itemToMd (a :: as)
        (fun it _ => rfl)]
  rw [show boardToMd (reparseBoard B)
      = joinNl ["---".toList, [], B.data.frontmatter, "---".toList, [], []]
        ++ ((B.children.map reparseLane).map laneToMd).foldl (· ++ ·) []
        ++ archiveToMd (B.data.archive.map reparseItem)
        ++ settingsToCodeblock (reparseBoard B) from rfl]
  rw [show boardToMd B
      = joinNl ["---".toList, [], B.data.frontmatter, "---".toList, [], []]
        ++ (B.children.map laneToMd).foldl (· ++ ·) []
        ++ archiveToMd B.data.archive ++ settingsToCodeblock B from rfl]
  rw [h1, h2, show settingsToCodeblock (reparseBoard B) = settingsToCodeblock B
    from rfl]

/-- The governed fields of the claim: per item the raw title, checkbox
state and block identifier in order; per lane its title, cap, complete flag
and its items in order; plus archive, settings and frontmatter. -/
def governedItem (it : Item) : Str × Char × Option Str :=
  (it.data.titleRaw, it.data.checkChar, it.data.blockId)

def governedLane (l : Lane) : (Str × Nat × Bool) × List (Str × Char × Option Str) :=
  ((l.data.title, l.data.maxItems, l.data.shouldMarkItemsComplete),
    l.children.map governedItem)

def governedBoard (b : Board) :
    List ((Str × Nat × Bool) × List (Str × Char × Option Str))
      × List (Str × Char × Option Str) × Str × Str :=
  (b.children.map governedLane, b.data.archive.map governedItem,
    b.data.settings, b.data.frontmatter)

theorem governed_reparse (B : Board) :
    governedBoard (reparseBoard B) = governedBoard B := by
  rw [governedBoard, governedBoard]
  rw [show (reparseBoard B).children = B.children.map reparseLane from rfl]
  rw [show (reparseBoard B).data.archive = B.data.archive.map reparseItem from rfl]
  rw [show (reparseBoard B).data.settings = B.data.settings from rfl]
  rw [show (reparseBoard B).data.frontmatter = B.data.frontmatter from rfl]
  rw [List.map_map, List.map_map]
  simp only [Function.comp_def]
  rw [map_congr_expl (fun it => governedItem (reparseItem it)) governedItem
    B.data.archive (fun it _ => rfl)]
  rw [map_congr_expl (fun l => governedLane (reparseLane l)) governedLane
    B.children (fun l _ => show governedLane (reparseLane l)
      = governedLane l from by
      rw [governedLane, governedLane]
      rw [show (reparseLane l).data = l.data from rfl]
      rw [show (reparseLane l).children = l.children.map reparseItem from rfl]
      rw [List.map_map]
      simp only [Function.comp_def]
      rw [map_congr_expl (fun it => governedItem (reparseItem it)) governedItem
        l.children (fun it _ => rfl)])]

theorem step_top_blank (ls : List Lane) (ar : List Item) (ab : Bool) :
    stepLine (PState.mk ls ar ab .top) [] = PState.mk ls ar ab .top := rfl

theorem step_top_archive (ls : List Lane) (ar : List Item) :
    stepLine (PState.mk ls ar true .top) (headingPrefix ++ archiveHeadingText)
      = PState.mk ls ar false (.arch none) := rfl

theorem step_arch_blank_nil (ls : List Lane) (ab : Bool) :
    stepLine (PState.mk ls [] ab (.arch none)) []
      = PState.mk ls [] ab (.arch none) := rfl

/-- The full body parse of a serialized board: the lanes and archive come
back as their reparses. -/
theorem parseBody_board (lsB : List Lane) (arch : List Item) (s : Str)
    (hl : ∀ l ∈ lsB, WFLaneP l) (ha : ∀ it ∈ arch, WFItemP it) :
    parseBodyLines (linesOf ('\n' :: '\n' :: ((lsB.map laneToMd).flatten
        ++ (archiveToMd arch ++ (pre1 ++ (s ++ suf1))))))
      = (lsB.map reparseLane, arch.map reparseItem) := by
  cases arch with
  | nil =>
    rw [show archiveToMd [] = ([] : Str) from rfl, List.nil_append]
    rw [show linesOf ('\n' :: '\n' :: ((lsB.map laneToMd).flatten
        ++ (pre1 ++ (s ++ suf1))))
      = [] :: [] :: linesOf ((lsB.map laneToMd).flatten ++ (pre1 ++ (s ++ suf1)))
      from rfl]
    rw [linesOf_lanes_append]
    rw [show pre1 ++ (s ++ suf1)
        = '\n' :: '\n' :: (settingsMarker ++ '\n'
          :: (codeFence ++ '\n' :: (s ++ suf1))) from by rw [pre1]; simp]
    rw [show linesOf ('\n' :: '\n' :: (settingsMarker ++ '\n'
        :: (codeFence ++ '\n' :: (s ++ suf1))))
      = [] :: [] :: linesOf (settingsMarker ++ '\n'
          :: (codeFence ++ '\n' :: (s ++ suf1))) from rfl]
    rw [linesOf_append_nl]
    rw [show linesOf settingsMarker = [settingsMarker] from rfl,
      List.singleton_append]
    rw [parseBodyLines]
    rw [show (PState.mk ([] : List Lane) ([] : List Item) false .top)
        = PState.mk [] [] false (pendMode none) from rfl]
    rw [List.foldl_cons, step_pend_blank, List.foldl_cons, step_pend_blank]
    rw [fold_lanes lsB hl none [] []]
    rw [List.foldl_cons, step_pend_blank, List.foldl_cons, step_pend_blank]
    rw [List.foldl_cons, step_pend_marker]
    rw [fold_stopped]
    rw [finalizeP]
    rw [List.nil_append, lanesOut_close]
    rw [show closePend none = ([] : List Lane) from rfl, List.nil_append]
    rfl
  | cons a as =>
    rw [show archiveToMd (a :: as) ++ (pre1 ++ (s ++ suf1))
        = archiveToMd (a :: as) ++ '\n' :: ('\n' :: (settingsMarker ++ '\n'
          :: (codeFence ++ '\n' :: (s ++ suf1)))) from by rw [pre1]; simp]
    rw [show linesOf ('\n' :: '\n' :: ((lsB.map laneToMd).flatten
        ++ (archiveToMd (a :: as) ++ '\n' :: ('\n' :: (settingsMarker ++ '\n'
          :: (codeFence ++ '\n' :: (s ++ suf1)))))))
      = [] :: [] :: linesOf ((lsB.map laneToMd).flatten
          ++ (archiveToMd (a :: as) ++ '\n' :: ('\n' :: (settingsMarker ++ '\n'
            :: (codeFence ++ '\n' :: (s ++ suf1)))))) from rfl]
    rw [linesOf_lanes_append]
    rw [linesOf_archiveToMd_append (a :: as) (by simp)]
    rw [show linesOf ('\n' :: (settingsMarker ++ '\n'
        :: (codeFence ++ '\n' :: (s ++ suf1))))
      = [] :: linesOf (settingsMarker ++ '\n'
          :: (codeFence ++ '\n' :: (s ++ suf1))) from rfl]
    rw [linesOf_append_nl]
    rw [show linesOf settingsMarker = [settingsMarker] from rfl,
      List.singleton_append]
    rw [parseBodyLines]
    rw [show (PState.mk ([] : List Lane) ([] : List Item) false .top)
        = PState.mk [] [] false (pendMode none) from rfl]
    rw [List.foldl_cons, step_pend_blank, List.foldl_cons, step_pend_blank]
    rw [fold_lanes lsB hl none [] []]
    rw [archContrib]
    simp only [List.cons_append, List.nil_append, List.append_assoc]
    rw [List.foldl_cons, step_pend_break]
    rw [List.foldl_cons, step_top_blank]
    rw [List.foldl_cons, step_top_archive]
    rw [List.foldl_cons, step_arch_blank_nil]
    rw [fold_items_arch (a :: as) ha
      (settingsMarker :: linesOf (codeFence ++ '\n' :: (s ++ suf1)))
      (lanesOutFrom none lsB ++ closePend (pendOutFrom none lsB)) []
      false none]
    rw [List.foldl_cons, step_arch_marker]
    rw [fold_stopped]
    rw [finalizeP]
    rw [lanesOut_close]
    rw [show closePend none = ([] : List Lane) from rfl, List.nil_append]
    rw [show ([] : List Item) ++ closeCur none ++ (a :: as).map reparseItem
        = (a :: as).map reparseItem from by simp [closeCur]]

/-- C1: the round trip.  For every board in the well-formedness envelope
`WFBoardP` (trimmed backtick-free settings, a trimmed YAML payload that
cannot close its fence early, well-formed lanes and items), parsing the
serialized text recovers the board exactly on every governed field — lane
order, item order, checkbox state, raw title text, block identifiers,
settings and frontmatter — and re-serializing that parse reproduces the
original text byte for byte. -/
theorem c1_round_trip (B : Board) (h : WFBoardP B) :
    docParse (boardToMd B) = Except.ok (reparseBoard B) ∧
    boardToMd (reparseBoard B) = boardToMd B ∧
    governedBoard (reparseBoard B) = governedBoard B := by
  obtain ⟨hy1, hy2, hs1, hs2, hlanesWF, harchWF⟩ := h
  refine ⟨?_, boardToMd_reparse B, governed_reparse B⟩
  have hsetfoot : extractSettingsFooter (boardToMd B) = some B.data.settings := by
    rw [show boardToMd B
        = (joinNl ["---".toList, [], B.data.frontmatter, "---".toList, [], []]
            ++ (B.children.map laneToMd).foldl (· ++ ·) []
            ++ archiveToMd B.data.archive)
          ++ (pre1 ++ B.data.settings ++ suf1) from by
      rw [← settingsToCodeblock_shape B]
      rfl]
    exact extractSettingsFooter_board _ _ hs1 hs2
  have hmd : boardToMd B
      = '-' :: '-' :: '-' :: '\n' :: '\n'
          :: (B.data.frontmatter ++ '\n' :: '-' :: '-' :: '-' :: '\n' :: '\n'
            :: ((B.children.map laneToMd).flatten
              ++ (archiveToMd B.data.archive
                ++ (pre1 ++ (B.data.settings ++ suf1))))) := by
    rw [show boardToMd B
        = joinNl ["---".toList, [], B.data.frontmatter, "---".toList, [], []]
          ++ (B.children.map laneToMd).foldl (· ++ ·) []
          ++ archiveToMd B.data.archive ++ settingsToCodeblock B from rfl]
    rw [foldl_append_eq_flatten, settingsToCodeblock_shape]
    rw [show joinNl ["---".toList, [], B.data.frontmatter, "---".toList, [], []]
        = '-' :: '-' :: '-' :: '\n' :: '\n'
          :: (B.data.frontmatter ++ '\n' :: '-' :: '-' :: '-' :: '\n' :: '\n' :: [])
      from rfl]
    simp [List.append_assoc]
  have hfm : extractFrontmatter (boardToMd B)
      = .ok B.data.frontmatter
          ('\n' :: '\n' :: ((B.children.map laneToMd).flatten
            ++ (archiveToMd B.data.archive
              ++ (pre1 ++ (B.data.settings ++ suf1))))) := by
    rw [hmd]
    exact extractFrontmatter_board _ _ hy1 hy2
  rw [docParse, hfm, hsetfoot]
  show Except.ok (Board.mk []
      (parseBodyLines (linesOf ('\n' :: '\n'
        :: ((B.children.map laneToMd).flatten
          ++ (archiveToMd B.data.archive
            ++ (pre1 ++ (B.data.settings ++ suf1))))))).1
      (BoardData.mk
        (parseBodyLines (linesOf ('\n' :: '\n'
          :: ((B.children.map laneToMd).flatten
            ++ (archiveToMd B.data.archive
              ++ (pre1 ++ (B.data.settings ++ suf1))))))).2
        ((some B.data.settings).getD []) B.data.frontmatter []))
    = Except.ok (reparseBoard B)
  rw [parseBody_board B.children B.data.archive B.data.settings hlanesWF harchWF]
  rfl

def c1DemoBoard : Board :=
  Board.mk "demo".toList
    [Lane.mk "l1".toList (LaneData.mk "Todo".toList 0 false)
      [Item.mk "i1".toList
        ⟨"Task one".toList, ' ', none, [], none, none, [], none, none⟩,
       Item.mk "i2".toList
        ⟨"Line1\nLine2".toList, '/', some "abc".toList, [], none, none, [],
          none, none⟩],
     Lane.mk "l2".toList (LaneData.mk "Done".toList 2 true)
      [Item.mk "i3".toList
        ⟨"Finished".toList, 'x', none, [], none, none, [], none, none⟩]]
    (BoardData.mk
      [Item.mk "i4".toList
        ⟨"Old task".toList, 'x', none, [], none, none, [], none, none⟩]
      "1".toList "project: x".toList [])

set_option maxRecDepth 400000 in
/-- Witness for C1: a two-lane board with a capped completed lane, a
multi-line item with a block id, an archive and settings satisfies the
envelope and round-trips. -/
theorem c1_round_trip_witness :
    WFBoardP c1DemoBoard ∧
    docParse (boardToMd c1DemoBoard) = Except.ok (reparseBoard c1DemoBoard) :=
  ⟨by decide, (c1_round_trip c1DemoBoard (by decide)).1⟩

end Kanban
